import Mathlib

/-!
# CSS optimizer (`scripts/build-optimizer.js`): a shallow embedding

JavaScript strings are modelled as lists of characters (`Str`).  The regular
expressions of the source have no `u` flag and work on UTF-16 code units; none
of them tells the two halves of a surrogate pair apart, so reading a string
character by character gives the same matches, and only `length` counts a
character outside the basic plane once where JavaScript counts it twice.
Every regular expression of the source is written out as the scanning function
it denotes; the doc comment of each function quotes the expression.
JavaScript `Set`s of strings are modelled as duplicate-free lists in insertion
order, and `forEach` loops as left folds over the array.
-/

namespace BuildOptimizer

/-- A JavaScript string, as the list of its characters. -/
abbrev Str := List Char

/-! ## String primitives -/

/-- The characters matched by the regular-expression class `\s`, which are also
the characters removed by `String.prototype.trim` (ECMAScript WhiteSpace and
LineTerminator). -/
def isWs (c : Char) : Bool :=
  let n := c.toNat
  n == 9 || n == 10 || n == 11 || n == 12 || n == 13 || n == 32 || n == 160 ||
  n == 5760 || (8192 ≤ n && n ≤ 8202) || n == 8232 || n == 8233 || n == 8239 ||
  n == 8287 || n == 12288 || n == 65279

/-- The number of UTF-16 code units of a character. -/
def codeUnits (c : Char) : Nat :=
  if c.toNat < 65536 then 1 else 2

/-- The property `s.length` of a JavaScript string: its number of UTF-16 code
units. -/
def jsLength (s : Str) : Nat :=
  (s.map codeUnits).sum

/-- The method `String.prototype.trim`. -/
def trim (s : Str) : Str :=
  ((s.dropWhile isWs).reverse.dropWhile isWs).reverse

/-- The test `s.startsWith(p)`. -/
def startsWith (s p : Str) : Bool :=
  p.isPrefixOf s

/-- The test `s.includes(sub)`: `sub` occurs in `s` as a contiguous substring. -/
def includes : Str → Str → Bool
  | [], sub => sub.isPrefixOf []
  | c :: t, sub => sub.isPrefixOf (c :: t) || includes t sub

/-- The call `s.split(sep)` for a separator that matches exactly one character
(a one-character string, or a regular expression that is a single character
class): the pieces between the separator characters, empty pieces included.
The result always has at least one piece. -/
def splitBy (p : Char → Bool) : Str → List Str
  | [] => [[]]
  | c :: t =>
    if p c then [] :: splitBy p t
    else
      match splitBy p t with
      | [] => [[c]]
      | h :: r => (c :: h) :: r

/-- The call `parts.join('\n')`. -/
def joinLines (ls : List Str) : Str :=
  List.intercalate ['\n'] ls

/-- The call `text.split('\n')`. -/
def splitLines (s : Str) : List Str :=
  splitBy (fun c => c == '\n') s

/-- The method `Set.prototype.add` on a set kept as a list in insertion order. -/
def setAdd (s : List Str) (x : Str) : List Str :=
  if s.contains x then s else s ++ [x]

/-! ## `CSSOptimizer.shouldKeepRule` -/

/-- The array `essentialSelectors` of `shouldKeepRule`. -/
def essentialSelectors : List Str :=
  ["*".toList, "html".toList, "body".toList, ":root".toList, "::before".toList,
   "::after".toList, "@media".toList, "@keyframes".toList, "@font-face".toList]

/-- The separator class `[,\s>+~]` of `selector.split(/[,\s>+~]/)`. -/
def isSelectorSep (c : Char) : Bool :=
  c == ',' || isWs c || c == '>' || c == '+' || c == '~'

/-- The class `[:\[\]()]` removed by `part.trim().replace(/[:\[\]()]/g, '')`. -/
def isStripped (c : Char) : Bool :=
  c == ':' || c == '[' || c == ']' || c == '(' || c == ')'

/-- The class `[a-zA-Z]`. -/
def isAsciiLetter (c : Char) : Bool :=
  ('a' ≤ c && c ≤ 'z') || ('A' ≤ c && c ≤ 'Z')

/-- The class `[a-zA-Z0-9]`. -/
def isAsciiAlnum (c : Char) : Bool :=
  isAsciiLetter c || ('0' ≤ c && c ≤ '9')

/-- The test `/^[a-zA-Z][a-zA-Z0-9]*$/.test(s)`. -/
def isElementName : Str → Bool
  | [] => false
  | c :: t => isAsciiLetter c && t.all isAsciiAlnum

/-- The expression `part.trim().replace(/[:\[\]()]/g, '')`. -/
def cleanPart (part : Str) : Str :=
  (trim part).filter (fun c => !isStripped c)

/-- The callback of `selectorParts.some(...)` in `shouldKeepRule`. -/
def partMatches (usedClasses usedIds : List Str) (part : Str) : Bool :=
  let cp := cleanPart part
  if startsWith cp ['.'] then usedClasses.contains (cp.drop 1)
  else if startsWith cp ['#'] then usedIds.contains (cp.drop 1)
  else isElementName cp

/-- The method `shouldKeepRule(selector)`, with the two sets it reads. -/
def shouldKeepRule (usedClasses usedIds : List Str) (selector : Str) : Bool :=
  if essentialSelectors.any (fun essential => includes selector essential) then true
  else (splitBy isSelectorSep selector).any (partMatches usedClasses usedIds)

/-! ## The line scanner of `removeUnusedCSS` and `generateCriticalCSS` -/

/-- The local variables of the `lines.forEach` loop: `inRule`, `currentRule`,
`keepRule` and the array of lines pushed so far. -/
structure Scan where
  inRule : Bool
  currentRule : Str
  keepRule : Bool
  kept : List Str
  deriving DecidableEq

/-- The state before the first line. -/
def Scan.start : Scan :=
  { inRule := false, currentRule := [], keepRule := false, kept := [] }

/-- The expression `trimmedLine.split('{')[0].trim()`. -/
def selectorOf (trimmedLine : Str) : Str :=
  trim ((splitBy (fun c => c == '{') trimmedLine).headD [])

/-- The last branch of the loop body of `removeUnusedCSS`: the lines kept
outside a rule. -/
def passThrough (trimmedLine : Str) : Bool :=
  startsWith trimmedLine "/*".toList || startsWith trimmedLine "@".toList ||
  trimmedLine == [] || startsWith trimmedLine ":root".toList

/-- One iteration of `lines.forEach` in a scanner whose retention test is
`keep` and whose outside-a-rule test is `pass`. -/
def scanStep (keep : Str → Bool) (pass : Str → Bool) (st : Scan) (line : Str) : Scan :=
  let trimmedLine := trim line
  if includes trimmedLine ['{'] && !st.inRule then
    let currentRule := selectorOf trimmedLine
    let keepRule := keep currentRule
    { inRule := true, currentRule := currentRule, keepRule := keepRule,
      kept := if keepRule then st.kept ++ [line] else st.kept }
  else if trimmedLine == ['}'] && st.inRule then
    { inRule := false, currentRule := [], keepRule := false,
      kept := if st.keepRule then st.kept ++ [line] else st.kept }
  else if st.inRule && st.keepRule then
    { st with kept := st.kept ++ [line] }
  else if !st.inRule then
    if pass trimmedLine then { st with kept := st.kept ++ [line] } else st
  else st

/-- The loop `lines.forEach(...)` started in state `st`. -/
def scanFrom (keep : Str → Bool) (pass : Str → Bool) (st : Scan) (lines : List Str) : Scan :=
  lines.foldl (scanStep keep pass) st

/-- The lines `removeUnusedCSS` pushes to `optimizedLines` for the stylesheet
lines `lines`. -/
def removeUnusedLines (usedClasses usedIds : List Str) (lines : List Str) : List Str :=
  (scanFrom (shouldKeepRule usedClasses usedIds) passThrough Scan.start lines).kept

/-- The method `removeUnusedCSS()`, with the fields it reads. -/
def removeUnusedCSS (usedClasses usedIds : List Str) (cssContent : Str) : Str :=
  joinLines (removeUnusedLines usedClasses usedIds (splitLines cssContent))

/-- The selectors of the blocks the line scanner opens, whatever its retention
test: the value `currentRule` takes at each line that is read outside a rule
and whose trimmed text contains `{`.  The first argument is `inRule`. -/
def openingSelectors : Bool → List Str → List Str
  | _, [] => []
  | inRule, line :: rest =>
    if includes (trim line) ['{'] && !inRule then
      selectorOf (trim line) :: openingSelectors true rest
    else if trim line == ['}'] && inRule then openingSelectors false rest
    else openingSelectors inRule rest

/-! ## `CSSOptimizer.generateCriticalCSS` -/

/-- The array `criticalSelectors` of `generateCriticalCSS`. -/
def criticalSelectors : List Str :=
  ["html".toList, "body".toList, "*".toList, "::before".toList, "::after".toList,
   ".header".toList, ".logo".toList, ".nav".toList, ".nav-link".toList,
   ".mobile-nav-toggle".toList, ".hamburger".toList,
   ".hero".toList, ".hero-content".toList, ".hero-title".toList,
   ".hero-subtitle".toList, ".hero-cta".toList,
   ".btn".toList, ".btn-primary".toList, ".btn-secondary".toList,
   ".container".toList, ".sr-only".toList]

/-- The retention test of `generateCriticalCSS`:
`criticalSelectors.some(selector => currentRule.includes(selector) ||
currentRule.startsWith(':root') || currentRule.startsWith('@media'))`. -/
def isCriticalRule (currentRule : Str) : Bool :=
  criticalSelectors.any (fun selector =>
    includes currentRule selector || startsWith currentRule ":root".toList ||
    startsWith currentRule "@media".toList)

/-- The last branch of the loop body of `generateCriticalCSS`: the lines kept
outside a rule. -/
def criticalPassThrough (trimmedLine : Str) : Bool :=
  startsWith trimmedLine "/*".toList || startsWith trimmedLine "@".toList ||
  trimmedLine == []

/-- The lines `generateCriticalCSS` pushes to `criticalLines`. -/
def generateCriticalLines (lines : List Str) : List Str :=
  (scanFrom isCriticalRule criticalPassThrough Scan.start lines).kept

/-- The method `generateCriticalCSS()`, with the field it reads. -/
def generateCriticalCSS (cssContent : Str) : Str :=
  joinLines (generateCriticalLines (splitLines cssContent))

/-! ## `CSSOptimizer.extractUsedSelectors` -/

/-- The class `["']`. -/
def isQuote (c : Char) : Bool :=
  c == '"' || c == '\''

/-- One attempt of the regular expression `name=["']([^"']+)["']` at the start
of `s`, where `attr` is the literal text `class=` or `id=`.  The greedy run
`[^"']+` takes every character up to the next quote, and no shorter run can be
followed by a quote, so the attempt succeeds exactly when a non-empty quote-free
run stands between two quote characters.  The result is the matched text. -/
def matchAttrAt (attr : Str) (s : Str) : Option Str :=
  if attr.isPrefixOf s then
    match s.drop attr.length with
    | [] => none
    | q :: rest =>
      if isQuote q then
        let run := rest.takeWhile (fun c => !isQuote c)
        match rest.dropWhile (fun c => !isQuote c) with
        | [] => none
        | q2 :: _ => if run.isEmpty then none else some (attr ++ q :: (run ++ [q2]))
      else none
  else none

/-- The call `text.match(re)` for a global regular expression `re` that never
matches the empty string: `attempt` tries `re` at the start of a suffix of the
text and returns the matched text.  Matches are found from left to right, and
the search resumes right after each match (the first argument counts the
characters of the last match still to be skipped).  The empty list stands for
the `null` that `match` returns when nothing matches. -/
def matchAll (attempt : Str → Option Str) : Nat → Str → List Str
  | _, [] => []
  | k + 1, _ :: t => matchAll attempt k t
  | 0, c :: t =>
    match attempt (c :: t) with
    | some m => m :: matchAll attempt (m.length - 1) t
    | none => matchAll attempt 0 t

/-- The call `s.replace(re, '')` for a non-global regular expression `re` that
never matches the empty string: the first match is removed.  `attempt` tries
`re` at the start of a suffix and returns the length of the match. -/
def removeFirst (attempt : Str → Option Nat) : Str → Str
  | [] => []
  | c :: t =>
    match attempt (c :: t) with
    | some n => (c :: t).drop n
    | none => c :: removeFirst attempt t

/-- One attempt of `name=["']` (the expression `/class=["']/` or `/id=["']/`). -/
def matchAttrOpen (attr : Str) (s : Str) : Option Nat :=
  if attr.isPrefixOf s then
    match s.drop attr.length with
    | [] => none
    | q :: _ => if isQuote q then some (attr.length + 1) else none
  else none

/-- One attempt of `["']`. -/
def matchQuote (s : Str) : Option Nat :=
  match s with
  | [] => none
  | q :: _ => if isQuote q then some 1 else none

/-- The expression `match.replace(/name=["']/, '').replace(/["']/, '')`. -/
def attrValue (attr : Str) (m : Str) : Str :=
  removeFirst matchQuote (removeFirst (matchAttrOpen attr) m)

/-- The body of `classMatches.forEach`: the trimmed non-empty pieces of
`attrValue(match).split(' ')`, in order. -/
def classTokens (m : Str) : List Str :=
  ((splitBy (fun c => c == ' ') (attrValue "class=".toList m)).map trim).filter
    (fun cls => !cls.isEmpty)

/-- The body of `idMatches.forEach`: the trimmed value when it is not empty. -/
def idTokens (m : Str) : List Str :=
  let id := attrValue "id=".toList m
  if (trim id).isEmpty then [] else [trim id]

/-- The fields of a `CSSOptimizer` the optimisation reads and writes. -/
structure CSSOptimizer where
  usedClasses : List Str
  usedIds : List Str
  cssContent : Str
  deriving DecidableEq

/-- The object built by `constructor()`. -/
def CSSOptimizer.new : CSSOptimizer :=
  { usedClasses := [], usedIds := [], cssContent := [] }

/-- The call `htmlContent.match(/class=["']([^"']+)["']/g)`. -/
def classMatches (htmlContent : Str) : List Str :=
  matchAll (matchAttrAt "class=".toList) 0 htmlContent

/-- The call `htmlContent.match(/id=["']([^"']+)["']/g)`. -/
def idMatches (htmlContent : Str) : List Str :=
  matchAll (matchAttrAt "id=".toList) 0 htmlContent

/-- The method `extractUsedSelectors(htmlContent)`. -/
def extractUsedSelectors (o : CSSOptimizer) (htmlContent : Str) : CSSOptimizer :=
  let classes := ((classMatches htmlContent).map classTokens).flatten
  let ids := ((idMatches htmlContent).map idTokens).flatten
  { o with usedClasses := classes.foldl setAdd o.usedClasses,
           usedIds := ids.foldl setAdd o.usedIds }

/-- The method `scanHTMLFiles`, given the contents of the `.html` files of the
directory in directory order: each is passed to `extractUsedSelectors`. -/
def scanHTMLFiles (o : CSSOptimizer) (htmlContents : List Str) : CSSOptimizer :=
  htmlContents.foldl extractUsedSelectors o

/-- The method `loadCSS`, given the content of the stylesheet file. -/
def loadCSS (o : CSSOptimizer) (css : Str) : CSSOptimizer :=
  { o with cssContent := css }

/-- The method `generateCriticalCSS()` as a function of the optimizer object:
of its fields the method reads `cssContent` and nothing else. -/
def generateCriticalCSSOf (o : CSSOptimizer) : Str :=
  generateCriticalCSS o.cssContent

/-! ## `CSSOptimizer.minifyCSS` -/

/-- The number of characters up to and including the first `*/` of `s`, when
there is one: how far the lazy `[\s\S]*?\*\/` reaches. -/
def commentEnd : Str → Option Nat
  | [] => none
  | c :: t =>
    if c == '*' && t.head? == some '/' then some 2
    else (commentEnd t).map (fun n => n + 1)

/-- The call `.replace(/\/\*[\s\S]*?\*\//g, '')`: every block comment, from a
`/*` to the first `*/` after it, is removed; a `/*` that is never closed stays.
The first argument counts the characters of the comment being removed that are
still to be skipped. -/
def removeComments : Nat → Str → Str
  | _, [] => []
  | k + 1, _ :: t => removeComments k t
  | 0, c :: t =>
    if c == '/' && t.head? == some '*' then
      match commentEnd (t.drop 1) with
      | some n => removeComments (n + 1) t
      | none => c :: removeComments 0 t
    else c :: removeComments 0 t

/-- The call `.replace(/\s+/g, ' ')`: every maximal run of whitespace becomes
one space.  The first argument tells whether the previous character was
whitespace (the run has already been replaced). -/
def collapseWs : Bool → Str → Str
  | _, [] => []
  | inRun, c :: t =>
    if isWs c then
      if inRun then collapseWs true t else ' ' :: collapseWs true t
    else c :: collapseWs false t

/-- The call `.replace(/\s*X\s*/g, 'X')` for a character `x` that is not
whitespace: the whitespace run right before an `x` and the whitespace run right
after it are removed.  An attempt that starts on whitespace succeeds exactly
when the run it starts in is followed by `x`; the first argument tells whether
the scan is inside the trailing `\s*` of the previous match. -/
def squeeze (x : Char) : Bool → Str → Str
  | _, [] => []
  | afterX, c :: t =>
    if c == x then x :: squeeze x true t
    else if isWs c then
      if afterX then squeeze x true t
      else if (t.dropWhile isWs).head? == some x then squeeze x false t
      else c :: squeeze x false t
    else c :: squeeze x false t

/-- The call `.replace(/;}/g, '}')`. -/
def dropSemicolons : Str → Str
  | [] => []
  | c :: t =>
    if c == ';' && t.head? == some '}' then dropSemicolons t
    else c :: dropSemicolons t

/-- The method `minifyCSS(css)`. -/
def minifyCSS (css : Str) : Str :=
  trim (dropSemicolons (squeeze ',' false (squeeze ':' false (squeeze ';' false
    (squeeze '}' false (squeeze '{' false (collapseWs false (removeComments 0 css))))))))

/-! ## Relations for the statements about `minifyCSS` -/

/-- Two whitespace characters side by side. -/
def WsPair (a b : Char) : Prop :=
  isWs a = true ∧ isWs b = true

/-- The pairs of adjacent characters of `bad`, and a whitespace character right
before or right after the character `x`. -/
def WsNear (bad : Char → Char → Prop) (x : Char) (a b : Char) : Prop :=
  bad a b ∨ (isWs a = true ∧ b = x) ∨ (a = x ∧ isWs b = true)

/-- The two characters block-comment delimiters are made of. -/
def isCommentChar (c : Char) : Bool :=
  c == '/' || c == '*'

/-- The text holds a complete block comment: a `/*` that is followed, later, by
a `*/`. -/
def HasComment (l : Str) : Prop :=
  ∃ u v w, l = u ++ '/' :: '*' :: (v ++ '*' :: '/' :: w)

/-- `Thinned b l l2`: the text `l2` is the text `l` with some characters taken
out or replaced, none of them a comment character (`/`, `*`), in such a way
that no two comment characters come to stand side by side: a character is
taken out only when the character kept before the gap or the character kept
after the gap is not a comment character, or the gap is at an end of the text.
The flag `b` tells that the character kept last before `l` is not a comment
character (or that there is none).  Every pass of `minifyCSS` after the first
is of this kind. -/
inductive Thinned : Bool → Str → Str → Prop
  | nil (b : Bool) : Thinned b [] []
  | keep (b : Bool) (c : Char) (l l2 : Str) :
      Thinned (!isCommentChar c) l l2 → Thinned b (c :: l) (c :: l2)
  | swap (b : Bool) (c d : Char) (l l2 : Str) :
      isCommentChar c = false → isCommentChar d = false →
      Thinned true l l2 → Thinned b (c :: l) (d :: l2)
  | dropAfter (c : Char) (l l2 : Str) :
      isCommentChar c = false → Thinned true l l2 → Thinned true (c :: l) l2
  | dropBefore (b : Bool) (c : Char) (l l2 : Str) :
      isCommentChar c = false → Thinned b l l2 →
      (∀ h, l2.head? = some h → isCommentChar h = false) → Thinned b (c :: l) l2

/-! ## `CSSOptimizer.optimize` -/

/-- The two files `optimize()` writes. -/
structure Artifacts where
  optimizedBundle : Str
  criticalOptimized : Str
  deriving DecidableEq

/-- The method `optimize()` of a fresh optimizer, given the contents of the
scanned `.html` files and of `css/style.css`: the contents written to
`css/optimized-bundle.css` and `css/critical-optimized.css`. -/
def optimize (htmlContents : List Str) (css : Str) : Artifacts :=
  let o := loadCSS (scanHTMLFiles CSSOptimizer.new htmlContents) css
  let optimizedCSS := removeUnusedCSS o.usedClasses o.usedIds o.cssContent
  let criticalCSS := generateCriticalCSS o.cssContent
  { optimizedBundle := minifyCSS optimizedCSS, criticalOptimized := minifyCSS criticalCSS }

/-! ## `PerformanceAnalyzer.analyzeCSS` -/

/-- The class `[^{}]`. -/
def notBrace (c : Char) : Bool :=
  !(c == '{' || c == '}')

/-- One attempt of `[^{}]+{[^{}]*}` at the start of `s`: a non-empty maximal
brace-free run, an opening brace, a maximal brace-free run, a closing brace.
(A shorter first run is followed by a brace-free character, never by `{`, and a
shorter second run never by `}`, so backtracking finds nothing more.) -/
def matchRuleAt (s : Str) : Option Str :=
  let sel := s.takeWhile notBrace
  if sel.isEmpty then none
  else
    match s.dropWhile notBrace with
    | [] => none
    | b :: rest =>
      if b == '{' then
        let body := rest.takeWhile notBrace
        match rest.dropWhile notBrace with
        | [] => none
        | e :: _ => if e == '}' then some (sel ++ '{' :: (body ++ ['}'])) else none
      else none

/-- One attempt of `[^{}]+(?={)` at the start of `s`: a non-empty maximal
brace-free run that is followed by `{`; the brace is not part of the match. -/
def matchSelectorAt (s : Str) : Option Str :=
  let sel := s.takeWhile notBrace
  if sel.isEmpty then none
  else
    match s.dropWhile notBrace with
    | [] => none
    | b :: _ => if b == '{' then some sel else none

/-- The value `analyzeCSS` returns. -/
structure Analysis where
  rules : Nat
  selectors : Nat
  size : Nat
  complexSelectors : Nat
  deriving DecidableEq

/-- The test `(sel.match(/\s/g) || []).length > 3`. -/
def isComplexSelector (sel : Str) : Bool :=
  decide ((sel.filter isWs).length > 3)

/-- The method `PerformanceAnalyzer.analyzeCSS`, given the content of the file. -/
def analyzeCSS (content : Str) : Analysis :=
  let rules := matchAll matchRuleAt 0 content
  let selectors := matchAll matchSelectorAt 0 content
  let complexSelectors := selectors.filter isComplexSelector
  { rules := rules.length, selectors := selectors.length, size := jsLength content,
    complexSelectors := complexSelectors.length }

/-! ## Sizes reported by `optimize` -/

/-- The number `optimize()` prints as savings, before `toFixed(1)`:
`(cssContent.length - minifiedCSS.length) / cssContent.length * 100`.  The
code computes it in floating point, which gives the same sign; for an empty
`cssContent` the code gets `NaN`. -/
def savings (cssContent minifiedCSS : Str) : ℚ :=
  ((jsLength cssContent : ℚ) - (jsLength minifiedCSS : ℚ)) / (jsLength cssContent : ℚ) * 100

/-! ## Stylesheets written one construct per line -/

/-- A top-level construct of a stylesheet written one construct per line: a
blank line, or a block made of an opening line, body lines and a closing
line. -/
inductive CssItem where
  | blank (line : Str)
  | block (openLine : Str) (body : List Str) (closeLine : Str)

/-- The lines of a construct, in order. -/
def CssItem.lines : CssItem → List Str
  | .blank line => [line]
  | .block openLine body closeLine => openLine :: (body ++ [closeLine])

/-- The construct is written as the scanner of `removeUnusedCSS` reads it: a
blank line trims to the empty string; the trimmed opening line of a block
contains `{`, no body line trims to `}`, and the closing line trims to `}`. -/
def CssItem.flat : CssItem → Bool
  | .blank line => trim line == []
  | .block openLine body closeLine =>
    includes (trim openLine) ['{'] && body.all (fun b => trim b != ['}'])
      && trim closeLine == ['}']

/-- A blank line is always in the output; a block is when its selector text
satisfies `shouldKeepRule`. -/
def CssItem.retained (usedClasses usedIds : List Str) : CssItem → Bool
  | .blank _ => true
  | .block openLine _ _ => shouldKeepRule usedClasses usedIds (selectorOf (trim openLine))

end BuildOptimizer

/-!
# Error handler (`scripts/error-handler.js`)
-/

namespace ErrorHandler

open BuildOptimizer (Str)

/-- The fields of an error object that `logError` reads: `type`, `message`,
and the optional `stack` and `element` (absent, `null` or `undefined` is
`none`).  The `timestamp` field is never read. -/
structure ErrorRecord where
  type : Str
  message : Str
  stack : Option Str
  element : Option Str
  deriving DecidableEq

/-- The field `maxErrors`. -/
def maxErrors : Nat := 50

/-- The test `if (value)` on an optional string: absent and empty are false. -/
def truthy : Option Str → Bool
  | none => false
  | some s => !s.isEmpty

/-- The test `hostname === 'localhost' || hostname === '127.0.0.1'`. -/
def isDevelopmentHost (hostname : Str) : Bool :=
  hostname == "localhost".toList || hostname == "127.0.0.1".toList

/-- The first statements of `logError`: `this.errors.push(error)`, then
`this.errors.shift()` when the array is longer than `maxErrors`. -/
def pushBounded (errors : List ErrorRecord) (error : ErrorRecord) : List ErrorRecord :=
  let pushed := errors ++ [error]
  if pushed.length > maxErrors then pushed.drop 1 else pushed

/-- The call `args.join(' ')`. -/
def joinArgs (args : List Str) : Str :=
  List.intercalate [' '] args

/-- A call `console.error(...args)` as far as the array `errors` goes.  When
`setupConsoleOverrides` has run (`overridden`), the function installed there
calls `logError` with a `Console Error` entry before it calls the original
function; the original function does not touch `errors`.  `log` is `logError`.
The result is `none` when the call does not return. -/
def consoleError (overridden : Bool)
    (log : List ErrorRecord → ErrorRecord → Option (List ErrorRecord))
    (errors : List ErrorRecord) (args : List Str) : Option (List ErrorRecord) :=
  if overridden then
    log errors
      { type := "Console Error".toList, message := joinArgs args, stack := none,
        element := none }
  else some errors

/-- The method `logError(error)` as a function on the array `errors`, for the
host name of the page and for the console as `setupConsoleOverrides` left it.
`logError` and the overridden `console.error` call each other, so the function
takes a bound on the depth of nested calls: the result is `none` when the bound
is reached before the call returns, and the array after the call otherwise. -/
def logError (hostname : Str) (overridden : Bool) :
    Nat → List ErrorRecord → ErrorRecord → Option (List ErrorRecord)
  | 0, _, _ => none
  | depth + 1, errors, error =>
    let errors1 := pushBounded errors error
    if isDevelopmentHost hostname then
      (consoleError overridden (logError hostname overridden depth) errors1
        [error.message]).bind fun errors2 =>
      (if truthy error.stack then
          consoleError overridden (logError hostname overridden depth) errors2
            [error.stack.getD []]
        else some errors2).bind fun errors3 =>
      if truthy error.element then
        consoleError overridden (logError hostname overridden depth) errors3
          ["Element:".toList, error.element.getD []]
      else some errors3
    else some errors1

/-- A sequence of calls of `logError`, one after the other. -/
def logErrors (hostname : Str) (overridden : Bool) (depth : Nat)
    (errors : List ErrorRecord) (calls : List ErrorRecord) : Option (List ErrorRecord) :=
  calls.foldlM (logError hostname overridden depth) errors

end ErrorHandler

/-!
# Validation suite (`validate-cross-browser-implementation.js`)
-/

namespace ValidationSuite

open BuildOptimizer (Str)

/-- The values the suite passes as `status`: `'passed'`, `'failed'` and
`'warning'`. -/
inductive Status where
  | passed
  | failed
  | warning
  deriving DecidableEq

/-- An entry of `results.tests` (without its timestamp). -/
structure TestResult where
  test : Str
  status : Status
  message : Str
  deriving DecidableEq

/-- The object `results`: the counters `passed`, `failed` and `warnings`, the
array `tests`, and whether the object has got a property `warning`.  That
property does not exist at first; `results['warning']++` creates it with the
value `NaN` (`undefined + 1`), and it stays `NaN` from then on. -/
structure Results where
  passed : Nat
  failed : Nat
  warnings : Nat
  tests : List TestResult
  warningIsNaN : Bool
  deriving DecidableEq

/-- The initial value of `results`. -/
def Results.initial : Results :=
  { passed := 0, failed := 0, warnings := 0, tests := [], warningIsNaN := false }

/-- The method `log(test, status, message)`: `results.tests.push(result)`, then
`results[status]++`, where the property named by the status is `passed`,
`failed` or `warning`. -/
def log (r : Results) (test : Str) (status : Status) (message : Str) : Results :=
  let result : TestResult := { test := test, status := status, message := message }
  let pushed : Results := { r with tests := r.tests ++ [result] }
  match status with
  | .passed => { pushed with passed := pushed.passed + 1 }
  | .failed => { pushed with failed := pushed.failed + 1 }
  | .warning => { pushed with warningIsNaN := true }

end ValidationSuite

/-!
# Navigation (`scripts/navigation.js`)
-/

namespace NavigationManager

open BuildOptimizer (Str)

/-- The test `s.endsWith(suffix)`. -/
def endsWith (s suffix : Str) : Bool :=
  suffix.isSuffixOf s

/-- The expression `isCurrentPage` of `setupActiveStates`. -/
def isCurrentPage (currentPath linkPath : Str) : Bool :=
  linkPath == currentPath ||
  (currentPath == "/".toList && endsWith linkPath "/index.html".toList) ||
  (endsWith currentPath "/index.html".toList && linkPath == "/".toList) ||
  (endsWith currentPath "/".toList && endsWith linkPath "/index.html".toList)

/-- A navigation link: the path of its `href`, whether its class list holds
`active`, and its `aria-current` attribute. -/
structure NavLink where
  path : Str
  active : Bool
  ariaCurrent : Option Str
  deriving DecidableEq

/-- The method `setupActiveStates()`, given `window.location.pathname` and the
links `document.querySelectorAll('.nav-link')` returns. -/
def setupActiveStates (currentPath : Str) (navLinks : List NavLink) : List NavLink :=
  navLinks.map fun link =>
    if isCurrentPage currentPath link.path then
      { link with active := true, ariaCurrent := some "page".toList }
    else
      { link with active := false, ariaCurrent := none }

/-- The expression `(index + 1) % navLinks.length`; `%` is the remainder that
takes the sign of the dividend. -/
def nextIndex (length index : Nat) : Int :=
  Int.tmod ((index : Int) + 1) (length : Int)

/-- The expression `(index - 1 + navLinks.length) % navLinks.length`. -/
def prevIndex (length index : Nat) : Int :=
  Int.tmod ((index : Int) - 1 + (length : Int)) (length : Int)

/-- The `keydown` listener of the link at `index`: the index of the link that
gets the focus, or `none` for a key the listener does not handle. -/
def keydownTarget (length index : Nat) (key : Str) : Option Int :=
  if key == "ArrowRight".toList || key == "ArrowDown".toList then
    some (nextIndex length index)
  else if key == "ArrowLeft".toList || key == "ArrowUp".toList then
    some (prevIndex length index)
  else if key == "Home".toList then some 0
  else if key == "End".toList then some ((length : Int) - 1)
  else none

end NavigationManager

namespace BuildOptimizer

/-! ## Lemmas on the string primitives -/

theorem includes_iff (s sub : Str) : includes s sub = true ↔ sub <:+: s := by
  induction s with
  | nil => simp [includes]
  | cons c t ih =>
    rw [includes, Bool.or_eq_true, ih, List.infix_cons_iff]
    simp [List.isPrefixOf_iff_prefix]

/-! ## Lemmas on the line scanner -/

theorem scanFrom_cons (keep pass : Str → Bool) (st : Scan) (l : Str) (ls : List Str) :
    scanFrom keep pass st (l :: ls) = scanFrom keep pass (scanStep keep pass st l) ls := rfl

theorem scanFrom_append (keep pass : Str → Bool) (st : Scan) (xs ys : List Str) :
    scanFrom keep pass st (xs ++ ys) = scanFrom keep pass (scanFrom keep pass st xs) ys := by
  simp [scanFrom, List.foldl_append]

/-- One iteration only appends to the lines kept so far, and what it appends
and the flags it sets do not depend on them. -/
theorem scanStep_clear (keep pass : Str → Bool) (st : Scan) (line : Str) :
    scanStep keep pass st line
      = { scanStep keep pass { st with kept := [] } line with
          kept := st.kept ++ (scanStep keep pass { st with kept := [] } line).kept } := by
  unfold scanStep
  simp only []
  split_ifs <;> simp

theorem scanFrom_clear (keep pass : Str → Bool) (st : Scan) (ls : List Str) :
    scanFrom keep pass st ls
      = { scanFrom keep pass { st with kept := [] } ls with
          kept := st.kept ++ (scanFrom keep pass { st with kept := [] } ls).kept } := by
  induction ls generalizing st with
  | nil => simp [scanFrom]
  | cons l ls ih =>
    rw [scanFrom_cons, scanFrom_cons, ih, ih (scanStep keep pass { st with kept := [] } l)]
    have h := scanStep_clear keep pass st l
    have e : ({ scanStep keep pass st l with kept := [] } : Scan)
        = { scanStep keep pass { st with kept := [] } l with kept := [] } := by
      rw [h]
    rw [e]
    have k : (scanStep keep pass st l).kept
        = st.kept ++ (scanStep keep pass { st with kept := [] } l).kept := by
      rw [h]
    rw [k]
    simp [List.append_assoc]

/-- Outside a rule the scanner holds no selector and no decision. -/
theorem scanStep_outside (keep pass : Str → Bool) (st : Scan) (line : Str)
    (h : st.inRule = false → st.currentRule = [] ∧ st.keepRule = false) :
    (scanStep keep pass st line).inRule = false →
      (scanStep keep pass st line).currentRule = [] ∧
      (scanStep keep pass st line).keepRule = false := by
  unfold scanStep
  simp only []
  split_ifs <;> simp_all

theorem scanFrom_outside (keep pass : Str → Bool) (st : Scan) (ls : List Str)
    (h : st.inRule = false → st.currentRule = [] ∧ st.keepRule = false) :
    (scanFrom keep pass st ls).inRule = false →
      (scanFrom keep pass st ls).currentRule = [] ∧
      (scanFrom keep pass st ls).keepRule = false := by
  induction ls generalizing st with
  | nil => simpa [scanFrom] using h
  | cons l ls ih =>
    rw [scanFrom_cons]
    exact ih _ (scanStep_outside keep pass st l h)

/-- The lines of a rule body: the scanner, inside a rule, pushes them when the
rule is kept and skips them otherwise. -/
theorem scanFrom_body (keep pass : Str → Bool) (st : Scan) (body : List Str)
    (hin : st.inRule = true) (hbody : ∀ b ∈ body, trim b ≠ ['}']) :
    scanFrom keep pass st body
      = { st with kept := if st.keepRule then st.kept ++ body else st.kept } := by
  induction body generalizing st with
  | nil => cases st; simp [scanFrom]
  | cons b bs ih =>
    have hb : trim b ≠ ['}'] := hbody b (List.mem_cons_self _ _)
    have hbs : ∀ x ∈ bs, trim x ≠ ['}'] := fun x hx => hbody x (List.mem_cons_of_mem _ hx)
    have hstep : scanStep keep pass st b
        = { st with kept := if st.keepRule then st.kept ++ [b] else st.kept } := by
      unfold scanStep
      cases st with
      | mk i c k o =>
        simp only [] at hin
        subst hin
        cases k <;> simp [hb]
    rw [scanFrom_cons, hstep, ih _ (by simpa using hin) hbs]
    cases st with
    | mk i c k o => cases k <;> simp

/-- A whole block read from outside a rule: an opening line, body lines none of
which is a lone closing brace, and a closing line.  The block is pushed whole
when the retention test accepts its selector and skipped whole otherwise, and
the scanner is outside a rule again. -/
theorem scanFrom_block (keep pass : Str → Bool) (st : Scan)
    (openLine : Str) (body : List Str) (closeLine : Str)
    (hout : st.inRule = false)
    (hopen : includes (trim openLine) ['{'] = true)
    (hbody : ∀ b ∈ body, trim b ≠ ['}'])
    (hclose : trim closeLine = ['}']) :
    scanFrom keep pass st (openLine :: (body ++ [closeLine]))
      = { inRule := false, currentRule := [], keepRule := false,
          kept := if keep (selectorOf (trim openLine))
                  then st.kept ++ openLine :: (body ++ [closeLine]) else st.kept } := by
  rw [scanFrom_cons, scanFrom_append]
  have hstep : scanStep keep pass st openLine
      = { inRule := true, currentRule := selectorOf (trim openLine),
          keepRule := keep (selectorOf (trim openLine)),
          kept := if keep (selectorOf (trim openLine)) then st.kept ++ [openLine]
                  else st.kept } := by
    unfold scanStep
    simp [hopen, hout]
  rw [hstep, scanFrom_body keep pass _ body rfl hbody]
  simp only [scanFrom, List.foldl_cons, List.foldl_nil]
  unfold scanStep
  have hno : includes ['}'] ['{'] = false := by decide
  cases hk : keep (selectorOf (trim openLine)) <;> simp [hclose, hno]


/-- Scanning from outside a rule with lines already kept: they stay in front of
what a fresh scan keeps. -/
theorem scanFrom_kept_outside (keep pass : Str → Bool) (o : List Str) (ls : List Str) :
    (scanFrom keep pass
        { inRule := false, currentRule := [], keepRule := false, kept := o } ls).kept
      = o ++ (scanFrom keep pass Scan.start ls).kept := by
  rw [scanFrom_clear]
  rfl

/-- A block that starts where the scanner is outside a rule contributes all of
its lines or none, between what the scanner keeps of the lines before it and of
the lines after it. -/
theorem scanFrom_around_block (keep pass : Str → Bool) (pre post : List Str)
    (openLine : Str) (body : List Str) (closeLine : Str)
    (hout : (scanFrom keep pass Scan.start pre).inRule = false)
    (hopen : includes (trim openLine) ['{'] = true)
    (hbody : ∀ b ∈ body, trim b ≠ ['}'])
    (hclose : trim closeLine = ['}']) :
    (scanFrom keep pass Scan.start (pre ++ openLine :: (body ++ closeLine :: post))).kept
      = (scanFrom keep pass Scan.start pre).kept
        ++ (if keep (selectorOf (trim openLine)) then openLine :: (body ++ [closeLine]) else [])
        ++ (scanFrom keep pass Scan.start post).kept := by
  have e : pre ++ openLine :: (body ++ closeLine :: post)
      = pre ++ ((openLine :: (body ++ [closeLine])) ++ post) := by simp
  rw [e, scanFrom_append, scanFrom_append,
    scanFrom_block keep pass _ openLine body closeLine hout hopen hbody hclose,
    scanFrom_kept_outside]
  cases keep (selectorOf (trim openLine)) <;> simp


/-! ## Lemmas on `shouldKeepRule` -/

theorem splitBy_of_no_sep (p : Char → Bool) (s : Str) (h : ∀ c ∈ s, p c = false) :
    splitBy p s = [s] := by
  induction s with
  | nil => rfl
  | cons c t ih =>
    have hc : p c = false := h c (List.mem_cons_self _ _)
    have ht : ∀ x ∈ t, p x = false := fun x hx => h x (List.mem_cons_of_mem _ hx)
    simp [splitBy, hc, ih ht]

theorem dropWhile_of_none (p : Char → Bool) (s : Str) (h : ∀ c ∈ s, p c = false) :
    s.dropWhile p = s := by
  cases s with
  | nil => rfl
  | cons c t => simp [List.dropWhile, h c (List.mem_cons_self _ _)]

theorem trim_of_no_ws (s : Str) (h : ∀ c ∈ s, isWs c = false) : trim s = s := by
  unfold trim
  rw [dropWhile_of_none isWs s h, dropWhile_of_none isWs s.reverse (by simpa using h)]
  simp

theorem isWs_of_not_sep (c : Char) (h : isSelectorSep c = false) : isWs c = false := by
  unfold isSelectorSep at h
  simp only [Bool.or_eq_false_iff] at h
  exact h.1.1.1.2

/-- The filter's reading of the selector `.C` when `C` has no separator
character and none of the stripped characters: one class part named `C`. -/
theorem shouldKeepRule_class (usedClasses usedIds : List Str) (C : Str)
    (hsep : ∀ c ∈ C, isSelectorSep c = false)
    (hstrip : ∀ c ∈ C, isStripped c = false) :
    shouldKeepRule usedClasses usedIds ('.' :: C)
      = (essentialSelectors.any (fun essential => includes ('.' :: C) essential)
          || usedClasses.contains C) := by
  have hsep2 : ∀ c ∈ '.' :: C, isSelectorSep c = false := by
    intro c hc
    rcases List.mem_cons.1 hc with rfl | hc
    · decide
    · exact hsep c hc
  have hws : ∀ c ∈ '.' :: C, isWs c = false := fun c hc => isWs_of_not_sep c (hsep2 c hc)
  have hclean : cleanPart ('.' :: C) = '.' :: C := by
    unfold cleanPart
    rw [trim_of_no_ws _ hws]
    have hd : isStripped '.' = false := by decide
    simp only [List.filter_cons, hd, Bool.not_false, if_true]
    congr 1
    rw [List.filter_eq_self]
    intro c hc
    simp [hstrip c hc]
  have hpm : partMatches usedClasses usedIds ('.' :: C) = usedClasses.contains C := by
    unfold partMatches
    simp only [hclean]
    simp [startsWith, List.isPrefixOf]
  unfold shouldKeepRule
  rw [splitBy_of_no_sep _ _ hsep2]
  simp only [List.any_cons, List.any_nil, Bool.or_false, hpm]
  cases essentialSelectors.any (fun essential => includes ('.' :: C) essential) <;> simp


/-! ## Lemmas on `extractUsedSelectors` -/

theorem mem_setAdd (s : List Str) (x y : Str) : y ∈ setAdd s x ↔ y ∈ s ∨ y = x := by
  unfold setAdd
  split_ifs with h
  · constructor
    · exact Or.inl
    · rintro (h1 | rfl)
      · exact h1
      · simpa using h
  · simp

theorem mem_foldl_setAdd (xs : List Str) (s : List Str) (y : Str) :
    y ∈ xs.foldl setAdd s ↔ y ∈ s ∨ y ∈ xs := by
  induction xs generalizing s with
  | nil => simp
  | cons x xs ih =>
    rw [List.foldl_cons, ih, mem_setAdd, List.mem_cons]
    tauto

/-- The classes in the set after one document: those already there and the
tokens of the class attributes matched in the document. -/
theorem mem_usedClasses_extract (o : CSSOptimizer) (doc : Str) (y : Str) :
    y ∈ (extractUsedSelectors o doc).usedClasses
      ↔ y ∈ o.usedClasses ∨ ∃ m ∈ classMatches doc, y ∈ classTokens m := by
  unfold extractUsedSelectors
  simp only [mem_foldl_setAdd, List.mem_flatten, List.mem_map]
  constructor
  · rintro (h | ⟨l, ⟨m, hm, rfl⟩, hy⟩)
    · exact Or.inl h
    · exact Or.inr ⟨m, hm, hy⟩
  · rintro (h | ⟨m, hm, hy⟩)
    · exact Or.inl h
    · exact Or.inr ⟨_, ⟨m, hm, rfl⟩, hy⟩

/-- The classes in the set after all documents. -/
theorem mem_usedClasses_scan (o : CSSOptimizer) (docs : List Str) (y : Str) :
    y ∈ (scanHTMLFiles o docs).usedClasses
      ↔ y ∈ o.usedClasses ∨ ∃ doc ∈ docs, ∃ m ∈ classMatches doc, y ∈ classTokens m := by
  unfold scanHTMLFiles
  induction docs generalizing o with
  | nil => simp
  | cons d ds ih =>
    rw [List.foldl_cons, ih, mem_usedClasses_extract]
    constructor
    · rintro ((h | ⟨m, hm, hy⟩) | ⟨doc, hdoc, m, hm, hy⟩)
      · exact Or.inl h
      · exact Or.inr ⟨d, List.mem_cons_self _ _, m, hm, hy⟩
      · exact Or.inr ⟨doc, List.mem_cons_of_mem _ hdoc, m, hm, hy⟩
    · rintro (h | ⟨doc, hdoc, m, hm, hy⟩)
      · exact Or.inl (Or.inl h)
      · rcases List.mem_cons.1 hdoc with rfl | hdoc
        · exact Or.inl (Or.inr ⟨m, hm, hy⟩)
        · exact Or.inr ⟨doc, hdoc, m, hm, hy⟩

/-- Every match reported by the global search is what one attempt returned at
some suffix of the text. -/
theorem matchAll_mem (attempt : Str → Option Str) (k : Nat) (s : Str) (m : Str)
    (h : m ∈ matchAll attempt k s) : ∃ t, t <:+ s ∧ attempt t = some m := by
  induction s generalizing k with
  | nil => simp [matchAll] at h
  | cons c t ih =>
    cases k with
    | succ k =>
      rw [matchAll] at h
      obtain ⟨u, hu, ha⟩ := ih k h
      exact ⟨u, hu.trans (List.suffix_cons c t), ha⟩
    | zero =>
      rw [matchAll] at h
      cases ha : attempt (c :: t) with
      | none =>
        rw [ha] at h
        obtain ⟨u, hu, hb⟩ := ih 0 h
        exact ⟨u, hu.trans (List.suffix_cons c t), hb⟩
      | some m2 =>
        rw [ha] at h
        rcases List.mem_cons.1 h with rfl | h
        · exact ⟨c :: t, List.suffix_refl _, ha⟩
        · obtain ⟨u, hu, hb⟩ := ih _ h
          exact ⟨u, hu.trans (List.suffix_cons c t), hb⟩

/-- The shape of a successful attribute match: the attribute name and `=`, a
quote, a non-empty run without quotes, a quote. -/
theorem matchAttrAt_some (attr s m : Str) (h : matchAttrAt attr s = some m) :
    ∃ q run q2 rest, s = attr ++ q :: (run ++ q2 :: rest) ∧ m = attr ++ q :: (run ++ [q2]) ∧
      isQuote q = true ∧ isQuote q2 = true ∧ run ≠ [] ∧ ∀ c ∈ run, isQuote c = false := by
  unfold matchAttrAt at h
  by_cases hp : attr.isPrefixOf s = true
  · obtain ⟨u, rfl⟩ := List.isPrefixOf_iff_prefix.1 hp
    rw [if_pos hp, List.drop_left] at h
    cases u with
    | nil => simp at h
    | cons q rest =>
      simp only [] at h
      by_cases hq : isQuote q = true
      · rw [if_pos hq] at h
        cases hd : rest.dropWhile (fun c => !isQuote c) with
        | nil => rw [hd] at h; simp at h
        | cons q2 rest2 =>
          rw [hd] at h
          simp only [] at h
          by_cases he : (rest.takeWhile (fun c => !isQuote c)).isEmpty = true
          · rw [if_pos he] at h; simp at h
          · rw [if_neg he] at h
            have hm : m = attr ++ q :: (rest.takeWhile (fun c => !isQuote c) ++ [q2]) := by
              simpa using h.symm
            refine ⟨q, rest.takeWhile (fun c => !isQuote c), q2, rest2, ?_, hm, hq, ?_, ?_, ?_⟩
            · rw [← hd, List.takeWhile_append_dropWhile]
            · have := List.head_dropWhile_not (fun c => !isQuote c) rest (by rw [hd]; simp)
              simpa [hd] using this
            · intro hnil
              exact he (by simp [hnil])
            · intro c hc
              have := List.mem_takeWhile_imp hc
              simpa using this
      · rw [if_neg hq] at h; simp at h
  · rw [if_neg hp] at h; simp at h


theorem removeFirst_matchQuote (run : Str) (q2 : Char)
    (hq2 : isQuote q2 = true) (hrun : ∀ c ∈ run, isQuote c = false) :
    removeFirst matchQuote (run ++ [q2]) = run := by
  induction run with
  | nil => simp [removeFirst, matchQuote, hq2]
  | cons c t ih =>
    have hc : isQuote c = false := hrun c (List.mem_cons_self _ _)
    have ht : ∀ x ∈ t, isQuote x = false := fun x hx => hrun x (List.mem_cons_of_mem _ hx)
    simp [removeFirst, matchQuote, hc, ih ht]

/-- The value the source extracts from a match is the run between its quotes. -/
theorem attrValue_of_match (attr : Str) (q : Char) (run : Str) (q2 : Char)
    (hq : isQuote q = true) (hq2 : isQuote q2 = true) (hrun : ∀ c ∈ run, isQuote c = false) :
    attrValue attr (attr ++ q :: (run ++ [q2])) = run := by
  unfold attrValue
  have h1 : removeFirst (matchAttrOpen attr) (attr ++ q :: (run ++ [q2])) = run ++ [q2] := by
    have ho : matchAttrOpen attr (attr ++ q :: (run ++ [q2])) = some (attr.length + 1) := by
      unfold matchAttrOpen
      have hp : attr.isPrefixOf (attr ++ q :: (run ++ [q2])) = true :=
        List.isPrefixOf_iff_prefix.2 (List.prefix_append _ _)
      rw [if_pos hp, List.drop_left]
      simp [hq]
    cases hl : attr ++ q :: (run ++ [q2]) with
    | nil => simp at hl
    | cons c t =>
      rw [hl] at ho
      rw [removeFirst, ho]
      simp only []
      rw [← hl]
      have e : attr ++ q :: (run ++ [q2]) = (attr ++ [q]) ++ (run ++ [q2]) := by simp
      rw [e]
      exact List.drop_left' (by simp)
  rw [h1, removeFirst_matchQuote run q2 hq2 hrun]

/-- The first piece of a split is a prefix of the text. -/
theorem splitBy_head_initial (p : Char → Bool) (u : Str) (b : Str) (bs : List Str)
    (hb : splitBy p u = b :: bs) : b <+: u := by
  induction u generalizing b bs with
  | nil =>
    simp [splitBy] at hb
    rw [hb.1]
  | cons d u ihu =>
    rw [splitBy] at hb
    split_ifs at hb with hd
    · simp at hb
      rw [hb.1]
      exact List.nil_prefix
    · cases hu : splitBy p u with
      | nil =>
        rw [hu] at hb
        simp at hb
        rw [← hb.1]
        exact List.prefix_append [d] u
      | cons b2 bs2 =>
        rw [hu] at hb
        simp at hb
        rw [← hb.1]
        exact (List.prefix_cons_inj d).2 (ihu b2 bs2 hu)

/-- Every piece of a split is a substring of the text. -/
theorem splitBy_piece_within (p : Char → Bool) (s : Str) (x : Str) (h : x ∈ splitBy p s) :
    x <:+: s := by
  induction s generalizing x with
  | nil =>
    simp [splitBy] at h
    subst h
    exact List.infix_refl _
  | cons c t ih =>
    rw [splitBy] at h
    split_ifs at h with hc
    · rcases List.mem_cons.1 h with rfl | h
      · exact List.nil_infix
      · exact (ih x h).trans (List.suffix_cons c t).isInfix
    · cases hs : splitBy p t with
      | nil =>
        rw [hs] at h
        simp at h
        subst h
        exact (List.prefix_append [c] t).isInfix
      | cons a r =>
        rw [hs] at h
        simp only [] at h
        rcases List.mem_cons.1 h with rfl | h
        · exact ((List.prefix_cons_inj c).2 (splitBy_head_initial p t a r hs)).isInfix
        · have hx : x ∈ splitBy p t := by rw [hs]; exact List.mem_cons_of_mem _ h
          exact (ih x hx).trans (List.suffix_cons c t).isInfix

theorem trim_within (s : Str) : trim s <:+: s := by
  unfold trim
  have h1 : ((s.dropWhile isWs).reverse.dropWhile isWs).reverse <+: s.dropWhile isWs := by
    have h := List.reverse_prefix.2 (List.dropWhile_suffix isWs (l := (s.dropWhile isWs).reverse))
    rw [List.reverse_reverse] at h
    exact h
  exact h1.isInfix.trans (List.dropWhile_suffix isWs).isInfix


/-- Every class token of a matched class attribute is a substring of the
document. -/
theorem classTokens_within (doc m C : Str) (hm : m ∈ classMatches doc)
    (hC : C ∈ classTokens m) : C <:+: doc := by
  obtain ⟨t, ht, ha⟩ := matchAll_mem _ _ _ _ hm
  obtain ⟨q, run, q2, rest, hs, hmm, hq, hq2, _, hrun⟩ := matchAttrAt_some _ _ _ ha
  unfold classTokens at hC
  rw [hmm, attrValue_of_match _ q run q2 hq hq2 hrun] at hC
  obtain ⟨hC1, _⟩ := List.mem_filter.1 hC
  obtain ⟨piece, hp, rfl⟩ := List.mem_map.1 hC1
  have h1 : trim piece <:+: run := (trim_within piece).trans (splitBy_piece_within _ _ _ hp)
  have h2 : run <:+: t := by
    rw [hs]
    refine ⟨"class=".toList ++ [q], q2 :: rest, ?_⟩
    simp
  exact (h1.trans h2).trans ht.isInfix

/-- Every class in the set of a fresh optimizer after the scan occurs in one of
the scanned documents. -/
theorem usedClasses_within (docs : List Str) (C : Str)
    (h : C ∈ (scanHTMLFiles CSSOptimizer.new docs).usedClasses) :
    ∃ doc ∈ docs, C <:+: doc := by
  rcases (mem_usedClasses_scan _ _ _).1 h with h0 | ⟨doc, hdoc, m, hm, hC⟩
  · simp [CSSOptimizer.new] at h0
  · exact ⟨doc, hdoc, classTokens_within doc m C hm hC⟩

/-- No entry of the allow-list is empty or starts with a dot, so one occurs in
`.C` only if it occurs in `C`. -/
theorem essential_in_class (C e : Str) (he : e ∈ essentialSelectors)
    (h : e <:+: '.' :: C) : e <:+: C := by
  rcases List.infix_cons_iff.1 h with hp | hi
  · exfalso
    have hne : ∀ x ∈ essentialSelectors, x.head? ≠ none ∧ x.head? ≠ some '.' := by decide
    obtain ⟨h1, h2⟩ := hne e he
    cases e with
    | nil => exact h1 rfl
    | cons a r =>
      have := List.cons_prefix_cons.1 hp
      exact h2 (by simp [this.1])
  · exact hi


/-! ## The claims

In the string literals below `\x7b` and `\x7d` are the braces of the stylesheet
text; each doc comment shows the text as it is written in a file. -/

/-- A selector text that contains an entry of the structural allow-list
(`*`, `html`, `body`, `:root`, `::before`, `::after`, `@media`, `@keyframes`,
`@font-face`) satisfies `shouldKeepRule` for every pair of used-class and
used-id sets.  When the scanner reads the block of such a selector from outside
a rule (the lines before it leave no rule open, no body line is a lone `}`, the
closing line is one), `removeUnusedCSS` keeps it whole: its opening line, its
body lines and its closing line stand in the output between what is kept of the
lines before and after it. -/
theorem essential_selector_retained (usedClasses usedIds : List Str)
    (selector essential : Str) (css : Str) (pre post : List Str)
    (openLine : Str) (body : List Str) (closeLine : Str)
    (hess : essential ∈ essentialSelectors) (hsel : essential <:+: selector)
    (hcss : splitLines css = pre ++ openLine :: (body ++ closeLine :: post))
    (hout : (scanFrom (shouldKeepRule usedClasses usedIds) passThrough Scan.start pre).inRule
      = false)
    (hopen : includes (trim openLine) ['{'] = true)
    (hrule : selectorOf (trim openLine) = selector)
    (hbody : ∀ b ∈ body, trim b ≠ ['}'])
    (hclose : trim closeLine = ['}']) :
    shouldKeepRule usedClasses usedIds selector = true ∧
    removeUnusedCSS usedClasses usedIds css
      = joinLines (removeUnusedLines usedClasses usedIds pre
          ++ openLine :: (body ++ [closeLine])
          ++ removeUnusedLines usedClasses usedIds post) := by
  have hkeep : shouldKeepRule usedClasses usedIds selector = true := by
    unfold shouldKeepRule
    have hany : essentialSelectors.any (fun e => includes selector e) = true :=
      List.any_eq_true.2 ⟨essential, hess, (includes_iff _ _).2 hsel⟩
    rw [if_pos hany]
  refine ⟨hkeep, ?_⟩
  unfold removeUnusedCSS removeUnusedLines
  rw [hcss, scanFrom_around_block _ _ pre post openLine body closeLine hout hopen hbody hclose,
    hrule, hkeep]
  simp

/-- The stylesheet `html {` / `  margin: 0;` / `}` / `.x {` / `}` with empty used
sets: the `html` block, read from outside a rule, is kept (and the `.x` block is
not). -/
theorem essential_selector_retained_witness :
    shouldKeepRule [] [] "html".toList = true ∧
    removeUnusedCSS [] [] "html \x7b\n  margin: 0;\n\x7d\n.x \x7b\n\x7d".toList
      = joinLines (removeUnusedLines [] [] []
          ++ "html \x7b".toList :: (["  margin: 0;".toList] ++ ["\x7d".toList])
          ++ removeUnusedLines [] [] [".x \x7b".toList, "\x7d".toList]) :=
  essential_selector_retained [] [] "html".toList "html".toList
    "html \x7b\n  margin: 0;\n\x7d\n.x \x7b\n\x7d".toList [] [".x \x7b".toList, "\x7d".toList]
    "html \x7b".toList ["  margin: 0;".toList] "\x7d".toList
    (by decide) (by decide) (by decide) (by decide) (by decide) (by decide) (by decide)
    (by decide)


/-- Claim C4, evaluated on the code.  Every selector text that contains an
entry of the structural allow-list satisfies `shouldKeepRule` for every pair of
used sets, but the block is not retained regardless of usage.  In the
stylesheet `.x{a:b}` / `html {` / ` margin: 0;` / `}` the scanner opens a rule
on the first line and closes it only on the last one, so the `html` block is
read as the body of `.x`: with empty used sets `removeUnusedCSS` returns the
empty text, and with the class `x` used it returns the whole stylesheet. -/
theorem essential_block_follows_inline_rule :
    (∀ (usedClasses usedIds : List Str) (selector essential : Str),
        essential ∈ essentialSelectors → essential <:+: selector →
        shouldKeepRule usedClasses usedIds selector = true)
      ∧ shouldKeepRule [] [] (selectorOf (trim "html \x7b".toList)) = true
      ∧ removeUnusedCSS [] [] ".x\x7ba:b\x7d\nhtml \x7b\n margin: 0;\n\x7d".toList = []
      ∧ removeUnusedCSS ["x".toList] [] ".x\x7ba:b\x7d\nhtml \x7b\n margin: 0;\n\x7d".toList
          = ".x\x7ba:b\x7d\nhtml \x7b\n margin: 0;\n\x7d".toList := by
  refine ⟨?_, by decide, by decide, by decide⟩
  intro usedClasses usedIds selector essential hess hsel
  unfold shouldKeepRule
  have hany : essentialSelectors.any (fun e => includes selector e) = true :=
    List.any_eq_true.2 ⟨essential, hess, (includes_iff _ _).2 hsel⟩
  rw [if_pos hany]


/-- C2, as stated, fails: the document `<div class="md:flex">` has the class
token `md:flex`, which `extractUsedSelectors` records, but `shouldKeepRule`
strips the colon of the selector `.md:flex` before the lookup, asks for the
class `mdflex`, and drops the rule and its block. -/
theorem used_class_with_colon_dropped :
    (scanHTMLFiles CSSOptimizer.new ["<div class=\"md:flex\">".toList]).usedClasses
      = ["md:flex".toList] ∧
    shouldKeepRule
      (scanHTMLFiles CSSOptimizer.new ["<div class=\"md:flex\">".toList]).usedClasses
      (scanHTMLFiles CSSOptimizer.new ["<div class=\"md:flex\">".toList]).usedIds
      ".md:flex".toList = false ∧
    removeUnusedCSS
      (scanHTMLFiles CSSOptimizer.new ["<div class=\"md:flex\">".toList]).usedClasses
      (scanHTMLFiles CSSOptimizer.new ["<div class=\"md:flex\">".toList]).usedIds
      ".md:flex \x7b\n  display: flex;\n\x7d".toList = [] := by
  decide

/-- C2 (amended): let `C` be a space-separated token of a class attribute that
`extractUsedSelectors` matched in one of the scanned documents, and let `C`
contain none of the characters the filter splits selectors on (`,`, whitespace,
`>`, `+`, `~`) or strips from them (`:`, `[`, `]`, `(`, `)`).  Then, with the
sets of a fresh optimizer after the scan, `shouldKeepRule('.C')` is true, and a
block with selector `.C` that starts where the scanner is outside a rule is kept
whole by `removeUnusedCSS`. -/
theorem used_class_rule_retained (docs : List Str) (doc m C : Str)
    (css : Str) (pre post : List Str) (openLine : Str) (body : List Str) (closeLine : Str)
    (hdoc : doc ∈ docs) (hm : m ∈ classMatches doc) (hC : C ∈ classTokens m)
    (hsep : ∀ c ∈ C, isSelectorSep c = false)
    (hstrip : ∀ c ∈ C, isStripped c = false)
    (hcss : splitLines css = pre ++ openLine :: (body ++ closeLine :: post))
    (hout : (scanFrom (shouldKeepRule (scanHTMLFiles CSSOptimizer.new docs).usedClasses
        (scanHTMLFiles CSSOptimizer.new docs).usedIds) passThrough Scan.start pre).inRule = false)
    (hopen : includes (trim openLine) ['{'] = true)
    (hrule : selectorOf (trim openLine) = '.' :: C)
    (hbody : ∀ b ∈ body, trim b ≠ ['}'])
    (hclose : trim closeLine = ['}']) :
    shouldKeepRule (scanHTMLFiles CSSOptimizer.new docs).usedClasses
      (scanHTMLFiles CSSOptimizer.new docs).usedIds ('.' :: C) = true ∧
    removeUnusedCSS (scanHTMLFiles CSSOptimizer.new docs).usedClasses
      (scanHTMLFiles CSSOptimizer.new docs).usedIds css
      = joinLines
          (removeUnusedLines (scanHTMLFiles CSSOptimizer.new docs).usedClasses
              (scanHTMLFiles CSSOptimizer.new docs).usedIds pre
            ++ openLine :: (body ++ [closeLine])
            ++ removeUnusedLines (scanHTMLFiles CSSOptimizer.new docs).usedClasses
              (scanHTMLFiles CSSOptimizer.new docs).usedIds post) := by
  have hused : C ∈ (scanHTMLFiles CSSOptimizer.new docs).usedClasses :=
    (mem_usedClasses_scan _ _ _).2 (Or.inr ⟨doc, hdoc, m, hm, hC⟩)
  have hkeep : shouldKeepRule (scanHTMLFiles CSSOptimizer.new docs).usedClasses
      (scanHTMLFiles CSSOptimizer.new docs).usedIds ('.' :: C) = true := by
    rw [shouldKeepRule_class _ _ C hsep hstrip]
    have : (scanHTMLFiles CSSOptimizer.new docs).usedClasses.contains C = true := by
      simpa using hused
    rw [this, Bool.or_true]
  refine ⟨hkeep, ?_⟩
  unfold removeUnusedCSS removeUnusedLines
  rw [hcss, scanFrom_around_block _ _ pre post openLine body closeLine hout hopen hbody hclose,
    hrule, hkeep]
  simp

/-- C2 (amended), at the document `<div class="btn hero-title">`, the token
`btn` and the stylesheet `.unused {` / `}` / `.btn {` / `  color: red;` / `}`. -/
theorem used_class_rule_retained_witness :
    shouldKeepRule
      (scanHTMLFiles CSSOptimizer.new ["<div class=\"btn hero-title\">".toList]).usedClasses
      (scanHTMLFiles CSSOptimizer.new ["<div class=\"btn hero-title\">".toList]).usedIds
      ".btn".toList = true ∧
    removeUnusedCSS
      (scanHTMLFiles CSSOptimizer.new ["<div class=\"btn hero-title\">".toList]).usedClasses
      (scanHTMLFiles CSSOptimizer.new ["<div class=\"btn hero-title\">".toList]).usedIds
      ".unused \x7b\n\x7d\n.btn \x7b\n  color: red;\n\x7d".toList
      = joinLines
          (removeUnusedLines
              (scanHTMLFiles CSSOptimizer.new ["<div class=\"btn hero-title\">".toList]).usedClasses
              (scanHTMLFiles CSSOptimizer.new ["<div class=\"btn hero-title\">".toList]).usedIds
              [".unused \x7b".toList, "\x7d".toList]
            ++ ".btn \x7b".toList :: (["  color: red;".toList] ++ ["\x7d".toList])
            ++ removeUnusedLines
              (scanHTMLFiles CSSOptimizer.new ["<div class=\"btn hero-title\">".toList]).usedClasses
              (scanHTMLFiles CSSOptimizer.new ["<div class=\"btn hero-title\">".toList]).usedIds
              []) :=
  used_class_rule_retained ["<div class=\"btn hero-title\">".toList]
    "<div class=\"btn hero-title\">".toList "class=\"btn hero-title\"".toList "btn".toList
    ".unused \x7b\n\x7d\n.btn \x7b\n  color: red;\n\x7d".toList [".unused \x7b".toList, "\x7d".toList] []
    ".btn \x7b".toList ["  color: red;".toList] "\x7d".toList
    (by decide) (by decide) (by decide) (by decide) (by decide) (by decide) (by decide)
    (by decide) (by decide) (by decide) (by decide)

/-- C3, as stated, fails: the class name `card-body` appears in no scanned
document, yet the selector `.card-body` contains the allow-list entry `body`,
so `shouldKeepRule` is true and the block is kept whole. -/
theorem unused_class_with_body_kept :
    (∀ doc ∈ ["<div class=\"btn\">".toList], ¬ "card-body".toList <:+: doc) ∧
    shouldKeepRule
      (scanHTMLFiles CSSOptimizer.new ["<div class=\"btn\">".toList]).usedClasses
      (scanHTMLFiles CSSOptimizer.new ["<div class=\"btn\">".toList]).usedIds
      ".card-body".toList = true ∧
    removeUnusedCSS
      (scanHTMLFiles CSSOptimizer.new ["<div class=\"btn\">".toList]).usedClasses
      (scanHTMLFiles CSSOptimizer.new ["<div class=\"btn\">".toList]).usedIds
      ".card-body \x7b\n  padding: 0;\n\x7d".toList = ".card-body \x7b\n  padding: 0;\n\x7d".toList := by
  decide

/-- C3 (amended): let the class name `C` occur in no scanned document, contain
no entry of the structural allow-list, and contain none of the characters the
filter splits selectors on (`,`, whitespace, `>`, `+`, `~`) or strips from them
(`:`, `[`, `]`, `(`, `)`).  Then, with the sets of a fresh optimizer after the
scan, `shouldKeepRule('.C')` is false, and a block with selector `.C` that starts
where the scanner is outside a rule contributes no line to the output of
`removeUnusedCSS`. -/
theorem unused_class_rule_dropped (docs : List Str) (C : Str)
    (css : Str) (pre post : List Str) (openLine : Str) (body : List Str) (closeLine : Str)
    (hno : ∀ doc ∈ docs, ¬ C <:+: doc)
    (hess : ∀ e ∈ essentialSelectors, ¬ e <:+: C)
    (hsep : ∀ c ∈ C, isSelectorSep c = false)
    (hstrip : ∀ c ∈ C, isStripped c = false)
    (hcss : splitLines css = pre ++ openLine :: (body ++ closeLine :: post))
    (hout : (scanFrom (shouldKeepRule (scanHTMLFiles CSSOptimizer.new docs).usedClasses
        (scanHTMLFiles CSSOptimizer.new docs).usedIds) passThrough Scan.start pre).inRule = false)
    (hopen : includes (trim openLine) ['{'] = true)
    (hrule : selectorOf (trim openLine) = '.' :: C)
    (hbody : ∀ b ∈ body, trim b ≠ ['}'])
    (hclose : trim closeLine = ['}']) :
    shouldKeepRule (scanHTMLFiles CSSOptimizer.new docs).usedClasses
      (scanHTMLFiles CSSOptimizer.new docs).usedIds ('.' :: C) = false ∧
    removeUnusedCSS (scanHTMLFiles CSSOptimizer.new docs).usedClasses
      (scanHTMLFiles CSSOptimizer.new docs).usedIds css
      = joinLines
          (removeUnusedLines (scanHTMLFiles CSSOptimizer.new docs).usedClasses
              (scanHTMLFiles CSSOptimizer.new docs).usedIds pre
            ++ removeUnusedLines (scanHTMLFiles CSSOptimizer.new docs).usedClasses
              (scanHTMLFiles CSSOptimizer.new docs).usedIds post) := by
  have hunused : C ∉ (scanHTMLFiles CSSOptimizer.new docs).usedClasses := by
    intro h
    obtain ⟨doc, hdoc, hin⟩ := usedClasses_within docs C h
    exact hno doc hdoc hin
  have hkeep : shouldKeepRule (scanHTMLFiles CSSOptimizer.new docs).usedClasses
      (scanHTMLFiles CSSOptimizer.new docs).usedIds ('.' :: C) = false := by
    rw [shouldKeepRule_class _ _ C hsep hstrip, Bool.or_eq_false_iff]
    constructor
    · rw [List.any_eq_false]
      intro e he
      have hn : ¬ e <:+: '.' :: C := fun h => hess e he (essential_in_class C e he h)
      simpa [includes_iff] using hn
    · simpa using hunused
  refine ⟨hkeep, ?_⟩
  unfold removeUnusedCSS removeUnusedLines
  rw [hcss, scanFrom_around_block _ _ pre post openLine body closeLine hout hopen hbody hclose,
    hrule, hkeep]
  simp

/-- C3 (amended), at the document `<div class="btn hero-title">`, the class
`unused` and the stylesheet `.btn {` / `}` / `.unused {` / `  color: blue;` /
`}` / `html {` / `}`. -/
theorem unused_class_rule_dropped_witness :
    shouldKeepRule
      (scanHTMLFiles CSSOptimizer.new ["<div class=\"btn hero-title\">".toList]).usedClasses
      (scanHTMLFiles CSSOptimizer.new ["<div class=\"btn hero-title\">".toList]).usedIds
      ".unused".toList = false ∧
    removeUnusedCSS
      (scanHTMLFiles CSSOptimizer.new ["<div class=\"btn hero-title\">".toList]).usedClasses
      (scanHTMLFiles CSSOptimizer.new ["<div class=\"btn hero-title\">".toList]).usedIds
      ".btn \x7b\n\x7d\n.unused \x7b\n  color: blue;\n\x7d\nhtml \x7b\n\x7d".toList
      = joinLines
          (removeUnusedLines
              (scanHTMLFiles CSSOptimizer.new ["<div class=\"btn hero-title\">".toList]).usedClasses
              (scanHTMLFiles CSSOptimizer.new ["<div class=\"btn hero-title\">".toList]).usedIds
              [".btn \x7b".toList, "\x7d".toList]
            ++ removeUnusedLines
              (scanHTMLFiles CSSOptimizer.new ["<div class=\"btn hero-title\">".toList]).usedClasses
              (scanHTMLFiles CSSOptimizer.new ["<div class=\"btn hero-title\">".toList]).usedIds
              ["html \x7b".toList, "\x7d".toList]) :=
  unused_class_rule_dropped ["<div class=\"btn hero-title\">".toList] "unused".toList
    ".btn \x7b\n\x7d\n.unused \x7b\n  color: blue;\n\x7d\nhtml \x7b\n\x7d".toList
    [".btn \x7b".toList, "\x7d".toList] ["html \x7b".toList, "\x7d".toList]
    ".unused \x7b".toList ["  color: blue;".toList] "\x7d".toList
    (by decide) (by decide) (by decide) (by decide) (by decide) (by decide) (by decide)
    (by decide) (by decide) (by decide)


/-! ## The critical subset against the filtered stylesheet -/

/-- One iteration of two scanners over the same line.  When they agree on
`inRule`, the second keeps the rule whenever the first does, and the second
lets through outside a rule whatever the first lets through, the same holds
afterwards and the lines of the first stay a subsequence of the lines of the
second. -/
theorem scanStep_sublist (keepC passC keepF passF : Str → Bool) (sC sF : Scan) (line : Str)
    (hin : sC.inRule = sF.inRule)
    (hk : sC.inRule = true → sC.keepRule = true → sF.keepRule = true)
    (hs : sC.kept.Sublist sF.kept)
    (hpass : ∀ t, passC t = true → passF t = true)
    (hsel : includes (trim line) ['{'] = true → sC.inRule = false →
      keepC (selectorOf (trim line)) = true → keepF (selectorOf (trim line)) = true) :
    (scanStep keepC passC sC line).inRule = (scanStep keepF passF sF line).inRule ∧
    ((scanStep keepC passC sC line).inRule = true →
      (scanStep keepC passC sC line).keepRule = true →
      (scanStep keepF passF sF line).keepRule = true) ∧
    (scanStep keepC passC sC line).kept.Sublist (scanStep keepF passF sF line).kept := by
  have hpush : (sC.kept ++ [line]).Sublist (sF.kept ++ [line]) :=
    List.Sublist.append hs (List.Sublist.refl _)
  have hskip : sC.kept.Sublist (sF.kept ++ [line]) :=
    hs.trans (List.sublist_append_left _ _)
  cases sC with
  | mk iC cC kC oC =>
    cases sF with
    | mk iF cF kF oF =>
      simp only [] at hin hk hs hsel hpush hskip
      subst hin
      unfold scanStep
      simp only []
      by_cases ho : includes (trim line) ['{'] = true
      · cases iC
        · -- the line opens a block in both scanners
          simp only [ho, Bool.not_false, Bool.and_self, if_true]
          by_cases hc : keepC (selectorOf (trim line)) = true
          · have hf := hsel ho rfl hc
            simp [hc, hf, hpush]
          · have hc2 : keepC (selectorOf (trim line)) = false := by simpa using hc
            cases hf : keepF (selectorOf (trim line)) <;> simp [hc2, hs, hskip]
        · -- inside a rule an opening brace is an ordinary line
          simp only [ho, Bool.not_true, Bool.and_false, Bool.false_eq_true, if_false,
            Bool.and_true, Bool.true_and]
          by_cases hcl : (trim line == ['}']) = true
          · simp only [hcl, if_true]
            cases kC
            · cases kF <;> simp [hs, hskip]
            · have := hk rfl rfl
              subst this
              simp [hpush]
          · simp only [hcl, if_false]
            cases kC
            · cases kF <;> simp [hs, hskip]
            · have := hk rfl rfl
              subst this
              simp [hpush]
      · have ho2 : includes (trim line) ['{'] = false := by simpa using ho
        simp only [ho2, Bool.false_and, Bool.false_eq_true, if_false]
        cases iC
        · -- outside a rule: a pass-through line or nothing
          simp only [Bool.and_false, Bool.false_and, Bool.false_eq_true, if_false,
            Bool.not_false, if_true]
          by_cases hp : passC (trim line) = true
          · simp [hp, hpass _ hp, hpush]
          · have hp2 : passC (trim line) = false := by simpa using hp
            cases hf : passF (trim line) <;> simp [hp2, hs, hskip]
        · simp only [Bool.and_true, Bool.true_and]
          by_cases hcl : (trim line == ['}']) = true
          · simp only [hcl, if_true]
            cases kC
            · cases kF <;> simp [hs, hskip]
            · have := hk rfl rfl
              subst this
              simp [hpush]
          · simp only [hcl, if_false]
            cases kC
            · cases kF <;> simp [hs, hskip]
            · have := hk rfl rfl
              subst this
              simp [hpush]


/-- Both scanners move `inRule` the same way, whatever their tests. -/
theorem scanStep_inRule (keep pass : Str → Bool) (st : Scan) (line : Str) :
    (scanStep keep pass st line).inRule
      = if includes (trim line) ['{'] && !st.inRule then true
        else if trim line == ['}'] && st.inRule then false
        else st.inRule := by
  unfold scanStep
  simp only []
  split_ifs <;> simp_all

theorem scanFrom_sublist (keepC passC keepF passF : Str → Bool) (lines : List Str)
    (sC sF : Scan)
    (hin : sC.inRule = sF.inRule)
    (hk : sC.inRule = true → sC.keepRule = true → sF.keepRule = true)
    (hs : sC.kept.Sublist sF.kept)
    (hpass : ∀ t, passC t = true → passF t = true)
    (hsel : ∀ sel ∈ openingSelectors sC.inRule lines, keepC sel = true → keepF sel = true) :
    (scanFrom keepC passC sC lines).kept.Sublist (scanFrom keepF passF sF lines).kept := by
  induction lines generalizing sC sF with
  | nil => simpa [scanFrom] using hs
  | cons l ls ih =>
    rw [scanFrom_cons, scanFrom_cons]
    have hstep := scanStep_sublist keepC passC keepF passF sC sF l hin hk hs hpass
      (by
        intro ho hi hc
        refine hsel _ ?_ hc
        rw [openingSelectors, ho, hi]
        simp)
    refine ih _ _ hstep.1 hstep.2.1 hstep.2.2 ?_
    intro sel hmem
    refine hsel sel ?_
    rw [scanStep_inRule] at hmem
    rw [openingSelectors]
    split_ifs with h1 h2
    · rw [if_pos h1] at hmem
      exact List.mem_cons_of_mem _ hmem
    · rw [if_neg h1, if_pos h2] at hmem
      exact hmem
    · rw [if_neg h1, if_neg h2] at hmem
      exact hmem

/-- C6, as stated, fails: with the document `<p class="lead">` and the
stylesheet `.btn {` / `  color: red;` / `}` (no at-rule at all), the critical
subset keeps the three lines of the block, because `.btn` is on its fixed list,
while `removeUnusedCSS` keeps none, because the class `btn` is not used. -/
theorem critical_block_not_in_retained :
    generateCriticalCSS ".btn \x7b\n  color: red;\n\x7d".toList
      = ".btn \x7b\n  color: red;\n\x7d".toList ∧
    removeUnusedCSS
      (scanHTMLFiles CSSOptimizer.new ["<p class=\"lead\">".toList]).usedClasses
      (scanHTMLFiles CSSOptimizer.new ["<p class=\"lead\">".toList]).usedIds
      ".btn \x7b\n  color: red;\n\x7d".toList = [] := by
  decide

/-- C6 (amended): for every stylesheet (nested at-rules or not) and all used
sets, if every selector on which the scanner opens a block and which the
critical test accepts also satisfies `shouldKeepRule`, then the lines kept by
`generateCriticalCSS` are a subsequence of the lines kept by `removeUnusedCSS`:
every line of the critical subset is in the filtered stylesheet, in the same
order. -/
theorem critical_lines_sublist_retained (usedClasses usedIds : List Str) (css : Str)
    (hsel : ∀ sel ∈ openingSelectors false (splitLines css),
      isCriticalRule sel = true → shouldKeepRule usedClasses usedIds sel = true) :
    (generateCriticalLines (splitLines css)).Sublist
      (removeUnusedLines usedClasses usedIds (splitLines css)) := by
  unfold generateCriticalLines removeUnusedLines
  refine scanFrom_sublist _ _ _ _ _ _ _ rfl (fun h => by simp [Scan.start] at h)
    (List.Sublist.refl _) ?_ hsel
  intro t ht
  unfold criticalPassThrough at ht
  unfold passThrough
  simp only [Bool.or_eq_true] at ht ⊢
  rcases ht with (h | h) | h
  · exact Or.inl (Or.inl (Or.inl h))
  · exact Or.inl (Or.inl (Or.inr h))
  · exact Or.inl (Or.inr h)

/-- C6 (amended), at the stylesheet `html {` / `}` / `.btn {` / `  color: red;`
/ `}` / `.nav {` / `}` with the used classes `btn` and `nav`. -/
theorem critical_lines_sublist_retained_witness :
    (generateCriticalLines (splitLines "html \x7b\n\x7d\n.btn \x7b\n  color: red;\n\x7d\n.nav \x7b\n\x7d".toList)).Sublist
      (removeUnusedLines ["btn".toList, "nav".toList] []
        (splitLines "html \x7b\n\x7d\n.btn \x7b\n  color: red;\n\x7d\n.nav \x7b\n\x7d".toList)) :=
  critical_lines_sublist_retained ["btn".toList, "nav".toList] []
    "html \x7b\n\x7d\n.btn \x7b\n  color: red;\n\x7d\n.nav \x7b\n\x7d".toList (by decide)


/-! ## The scenarios the code does not meet -/

/-- C1: the scenario of the specification, evaluated.  The document is
`<div class="btn hero-title">` and the stylesheet holds the blocks
`.btn{color:red;}`, `.unused{color:blue;}`, `html{margin:0;}`, written one per
line or all on one line.  The scanner opens a rule at `.btn{` and never sees a
line that is a lone `}`, so everything after it is kept as the body of `.btn`:
the pruned output still holds the `.unused` block. -/
theorem optimize_scenario_keeps_unused :
    (optimize ["<div class=\"btn hero-title\">".toList]
        ".btn\x7bcolor:red;\x7d\n.unused\x7bcolor:blue;\x7d\nhtml\x7bmargin:0;\x7d".toList).optimizedBundle
      = ".btn\x7bcolor:red\x7d.unused\x7bcolor:blue\x7dhtml\x7bmargin:0\x7d".toList ∧
    (optimize ["<div class=\"btn hero-title\">".toList]
        ".btn\x7bcolor:red;\x7d.unused\x7bcolor:blue;\x7dhtml\x7bmargin:0;\x7d".toList).optimizedBundle
      = ".btn\x7bcolor:red\x7d.unused\x7bcolor:blue\x7dhtml\x7bmargin:0\x7d".toList ∧
    includes
      (optimize ["<div class=\"btn hero-title\">".toList]
        ".btn\x7bcolor:red;\x7d\n.unused\x7bcolor:blue;\x7d\nhtml\x7bmargin:0;\x7d".toList).optimizedBundle
      ".unused".toList = true := by
  decide

/-- C5: `minifyCSS` is not idempotent.  One pass of `.replace(/;}/g, '}')`
removes one semicolon of `;;}`, and the next call removes the other. -/
theorem minifyCSS_twice_differs :
    minifyCSS "a\x7bcolor:red;;\x7d".toList = "a\x7bcolor:red;\x7d".toList ∧
    minifyCSS (minifyCSS "a\x7bcolor:red;;\x7d".toList) = "a\x7bcolor:red\x7d".toList := by
  decide

/-- C7: an `@media` block with two inner rules, with empty used sets.  The
scanner ends the block at the closing brace of the first inner rule; the second
inner rule is then filtered by its own selector and dropped, and so is the
closing brace of the at-rule. -/
theorem media_block_cut_short :
    removeUnusedCSS [] []
        "@media (max-width: 600px) \x7b\n  .a \x7b\n    color: red;\n  \x7d\n  .b \x7b\n    color: blue;\n  \x7d\n\x7d".toList
      = "@media (max-width: 600px) \x7b\n  .a \x7b\n    color: red;\n  \x7d".toList := by
  decide

/-- C9: a class attribute whose tokens are separated by a tab.  The value is
split on the space character only, so the set gets the one member `a<tab>b` and
neither `a` nor `b`. -/
theorem tab_separated_classes_not_split :
    (scanHTMLFiles CSSOptimizer.new ["<div class=\"a\tb\">".toList]).usedClasses
      = ["a\tb".toList] := by
  decide

/-- C10: the values of `data-id="x"` and `valid="y"` are added to the used ids:
the expression `id=["']([^"']+)["']` also matches at the end of a longer
attribute name. -/
theorem other_attributes_read_as_ids :
    (scanHTMLFiles CSSOptimizer.new ["<div data-id=\"x\" valid=\"y\">".toList]).usedIds
      = ["x".toList, "y".toList] := by
  decide


/-! ## Lemmas on `analyzeCSS` -/

theorem takeWhile_run (p : Char → Bool) (s : Str) (x : Char) (r : Str)
    (hs : ∀ c ∈ s, p c = true) (hx : p x = false) :
    (s ++ x :: r).takeWhile p = s ∧ (s ++ x :: r).dropWhile p = x :: r := by
  induction s with
  | nil => simp [List.takeWhile, List.dropWhile, hx]
  | cons c t ih =>
    have hc : p c = true := hs c (List.mem_cons_self _ _)
    have ht := ih (fun y hy => hs y (List.mem_cons_of_mem _ hy))
    simp [List.takeWhile, List.dropWhile, hc, ht.1, ht.2]

theorem takeWhile_all (p : Char → Bool) (s : Str) (hs : ∀ c ∈ s, p c = true) :
    s.takeWhile p = s ∧ s.dropWhile p = [] := by
  induction s with
  | nil => simp
  | cons c t ih =>
    have hc : p c = true := hs c (List.mem_cons_self _ _)
    have ht := ih (fun y hy => hs y (List.mem_cons_of_mem _ hy))
    simp [List.takeWhile, List.dropWhile, hc, ht.1, ht.2]

/-- The search skips the rest of the match it has just reported. -/
theorem matchAll_skip (attempt : Str → Option Str) (xs rest : Str) :
    matchAll attempt xs.length (xs ++ rest) = matchAll attempt 0 rest := by
  induction xs with
  | nil => cases rest <;> simp [matchAll]
  | cons c t ih => simpa [matchAll] using ih

/-- Where no attempt succeeds on any suffix of a stretch of text, the search
passes over the stretch. -/
theorem matchAll_pass (attempt : Str → Option Str) (xs rest : Str)
    (h : ∀ u v, xs = u ++ v → v ≠ [] → attempt (v ++ rest) = none) :
    matchAll attempt 0 (xs ++ rest) = matchAll attempt 0 rest := by
  induction xs with
  | nil => simp
  | cons c t ih =>
    have h0 : attempt (c :: t ++ rest) = none := h [] (c :: t) rfl (by simp)
    have ht : ∀ u v, t = u ++ v → v ≠ [] → attempt (v ++ rest) = none := by
      intro u v huv hv
      exact h (c :: u) v (by simp [huv]) hv
    have h0b : attempt (c :: (t ++ rest)) = none := by simpa using h0
    rw [List.cons_append, matchAll, h0b]
    exact ih ht

theorem notBrace_open : notBrace '{' = false := by decide

theorem notBrace_close : notBrace '}' = false := by decide

theorem matchRuleAt_block (sel body rest : Str) (hne : sel ≠ [])
    (hsel : ∀ c ∈ sel, notBrace c = true) (hbody : ∀ c ∈ body, notBrace c = true) :
    matchRuleAt (sel ++ '{' :: (body ++ '}' :: rest)) = some (sel ++ '{' :: (body ++ ['}'])) := by
  unfold matchRuleAt
  obtain ⟨h1, h2⟩ := takeWhile_run notBrace sel '{' (body ++ '}' :: rest) hsel notBrace_open
  obtain ⟨h3, h4⟩ := takeWhile_run notBrace body '}' rest hbody notBrace_close
  have he : sel.isEmpty = false := by cases sel <;> simp_all
  simp [h1, h2, h3, h4, he]

theorem matchSelectorAt_block (sel rest : Str) (hne : sel ≠ [])
    (hsel : ∀ c ∈ sel, notBrace c = true) :
    matchSelectorAt (sel ++ '{' :: rest) = some sel := by
  unfold matchSelectorAt
  obtain ⟨h1, h2⟩ := takeWhile_run notBrace sel '{' rest hsel notBrace_open
  have he : sel.isEmpty = false := by cases sel <;> simp_all
  simp [h1, h2, he]

/-- The rule search reports a flat block and resumes after its closing brace. -/
theorem matchAll_rule_block (sel body rest : Str) (hne : sel ≠ [])
    (hsel : ∀ c ∈ sel, notBrace c = true) (hbody : ∀ c ∈ body, notBrace c = true) :
    matchAll matchRuleAt 0 (sel ++ '{' :: (body ++ '}' :: rest))
      = (sel ++ '{' :: (body ++ ['}'])) :: matchAll matchRuleAt 0 rest := by
  have hm := matchRuleAt_block sel body rest hne hsel hbody
  cases sel with
  | nil => exact absurd rfl hne
  | cons c t =>
    rw [List.cons_append] at hm ⊢
    rw [matchAll, hm]
    simp only []
    congr 1
    have hl : (c :: t ++ '{' :: (body ++ ['}'])).length - 1 = (t ++ '{' :: (body ++ ['}'])).length := by
      simp
    have e : t ++ '{' :: (body ++ '}' :: rest) = (t ++ '{' :: (body ++ ['}'])) ++ rest := by simp
    rw [hl, e, matchAll_skip]

/-- The rule search finds nothing in text without braces. -/
theorem matchAll_rule_tail (tail : Str) (h : ∀ c ∈ tail, notBrace c = true) :
    matchAll matchRuleAt 0 tail = [] := by
  have := matchAll_pass matchRuleAt tail [] (by
    intro u v huv hv
    have hv2 : ∀ c ∈ v, notBrace c = true := fun c hc => h c (by rw [huv]; simp [hc])
    obtain ⟨h1, h2⟩ := takeWhile_all notBrace v hv2
    unfold matchRuleAt
    simp [h1, h2])
  simpa [matchAll] using this

/-- The selector search reports the selector of a flat block and resumes after
the closing brace of the block. -/
theorem matchAll_selector_block (sel body rest : Str) (hne : sel ≠ [])
    (hsel : ∀ c ∈ sel, notBrace c = true) (hbody : ∀ c ∈ body, notBrace c = true) :
    matchAll matchSelectorAt 0 (sel ++ '{' :: (body ++ '}' :: rest))
      = sel :: matchAll matchSelectorAt 0 rest := by
  have hm := matchSelectorAt_block sel (body ++ '}' :: rest) hne hsel
  have hopen : ∀ r, matchSelectorAt ('{' :: r) = none := by
    intro r; simp [matchSelectorAt, List.takeWhile, notBrace_open]
  have hclose : ∀ r, matchSelectorAt ('}' :: r) = none := by
    intro r; simp [matchSelectorAt, List.takeWhile, notBrace_close]
  have hbodypass : matchAll matchSelectorAt 0 (body ++ '}' :: rest)
      = matchAll matchSelectorAt 0 ('}' :: rest) := by
    apply matchAll_pass
    intro u v huv hv
    have hv2 : ∀ c ∈ v, notBrace c = true := fun c hc => hbody c (by rw [huv]; simp [hc])
    obtain ⟨h1, h2⟩ := takeWhile_run notBrace v '}' rest hv2 notBrace_close
    have he : v.isEmpty = false := by cases v <;> simp_all
    unfold matchSelectorAt
    simp [h1, h2, he]
  cases sel with
  | nil => exact absurd rfl hne
  | cons c t =>
    rw [List.cons_append] at hm ⊢
    rw [matchAll, hm]
    simp only []
    congr 1
    have hl : (c :: t).length - 1 = t.length := by simp
    rw [hl, matchAll_skip, matchAll, hopen, hbodypass, matchAll, hclose]

/-- The selector search finds nothing in text without braces. -/
theorem matchAll_selector_tail (tail : Str) (h : ∀ c ∈ tail, notBrace c = true) :
    matchAll matchSelectorAt 0 tail = [] := by
  have := matchAll_pass matchSelectorAt tail [] (by
    intro u v huv hv
    have hv2 : ∀ c ∈ v, notBrace c = true := fun c hc => h c (by rw [huv]; simp [hc])
    obtain ⟨h1, h2⟩ := takeWhile_all notBrace v hv2
    unfold matchSelectorAt
    simp [h1, h2])
  simpa [matchAll] using this


/-- What `analyzeCSS` reports for three flat rule blocks
`sel1{body1}sel2{body2}sel3{body3}` followed by text without braces: three
rules, three selectors, and as complex those of the three texts `sel1`, `sel2`,
`sel3` (each runs from the previous closing brace to its opening brace) that
hold more than three whitespace characters. -/
theorem analyzeCSS_flat (s1 b1 s2 b2 s3 b3 tail : Str)
    (h1 : s1 ≠ []) (h2 : s2 ≠ []) (h3 : s3 ≠ [])
    (hs1 : ∀ c ∈ s1, notBrace c = true) (hb1 : ∀ c ∈ b1, notBrace c = true)
    (hs2 : ∀ c ∈ s2, notBrace c = true) (hb2 : ∀ c ∈ b2, notBrace c = true)
    (hs3 : ∀ c ∈ s3, notBrace c = true) (hb3 : ∀ c ∈ b3, notBrace c = true)
    (htail : ∀ c ∈ tail, notBrace c = true) :
    analyzeCSS (s1 ++ '{' :: (b1 ++ '}' :: (s2 ++ '{' :: (b2 ++ '}' ::
        (s3 ++ '{' :: (b3 ++ '}' :: tail))))))
      = { rules := 3, selectors := 3,
          size := jsLength (s1 ++ '{' :: (b1 ++ '}' :: (s2 ++ '{' :: (b2 ++ '}' ::
            (s3 ++ '{' :: (b3 ++ '}' :: tail)))))),
          complexSelectors := ([s1, s2, s3].filter isComplexSelector).length } := by
  unfold analyzeCSS
  simp only [matchAll_rule_block _ _ _ h1 hs1 hb1, matchAll_rule_block _ _ _ h2 hs2 hb2,
    matchAll_rule_block _ _ _ h3 hs3 hb3, matchAll_rule_tail _ htail,
    matchAll_selector_block _ _ _ h1 hs1 hb1, matchAll_selector_block _ _ _ h2 hs2 hb2,
    matchAll_selector_block _ _ _ h3 hs3 hb3, matchAll_selector_tail _ htail]
  simp

/-- C8, as stated, fails: each stylesheet below has exactly three rule blocks
and no selector nested more than two levels deep, and `analyzeCSS` reports one
complex selector.  In the first the selector list `h1, h2, h3, h4, h5` holds
four spaces; in the second the text matched for `.b .c` starts at the previous
closing brace and holds two newlines and two spaces. -/
theorem analyzeCSS_flags_shallow_selectors :
    analyzeCSS "h1, h2, h3, h4, h5\x7bmargin:0\x7d.a\x7bcolor:red\x7d.b\x7bcolor:blue\x7d".toList
      = { rules := 3, selectors := 3, size := 55, complexSelectors := 1 } ∧
    analyzeCSS
        ".a \x7b\n  color: red;\n\x7d\n\n.b .c \x7b\n  color: blue;\n\x7d\n\n.d \x7b\n  color: green;\n\x7d\n".toList
      = { rules := 3, selectors := 3, size := 71, complexSelectors := 1 } := by
  decide

/-- C8 (amended): for every stylesheet made of exactly three flat rule blocks
`sel1{body1}sel2{body2}sel3{body3}`, followed by text without braces, in which
each of the texts `sel1`, `sel2`, `sel3` before an opening brace holds at most
three whitespace characters, `analyzeCSS` returns `rules = 3` and
`complexSelectors = 0`. -/
theorem analyzeCSS_three_blocks (s1 b1 s2 b2 s3 b3 tail : Str)
    (h1 : s1 ≠ []) (h2 : s2 ≠ []) (h3 : s3 ≠ [])
    (hs1 : ∀ c ∈ s1, notBrace c = true) (hb1 : ∀ c ∈ b1, notBrace c = true)
    (hs2 : ∀ c ∈ s2, notBrace c = true) (hb2 : ∀ c ∈ b2, notBrace c = true)
    (hs3 : ∀ c ∈ s3, notBrace c = true) (hb3 : ∀ c ∈ b3, notBrace c = true)
    (htail : ∀ c ∈ tail, notBrace c = true)
    (hw1 : (s1.filter isWs).length ≤ 3) (hw2 : (s2.filter isWs).length ≤ 3)
    (hw3 : (s3.filter isWs).length ≤ 3) :
    (analyzeCSS (s1 ++ '{' :: (b1 ++ '}' :: (s2 ++ '{' :: (b2 ++ '}' ::
        (s3 ++ '{' :: (b3 ++ '}' :: tail))))))).rules = 3 ∧
    (analyzeCSS (s1 ++ '{' :: (b1 ++ '}' :: (s2 ++ '{' :: (b2 ++ '}' ::
        (s3 ++ '{' :: (b3 ++ '}' :: tail))))))).complexSelectors = 0 := by
  rw [analyzeCSS_flat s1 b1 s2 b2 s3 b3 tail h1 h2 h3 hs1 hb1 hs2 hb2 hs3 hb3 htail]
  have c1 : isComplexSelector s1 = false := by
    unfold isComplexSelector; simpa using hw1
  have c2 : isComplexSelector s2 = false := by
    unfold isComplexSelector; simpa using hw2
  have c3 : isComplexSelector s3 = false := by
    unfold isComplexSelector; simpa using hw3
  simp [c1, c2, c3]

/-- C8 (amended), at the stylesheet `.a {` / `  color: red;` / `}` / `.b .c {`
/ `  color: blue;` / `}` / `.d {` / `  color: green;` / `}`. -/
theorem analyzeCSS_three_blocks_witness :
    (analyzeCSS (".a ".toList ++ '{' :: ("\n  color: red;\n".toList ++ '}' ::
        ("\n.b .c ".toList ++ '{' :: ("\n  color: blue;\n".toList ++ '}' ::
        ("\n.d ".toList ++ '{' :: ("\n  color: green;\n".toList ++ '}' ::
        "\n".toList))))))).rules = 3 ∧
    (analyzeCSS (".a ".toList ++ '{' :: ("\n  color: red;\n".toList ++ '}' ::
        ("\n.b .c ".toList ++ '{' :: ("\n  color: blue;\n".toList ++ '}' ::
        ("\n.d ".toList ++ '{' :: ("\n  color: green;\n".toList ++ '}' ::
        "\n".toList))))))).complexSelectors = 0 :=
  analyzeCSS_three_blocks ".a ".toList "\n  color: red;\n".toList "\n.b .c ".toList
    "\n  color: blue;\n".toList "\n.d ".toList "\n  color: green;\n".toList "\n".toList
    (by decide) (by decide) (by decide) (by decide) (by decide) (by decide) (by decide)
    (by decide) (by decide) (by decide) (by decide) (by decide) (by decide)


/-! ## Absent and malformed attributes -/

/-- The global search finds nothing where no attempt succeeds at any suffix. -/
theorem matchAll_eq_nil (attempt : Str → Option Str) (k : Nat) (s : Str)
    (h : ∀ t, t <:+ s → attempt t = none) : matchAll attempt k s = [] := by
  rw [List.eq_nil_iff_forall_not_mem]
  intro m hm
  obtain ⟨t, ht, ha⟩ := matchAll_mem attempt k s m hm
  rw [h t ht] at ha
  exact Option.noConfusion ha

/-- No attribute match exists in a text in which the attribute name and `=` are
never followed by a quote and then a character that is not a quote. -/
theorem matchAll_attr_nil (attr html : Str)
    (h : ∀ q v, isQuote q = true → (attr ++ [q, v]) <:+: html → isQuote v = true) :
    matchAll (matchAttrAt attr) 0 html = [] := by
  apply matchAll_eq_nil
  intro t ht
  cases hm : matchAttrAt attr t with
  | none => rfl
  | some m =>
    exfalso
    obtain ⟨q, run, q2, rest, hs, _, hq, _, hne, hrun⟩ := matchAttrAt_some attr t m hm
    cases run with
    | nil => exact hne rfl
    | cons v run2 =>
      have hv : isQuote v = false := hrun v (List.mem_cons_self _ _)
      have hin : (attr ++ [q, v]) <:+: html := by
        refine List.IsInfix.trans ?_ ht.isInfix
        rw [hs]
        refine ⟨[], run2 ++ q2 :: rest, ?_⟩
        simp
      rw [h q v hq hin] at hv
      exact Bool.noConfusion hv

/-- A finite check of the hypothesis of `matchAll_attr_nil`: it is enough to
look at the two quote characters and at the characters of the text. -/
theorem quoted_value_check (attr html : Str)
    (h : ∀ q ∈ ['"', '\''], ∀ v ∈ html, (attr ++ [q, v]) <:+: html → isQuote v = true) :
    ∀ q v, isQuote q = true → (attr ++ [q, v]) <:+: html → isQuote v = true := by
  intro q v hq hin
  have hqm : q ∈ ['"', '\''] := by
    unfold isQuote at hq
    simp only [Bool.or_eq_true, beq_iff_eq] at hq
    rcases hq with rfl | rfl <;> simp
  have hvm : v ∈ html := by
    obtain ⟨a, b, hab⟩ := hin
    rw [← hab]
    simp
  exact h q hqm v hvm hin


/-- A markup text in which `class=` and `id=` are never followed by a
quoted non-empty value (wherever the name and `=` are followed by a quote and
one more character, that character is a quote again) changes nothing.  This is
the case when the attribute is absent, when its value is not quoted and when its
quoted value is empty.  `extractUsedSelectors` then returns the optimizer it was
given, with the same used classes and the same used ids; the function is total,
so no error is raised. -/
theorem malformed_attributes_contribute_nothing (o : CSSOptimizer) (html : Str)
    (hclass : ∀ q v, isQuote q = true → ("class=".toList ++ [q, v]) <:+: html →
      isQuote v = true)
    (hid : ∀ q v, isQuote q = true → ("id=".toList ++ [q, v]) <:+: html →
      isQuote v = true) :
    extractUsedSelectors o html = o ∧
    (extractUsedSelectors o html).usedClasses = o.usedClasses ∧
    (extractUsedSelectors o html).usedIds = o.usedIds := by
  have h : extractUsedSelectors o html = o := by
    unfold extractUsedSelectors classMatches idMatches
    rw [matchAll_attr_nil _ html hclass, matchAll_attr_nil _ html hid]
    cases o
    rfl
  rw [h]
  exact ⟨rfl, rfl, rfl⟩

/-- The text `<div class="" id=main title='x'><p class=lead>` and an
optimizer that already holds the class `btn` and the id `top`. -/
theorem malformed_attributes_contribute_nothing_witness :
    extractUsedSelectors
        { usedClasses := ["btn".toList], usedIds := ["top".toList], cssContent := [] }
        "<div class=\"\" id=main title='x'><p class=lead>".toList
      = { usedClasses := ["btn".toList], usedIds := ["top".toList], cssContent := [] } ∧
    (extractUsedSelectors
        { usedClasses := ["btn".toList], usedIds := ["top".toList], cssContent := [] }
        "<div class=\"\" id=main title='x'><p class=lead>".toList).usedClasses
      = ["btn".toList] ∧
    (extractUsedSelectors
        { usedClasses := ["btn".toList], usedIds := ["top".toList], cssContent := [] }
        "<div class=\"\" id=main title='x'><p class=lead>".toList).usedIds
      = ["top".toList] :=
  malformed_attributes_contribute_nothing
    { usedClasses := ["btn".toList], usedIds := ["top".toList], cssContent := [] }
    "<div class=\"\" id=main title='x'><p class=lead>".toList
    (quoted_value_check _ _ (by decide)) (quoted_value_check _ _ (by decide))

/-- Claim C11, evaluated on the code.  The markup
`<div data-id="x" data-class="y z">` has no `class` and no `id` attribute, and
`extractUsedSelectors` on a fresh optimizer adds the classes `y` and `z` and
the id `x`: the two expressions also match at the end of the longer attribute
names `data-class` and `data-id`. -/
theorem absent_attributes_contribute :
    (extractUsedSelectors CSSOptimizer.new
        "<div data-id=\"x\" data-class=\"y z\">".toList).usedClasses
      = ["y".toList, "z".toList]
    ∧ (extractUsedSelectors CSSOptimizer.new
        "<div data-id=\"x\" data-class=\"y z\">".toList).usedIds
      = ["x".toList] := by
  decide

/-! ## Element selectors -/

theorem alnum_not_ws (c : Char) (h : isAsciiAlnum c = true) : isWs c = false := by
  unfold isAsciiAlnum isAsciiLetter at h
  simp only [Bool.or_eq_true, Bool.and_eq_true, decide_eq_true_eq, Char.le_def,
    UInt32.le_def, Fin.le_def] at h
  have h2 : (97 ≤ c.toNat ∧ c.toNat ≤ 122) ∨ (65 ≤ c.toNat ∧ c.toNat ≤ 90) ∨
      (48 ≤ c.toNat ∧ c.toNat ≤ 57) := by
    rcases h with (h | h) | h
    · exact Or.inl h
    · exact Or.inr (Or.inl h)
    · exact Or.inr (Or.inr h)
  unfold isWs
  simp only [Bool.or_eq_false_iff, Bool.and_eq_false_iff, beq_eq_false_iff_ne, ne_eq,
    decide_eq_false_iff_not]
  omega


theorem alnum_code (c : Char) (h : isAsciiAlnum c = true) :
    (97 ≤ c.toNat ∧ c.toNat ≤ 122) ∨ (65 ≤ c.toNat ∧ c.toNat ≤ 90) ∨
      (48 ≤ c.toNat ∧ c.toNat ≤ 57) := by
  unfold isAsciiAlnum isAsciiLetter at h
  simp only [Bool.or_eq_true, Bool.and_eq_true, decide_eq_true_eq, Char.le_def,
    UInt32.le_def, Fin.le_def] at h
  rcases h with (h | h) | h
  · exact Or.inl h
  · exact Or.inr (Or.inl h)
  · exact Or.inr (Or.inr h)

theorem alnum_not_stripped (c : Char) (h : isAsciiAlnum c = true) : isStripped c = false := by
  have h2 := alnum_code c h
  unfold isStripped
  simp only [Bool.or_eq_false_iff, beq_eq_false_iff_ne, ne_eq]
  refine ⟨⟨⟨⟨?_, ?_⟩, ?_⟩, ?_⟩, ?_⟩ <;> · intro hc; subst hc; revert h2; decide

theorem alnum_not_dot_hash (c : Char) (h : isAsciiAlnum c = true) : c ≠ '.' ∧ c ≠ '#' := by
  have h2 := alnum_code c h
  constructor <;> · intro hc; subst hc; revert h2; decide

theorem letter_alnum (c : Char) (h : isAsciiLetter c = true) : isAsciiAlnum c = true := by
  unfold isAsciiAlnum
  rw [h]
  rfl

/-- A bare element name is its own clean part and passes the part test. -/
theorem partMatches_element (usedClasses usedIds : List Str) (part : Str)
    (hel : isElementName part = true) : partMatches usedClasses usedIds part = true := by
  cases part with
  | nil => simp [isElementName] at hel
  | cons c t =>
    have hel2 := hel
    unfold isElementName at hel2
    simp only [Bool.and_eq_true, List.all_eq_true] at hel2
    have hall : ∀ x ∈ c :: t, isAsciiAlnum x = true := by
      intro x hx
      rcases List.mem_cons.1 hx with rfl | hx
      · exact letter_alnum _ hel2.1
      · exact hel2.2 x hx
    have hclean : cleanPart (c :: t) = c :: t := by
      unfold cleanPart
      rw [trim_of_no_ws _ (fun x hx => alnum_not_ws x (hall x hx)), List.filter_eq_self]
      intro x hx
      simp [alnum_not_stripped x (hall x hx)]
    have hc := alnum_not_dot_hash c (hall c (List.mem_cons_self _ _))
    unfold partMatches
    simp only [hclean]
    simp [startsWith, List.isPrefixOf, Ne.symm hc.1, Ne.symm hc.2, hel]

/-- C12: a selector one of whose parts, as split on `,`, whitespace, `>`, `+`
and `~`, is a bare element name (an ASCII letter followed by ASCII letters or
digits) satisfies `shouldKeepRule` for every pair of used-class and used-id
sets, whatever its other parts are. -/
theorem element_part_keeps_rule (usedClasses usedIds : List Str) (selector part : Str)
    (hpart : part ∈ splitBy isSelectorSep selector) (hel : isElementName part = true) :
    shouldKeepRule usedClasses usedIds selector = true := by
  unfold shouldKeepRule
  split_ifs
  · rfl
  · exact List.any_eq_true.2 ⟨part, hpart, partMatches_element usedClasses usedIds part hel⟩

/-- C12, at the selector `.unused p` with empty used sets: the part `p` keeps
the rule although the class `unused` is not used. -/
theorem element_part_keeps_rule_witness :
    shouldKeepRule [] [] ".unused p".toList = true :=
  element_part_keeps_rule [] [] ".unused p".toList "p".toList (by decide) (by decide)


/-! ## What the filter keeps, line by line -/

/-- Lines once pushed stay: what the scanner has kept after some lines is the
beginning of what it has kept after more lines. -/
theorem scanFrom_kept_initial (keep pass : Str → Bool) (st : Scan) (ls : List Str) :
    st.kept <+: (scanFrom keep pass st ls).kept := by
  rw [scanFrom_clear]
  exact List.prefix_append _ _

/-- The line read outside a rule: an opening line is pushed when the retention
test accepts its selector, any other line when the pass-through test accepts
it. -/
theorem scanStep_outside_kept (keep pass : Str → Bool) (st : Scan) (line : Str)
    (hout : st.inRule = false) :
    (scanStep keep pass st line).kept
      = st.kept ++
        (if includes (trim line) ['{'] = true then
          (if keep (selectorOf (trim line)) = true then [line] else [])
         else (if pass (trim line) = true then [line] else [])) := by
  unfold scanStep
  simp only [hout]
  by_cases ho : includes (trim line) ['{'] = true
  · simp only [ho, Bool.not_false, Bool.and_self, if_true]
    split_ifs <;> simp
  · have ho2 : includes (trim line) ['{'] = false := by simpa using ho
    simp only [ho2, Bool.false_and, Bool.and_false, Bool.false_eq_true, if_false,
      Bool.not_false, if_true]
    split_ifs <;> simp

/-- An opening line whose selector the retention test rejects, and the body
lines after it: nothing is pushed, and the scanner is inside a rejected rule. -/
theorem scanFrom_rejected_body (keep pass : Str → Bool) (st : Scan)
    (openLine : Str) (body : List Str)
    (hout : st.inRule = false)
    (hopen : includes (trim openLine) ['{'] = true)
    (hrej : keep (selectorOf (trim openLine)) = false)
    (hbody : ∀ b ∈ body, trim b ≠ ['}']) :
    scanFrom keep pass st (openLine :: body)
      = { inRule := true, currentRule := selectorOf (trim openLine), keepRule := false,
          kept := st.kept } := by
  rw [scanFrom_cons]
  have hstep : scanStep keep pass st openLine
      = { inRule := true, currentRule := selectorOf (trim openLine), keepRule := false,
          kept := st.kept } := by
    unfold scanStep
    simp [hopen, hout, hrej]
  rw [hstep, scanFrom_body keep pass _ body rfl hbody]
  simp


/-- C13: let the scanner of `removeUnusedCSS` be outside a rule after the lines
`pre`, and let `line` be the next line.  If the trimmed line contains `{` it is
appended to the output exactly when its selector text satisfies
`shouldKeepRule` for the used sets; otherwise it is appended exactly when it is
a pass-through line (blank, or starting with `/*`, `@` or `:root`).  What is
appended stays at that place in the output of a longer stylesheet.  When the
selector of an opening line fails `shouldKeepRule`, no line of its block is in
the output: not the opening line, not the body lines, not the closing line, and
the output goes on with what is kept of the lines after the block. -/
theorem retained_lines_justified (usedClasses usedIds : List Str)
    (pre : List Str) (line : Str) (body : List Str) (closeLine : Str) (post : List Str)
    (hout : (scanFrom (shouldKeepRule usedClasses usedIds) passThrough Scan.start pre).inRule
      = false)
    (hbody : ∀ b ∈ body, trim b ≠ ['}'])
    (hclose : trim closeLine = ['}']) :
    (includes (trim line) ['{'] = true →
      removeUnusedLines usedClasses usedIds (pre ++ [line])
        = removeUnusedLines usedClasses usedIds pre
          ++ (if shouldKeepRule usedClasses usedIds (selectorOf (trim line)) = true
              then [line] else [])) ∧
    (includes (trim line) ['{'] = false →
      removeUnusedLines usedClasses usedIds (pre ++ [line])
        = removeUnusedLines usedClasses usedIds pre
          ++ (if passThrough (trim line) = true then [line] else [])) ∧
    removeUnusedLines usedClasses usedIds (pre ++ [line])
      <+: removeUnusedLines usedClasses usedIds (pre ++ line :: post) ∧
    (includes (trim line) ['{'] = true →
      shouldKeepRule usedClasses usedIds (selectorOf (trim line)) = false →
      removeUnusedLines usedClasses usedIds (pre ++ line :: body)
        = removeUnusedLines usedClasses usedIds pre ∧
      removeUnusedLines usedClasses usedIds (pre ++ line :: (body ++ [closeLine]))
        = removeUnusedLines usedClasses usedIds pre ∧
      removeUnusedLines usedClasses usedIds (pre ++ line :: (body ++ closeLine :: post))
        = removeUnusedLines usedClasses usedIds pre
          ++ removeUnusedLines usedClasses usedIds post) := by
  have hstep := scanStep_outside_kept (shouldKeepRule usedClasses usedIds) passThrough
    _ line hout
  have hone : removeUnusedLines usedClasses usedIds (pre ++ [line])
      = (scanStep (shouldKeepRule usedClasses usedIds) passThrough
          (scanFrom (shouldKeepRule usedClasses usedIds) passThrough Scan.start pre) line).kept := by
    unfold removeUnusedLines
    rw [scanFrom_append]
    rfl
  refine ⟨?_, ?_, ?_, ?_⟩
  · intro ho
    rw [hone, hstep, if_pos ho]
    rfl
  · intro ho
    rw [hone, hstep, if_neg (by simp [ho])]
    rfl
  · have e : pre ++ line :: post = (pre ++ [line]) ++ post := by simp
    unfold removeUnusedLines
    rw [e, scanFrom_append _ _ _ (pre ++ [line]) post]
    exact scanFrom_kept_initial _ _ _ _
  · intro ho hrej
    refine ⟨?_, ?_, ?_⟩
    · unfold removeUnusedLines
      rw [scanFrom_append, scanFrom_rejected_body _ _ _ line body hout ho hrej hbody]
    · unfold removeUnusedLines
      rw [scanFrom_append, scanFrom_block _ _ _ line body closeLine hout ho hbody hclose, hrej]
      simp
    · have h := scanFrom_around_block (shouldKeepRule usedClasses usedIds) passThrough
        pre post line body closeLine hout ho hbody hclose
      unfold removeUnusedLines
      rw [h, hrej]
      simp

/-- C13, at the stylesheet `.btn {` / `}` / `.unused {` / `  color: blue;` /
`}` / `` / `p {` with the used class `btn`: the scanner is outside a rule after
the first two lines, and the block of `.unused` leaves no line. -/
theorem retained_lines_justified_witness :
    (includes (trim ".unused \x7b".toList) ['{'] = true →
      removeUnusedLines ["btn".toList] []
          ([".btn \x7b".toList, "\x7d".toList] ++ [".unused \x7b".toList])
        = removeUnusedLines ["btn".toList] [] [".btn \x7b".toList, "\x7d".toList]
          ++ (if shouldKeepRule ["btn".toList] [] (selectorOf (trim ".unused \x7b".toList)) = true
              then [".unused \x7b".toList] else [])) ∧
    (includes (trim ".unused \x7b".toList) ['{'] = false →
      removeUnusedLines ["btn".toList] []
          ([".btn \x7b".toList, "\x7d".toList] ++ [".unused \x7b".toList])
        = removeUnusedLines ["btn".toList] [] [".btn \x7b".toList, "\x7d".toList]
          ++ (if passThrough (trim ".unused \x7b".toList) = true
              then [".unused \x7b".toList] else [])) ∧
    removeUnusedLines ["btn".toList] []
        ([".btn \x7b".toList, "\x7d".toList] ++ [".unused \x7b".toList])
      <+: removeUnusedLines ["btn".toList] []
        ([".btn \x7b".toList, "\x7d".toList] ++ ".unused \x7b".toList :: ["".toList, "p \x7b".toList]) ∧
    (includes (trim ".unused \x7b".toList) ['{'] = true →
      shouldKeepRule ["btn".toList] [] (selectorOf (trim ".unused \x7b".toList)) = false →
      removeUnusedLines ["btn".toList] []
          ([".btn \x7b".toList, "\x7d".toList] ++ ".unused \x7b".toList :: ["  color: blue;".toList])
        = removeUnusedLines ["btn".toList] [] [".btn \x7b".toList, "\x7d".toList] ∧
      removeUnusedLines ["btn".toList] []
          ([".btn \x7b".toList, "\x7d".toList]
            ++ ".unused \x7b".toList :: (["  color: blue;".toList] ++ ["\x7d".toList]))
        = removeUnusedLines ["btn".toList] [] [".btn \x7b".toList, "\x7d".toList] ∧
      removeUnusedLines ["btn".toList] []
          ([".btn \x7b".toList, "\x7d".toList]
            ++ ".unused \x7b".toList
              :: (["  color: blue;".toList] ++ "\x7d".toList :: ["".toList, "p \x7b".toList]))
        = removeUnusedLines ["btn".toList] [] [".btn \x7b".toList, "\x7d".toList]
          ++ removeUnusedLines ["btn".toList] [] ["".toList, "p \x7b".toList]) :=
  retained_lines_justified ["btn".toList] [] [".btn \x7b".toList, "\x7d".toList]
    ".unused \x7b".toList ["  color: blue;".toList] "\x7d".toList ["".toList, "p \x7b".toList]
    (by decide) (by decide) (by decide)


/-! ## The critical subset -/

/-- The retention test of `generateCriticalCSS`, spelled out: the selector text
contains a critical substring, or starts with `:root`, or starts with `@media`. -/
theorem isCriticalRule_iff (sel : Str) :
    isCriticalRule sel = true
      ↔ (∃ s ∈ criticalSelectors, s <:+: sel) ∨ ":root".toList <+: sel
          ∨ "@media".toList <+: sel := by
  unfold isCriticalRule
  rw [List.any_eq_true]
  constructor
  · rintro ⟨s, hs, h⟩
    simp only [Bool.or_eq_true, startsWith, List.isPrefixOf_iff_prefix, includes_iff] at h
    rcases h with (h | h) | h
    · exact Or.inl ⟨s, hs, h⟩
    · exact Or.inr (Or.inl h)
    · exact Or.inr (Or.inr h)
  · have hmem : "html".toList ∈ criticalSelectors := by decide
    rintro (⟨s, hs, h⟩ | h | h)
    · exact ⟨s, hs, by simp [includes_iff, h]⟩
    · refine ⟨_, hmem, ?_⟩
      rw [Bool.or_eq_true, Bool.or_eq_true]
      exact Or.inl (Or.inr (List.isPrefixOf_iff_prefix.2 h))
    · refine ⟨_, hmem, ?_⟩
      rw [Bool.or_eq_true, Bool.or_eq_true]
      exact Or.inr (List.isPrefixOf_iff_prefix.2 h)

/-- A block that `generateCriticalCSS` reads from outside a rule (an
opening line, body lines none of which is a lone `}`, a closing line that is a
lone `}`) is kept whole when its selector text, the trimmed text before the
first `{` of the opening line, contains one of the critical substrings or starts
with `:root` or with `@media`, and is dropped whole otherwise. -/
theorem critical_block_kept_iff (css : Str) (pre post : List Str)
    (openLine : Str) (body : List Str) (closeLine : Str)
    (hcss : splitLines css = pre ++ openLine :: (body ++ closeLine :: post))
    (hout : (scanFrom isCriticalRule criticalPassThrough Scan.start pre).inRule = false)
    (hopen : includes (trim openLine) ['{'] = true)
    (hbody : ∀ b ∈ body, trim b ≠ ['}'])
    (hclose : trim closeLine = ['}']) :
    (((∃ s ∈ criticalSelectors, s <:+: selectorOf (trim openLine))
        ∨ ":root".toList <+: selectorOf (trim openLine)
        ∨ "@media".toList <+: selectorOf (trim openLine)) →
      generateCriticalCSS css
        = joinLines (generateCriticalLines pre ++ openLine :: (body ++ [closeLine])
            ++ generateCriticalLines post)) ∧
    (¬ ((∃ s ∈ criticalSelectors, s <:+: selectorOf (trim openLine))
        ∨ ":root".toList <+: selectorOf (trim openLine)
        ∨ "@media".toList <+: selectorOf (trim openLine)) →
      generateCriticalCSS css
        = joinLines (generateCriticalLines pre ++ generateCriticalLines post)) := by
  have h := scanFrom_around_block isCriticalRule criticalPassThrough pre post openLine body
    closeLine hout hopen hbody hclose
  constructor
  · intro hc
    have hk := (isCriticalRule_iff _).2 hc
    unfold generateCriticalCSS generateCriticalLines
    rw [hcss, h, hk]
    simp
  · intro hc
    have hk : isCriticalRule (selectorOf (trim openLine)) = false := by
      cases hb : isCriticalRule (selectorOf (trim openLine))
      · rfl
      · exact absurd ((isCriticalRule_iff _).1 hb) hc
    unfold generateCriticalCSS generateCriticalLines
    rw [hcss, h, hk]
    simp

/-- The stylesheet `.card {` / `}` / `.hero-title {` / `  margin: 0;` /
`}` / `:root {` / `}`, for the block of `.hero-title`. -/
theorem critical_block_kept_iff_witness :
    (((∃ s ∈ criticalSelectors, s <:+: selectorOf (trim ".hero-title \x7b".toList))
        ∨ ":root".toList <+: selectorOf (trim ".hero-title \x7b".toList)
        ∨ "@media".toList <+: selectorOf (trim ".hero-title \x7b".toList)) →
      generateCriticalCSS
          ".card \x7b\n\x7d\n.hero-title \x7b\n  margin: 0;\n\x7d\n:root \x7b\n\x7d".toList
        = joinLines (generateCriticalLines [".card \x7b".toList, "\x7d".toList]
            ++ ".hero-title \x7b".toList :: (["  margin: 0;".toList] ++ ["\x7d".toList])
            ++ generateCriticalLines [":root \x7b".toList, "\x7d".toList])) ∧
    (¬ ((∃ s ∈ criticalSelectors, s <:+: selectorOf (trim ".hero-title \x7b".toList))
        ∨ ":root".toList <+: selectorOf (trim ".hero-title \x7b".toList)
        ∨ "@media".toList <+: selectorOf (trim ".hero-title \x7b".toList)) →
      generateCriticalCSS
          ".card \x7b\n\x7d\n.hero-title \x7b\n  margin: 0;\n\x7d\n:root \x7b\n\x7d".toList
        = joinLines (generateCriticalLines [".card \x7b".toList, "\x7d".toList]
            ++ generateCriticalLines [":root \x7b".toList, "\x7d".toList])) :=
  critical_block_kept_iff
    ".card \x7b\n\x7d\n.hero-title \x7b\n  margin: 0;\n\x7d\n:root \x7b\n\x7d".toList
    [".card \x7b".toList, "\x7d".toList] [":root \x7b".toList, "\x7d".toList]
    ".hero-title \x7b".toList ["  margin: 0;".toList] "\x7d".toList
    (by decide) (by decide) (by decide) (by decide) (by decide)

/-- Claim C18, evaluated on the code.  In the stylesheet `.card{color:red;}` /
`.btn {` / `  color: blue;` / `}` the selector `.btn` contains a critical
substring and `.card` does not, and `generateCriticalCSS` returns the empty
text: the `.btn` block is read as the body of the rule opened on the first
line.  In the stylesheet `.btn{color:red;}` / `.unused{color:blue;}` /
`html{margin:0;}` the selector `.unused` contains no critical substring and
starts with neither `:root` nor `@media`, and its block is in the output. -/
theorem critical_block_follows_inline_rule :
    isCriticalRule (selectorOf (trim ".btn \x7b".toList)) = true
      ∧ isCriticalRule (selectorOf (trim ".card\x7bcolor:red;\x7d".toList)) = false
      ∧ generateCriticalCSS ".card\x7bcolor:red;\x7d\n.btn \x7b\n  color: blue;\n\x7d".toList = []
      ∧ isCriticalRule (selectorOf (trim ".unused\x7bcolor:blue;\x7d".toList)) = false
      ∧ generateCriticalCSS
          ".btn\x7bcolor:red;\x7d\n.unused\x7bcolor:blue;\x7d\nhtml\x7bmargin:0;\x7d".toList
        = ".btn\x7bcolor:red;\x7d\n.unused\x7bcolor:blue;\x7d\nhtml\x7bmargin:0;\x7d".toList := by
  decide

/-- C19: the critical subset does not depend on the extracted usage.  For one
stylesheet, `generateCriticalCSS` returns the same text on two optimizers with
any used-class and used-id sets, and the critical file that `optimize` writes is
the same for any two collections of scanned documents. -/
theorem critical_subset_ignores_usage (css : Str)
    (usedClasses1 usedIds1 usedClasses2 usedIds2 : List Str) (docs1 docs2 : List Str) :
    generateCriticalCSSOf
        { usedClasses := usedClasses1, usedIds := usedIds1, cssContent := css }
      = generateCriticalCSSOf
        { usedClasses := usedClasses2, usedIds := usedIds2, cssContent := css } ∧
    (optimize docs1 css).criticalOptimized = (optimize docs2 css).criticalOptimized :=
  ⟨rfl, rfl⟩

/-! ## Monotonicity of the retention predicate -/

theorem partMatches_mono (uc ui uc2 ui2 : List Str) (part : Str)
    (hc : ∀ x ∈ uc, x ∈ uc2) (hi : ∀ x ∈ ui, x ∈ ui2)
    (h : partMatches uc ui part = true) : partMatches uc2 ui2 part = true := by
  unfold partMatches at h ⊢
  simp only [] at h ⊢
  split_ifs at h ⊢ with h1 h2
  · have := hc _ (by simpa using h)
    simpa using this
  · have := hi _ (by simpa using h)
    simpa using this
  · exact h

/-- C20: `shouldKeepRule` is monotonic in the used sets.  If it returns true
for a selector with the sets `(usedClasses, usedIds)`, it returns true for the
same selector with any sets that contain them; and the answer depends on the
members of the two sets only, so sets with the same members give the same
answer (the function is pure: the same selector and sets always give the same
value). -/
theorem shouldKeepRule_monotone (usedClasses usedIds usedClasses2 usedIds2 : List Str)
    (selector : Str)
    (hc : ∀ x ∈ usedClasses, x ∈ usedClasses2) (hi : ∀ x ∈ usedIds, x ∈ usedIds2)
    (h : shouldKeepRule usedClasses usedIds selector = true) :
    shouldKeepRule usedClasses2 usedIds2 selector = true ∧
    ((∀ x ∈ usedClasses2, x ∈ usedClasses) → (∀ x ∈ usedIds2, x ∈ usedIds) →
      ∀ sel, shouldKeepRule usedClasses2 usedIds2 sel = shouldKeepRule usedClasses usedIds sel) := by
  have mono : ∀ (a b a2 b2 : List Str) (sel : Str), (∀ x ∈ a, x ∈ a2) → (∀ x ∈ b, x ∈ b2) →
      shouldKeepRule a b sel = true → shouldKeepRule a2 b2 sel = true := by
    intro a b a2 b2 sel ha hb hk
    unfold shouldKeepRule at hk ⊢
    split_ifs at hk ⊢ with he
    · rfl
    · obtain ⟨part, hp, hm⟩ := List.any_eq_true.1 hk
      exact List.any_eq_true.2 ⟨part, hp, partMatches_mono a b a2 b2 part ha hb hm⟩
  refine ⟨mono _ _ _ _ _ hc hi h, ?_⟩
  intro hc2 hi2 sel
  cases h1 : shouldKeepRule usedClasses usedIds sel
  · cases h2 : shouldKeepRule usedClasses2 usedIds2 sel
    · rfl
    · rw [mono _ _ _ _ sel hc2 hi2 h2] at h1
      exact Bool.noConfusion h1
  · exact mono _ _ _ _ sel hc hi h1

/-- C20, at the selector `.card > .btn`: kept with the used class `btn`, hence
kept with the used classes `nav`, `btn` and the used id `top`. -/
theorem shouldKeepRule_monotone_witness :
    shouldKeepRule ["nav".toList, "btn".toList] ["top".toList] ".card > .btn".toList = true ∧
    ((∀ x ∈ ["nav".toList, "btn".toList], x ∈ ["btn".toList]) →
      (∀ x ∈ ["top".toList], x ∈ ([] : List Str)) →
      ∀ sel, shouldKeepRule ["nav".toList, "btn".toList] ["top".toList] sel
        = shouldKeepRule ["btn".toList] [] sel) :=
  shouldKeepRule_monotone ["btn".toList] [] ["nav".toList, "btn".toList] ["top".toList]
    ".card > .btn".toList (by decide) (by decide) (by decide)


/-! ## Comments and semicolons the code does not handle -/

/-- C14: a comment of two lines before a rule, outside any block.  Its first
line starts with `/*` and is kept; its second line, `   styles */`, passes none
of the tests for lines outside a rule and is dropped, so the comment is cut and
left open.  `minifyCSS` then takes the open `/* Header` and everything up to the
end of the next comment for one comment and removes the `html` rule with it. -/
theorem comment_of_two_lines_cut :
    removeUnusedCSS [] []
        "/* Header\n   styles */\nhtml \x7b\n  margin: 0;\n\x7d\n/* end */".toList
      = "/* Header\nhtml \x7b\n  margin: 0;\n\x7d\n/* end */".toList ∧
    (optimize [] "/* Header\n   styles */\nhtml \x7b\n  margin: 0;\n\x7d\n/* end */".toList).optimizedBundle
      = [] := by
  decide

/-- C16: a declaration block that ends in two semicolons.  The expression
`/;}/g` matches the second semicolon with the brace and removes that one; the
first semicolon now stands right before `}` in the output. -/
theorem semicolon_left_before_brace :
    minifyCSS "a\x7bcolor:red;;\x7d".toList = "a\x7bcolor:red;\x7d".toList ∧
    includes (minifyCSS "a\x7bcolor:red;;\x7d".toList) ";\x7d".toList = true := by
  decide


/-! ## The whitespace left by `minifyCSS` -/

/-- After `.replace(/\s+/g, ' ')` no two whitespace characters are side by
side, and a scan that is inside a run starts its output with a character that
is not whitespace. -/
theorem collapseWs_chain (s : Str) (inRun : Bool) :
    List.Chain' (fun a b => ¬ WsPair a b) (collapseWs inRun s) ∧
    (inRun = true → ∀ h rest, collapseWs inRun s = h :: rest → isWs h = false) := by
  induction s generalizing inRun with
  | nil => simp [collapseWs]
  | cons c t ih =>
    by_cases hc : isWs c = true
    · cases inRun
      · have e : collapseWs false (c :: t) = ' ' :: collapseWs true t := by
          simp [collapseWs, hc]
        rw [e]
        refine ⟨?_, fun h => Bool.noConfusion h⟩
        rw [List.chain'_cons']
        refine ⟨?_, (ih true).1⟩
        intro y hy
        rintro ⟨_, h2⟩
        cases hr : collapseWs true t with
        | nil => rw [hr] at hy; simp at hy
        | cons h rest =>
          rw [hr] at hy
          simp only [List.head?_cons, Option.mem_def, Option.some.injEq] at hy
          subst hy
          rw [(ih true).2 rfl h rest hr] at h2
          exact Bool.noConfusion h2
      · have e : collapseWs true (c :: t) = collapseWs true t := by
          simp [collapseWs, hc]
        rw [e]
        exact ih true
    · have hc2 : isWs c = false := by simpa using hc
      have e : collapseWs inRun (c :: t) = c :: collapseWs false t := by
        simp [collapseWs, hc2]
      rw [e]
      refine ⟨?_, ?_⟩
      · rw [List.chain'_cons']
        refine ⟨?_, (ih false).1⟩
        intro y _
        rintro ⟨h1, _⟩
        rw [hc2] at h1
        exact Bool.noConfusion h1
      · intro _ h rest hr
        simp only [List.cons.injEq] at hr
        rw [← hr.1]
        exact hc2


theorem head_mem_cons (l : Str) (y : Char) (h : y ∈ l.head?) : ∃ rest, l = y :: rest := by
  cases l with
  | nil => simp at h
  | cons a r =>
    simp only [List.head?_cons, Option.mem_def, Option.some.injEq] at h
    exact ⟨r, by rw [h]⟩

theorem squeeze_at_x (x : Char) (f : Bool) (t : Str) :
    squeeze x f (x :: t) = x :: squeeze x true t := by
  simp [squeeze]

theorem squeeze_ws_after (x c : Char) (t : Str) (hcx : c ≠ x) (hc : isWs c = true) :
    squeeze x true (c :: t) = squeeze x true t := by
  simp [squeeze, hcx, hc]

theorem squeeze_ws_before (x c : Char) (t : Str) (hcx : c ≠ x) (hc : isWs c = true)
    (hl : (t.dropWhile isWs).head? = some x) :
    squeeze x false (c :: t) = squeeze x false t := by
  simp [squeeze, hcx, hc, hl]

theorem squeeze_ws_kept (x c : Char) (t : Str) (hcx : c ≠ x) (hc : isWs c = true)
    (hl : (t.dropWhile isWs).head? ≠ some x) :
    squeeze x false (c :: t) = c :: squeeze x false t := by
  simp [squeeze, hcx, hc, hl]

theorem squeeze_other (x c : Char) (f : Bool) (t : Str) (hcx : c ≠ x) (hc : isWs c = false) :
    squeeze x f (c :: t) = c :: squeeze x false t := by
  simp [squeeze, hcx, hc]

theorem WsNear_ws (bad : Char → Char → Prop) (x : Char)
    (hbad : ∀ a b, bad a b → isWs a = true ∨ isWs b = true) :
    ∀ a b, WsNear bad x a b → isWs a = true ∨ isWs b = true := by
  intro a b h
  rcases h with h | ⟨h, _⟩ | ⟨_, h⟩
  · exact hbad a b h
  · exact Or.inl h
  · exact Or.inr h


/-- After `.replace(/\s*X\s*/g, 'X')` no whitespace stands right before or
right after `x`, and the pairs excluded before (all of which involve a
whitespace character) are still excluded.  The two other parts describe the
first character of the output, for the induction. -/
theorem squeeze_chain (x : Char) (hx : isWs x = false) (bad : Char → Char → Prop)
    (hbad : ∀ a b, bad a b → isWs a = true ∨ isWs b = true) (s : Str) (f : Bool)
    (hs : List.Chain' (fun a b => ¬ bad a b) s) :
    List.Chain' (fun a b => ¬ WsNear bad x a b) (squeeze x f s) ∧
    (f = true → ∀ h rest, squeeze x f s = h :: rest → isWs h = false) ∧
    (f = false → ∀ h rest, squeeze x f s = h :: rest →
      (h = x → (s.dropWhile isWs).head? = some x) ∧
      (h ≠ x → s.head? = some h) ∧
      (isWs h = true → (s.dropWhile isWs).head? ≠ some x)) := by
  induction s generalizing f with
  | nil => simp [squeeze]
  | cons c t ih =>
    have hst : List.Chain' (fun a b => ¬ bad a b) t := hs.tail
    have hct : ∀ y, t.head? = some y → ¬ bad c y := by
      intro y hy
      exact (List.chain'_cons'.1 hs).1 y hy
    by_cases hcx : c = x
    · -- the character `x` itself
      subst hcx
      rw [squeeze_at_x]
      obtain ⟨ih1, ih2, _⟩ := ih true hst
      refine ⟨?_, ?_, ?_⟩
      · rw [List.chain'_cons']
        refine ⟨?_, ih1⟩
        intro y hy
        obtain ⟨rest, hr⟩ := head_mem_cons _ y hy
        have hy2 : isWs y = false := ih2 rfl y rest hr
        intro hw
        have := WsNear_ws bad c hbad c y hw
        rw [hx, hy2] at this
        rcases this with h | h <;> exact Bool.noConfusion h
      · intro _ h rest hr
        simp only [List.cons.injEq] at hr
        rw [← hr.1]
        exact hx
      · intro _ h rest hr
        simp only [List.cons.injEq] at hr
        have hh : h = c := hr.1.symm
        subst hh
        refine ⟨fun _ => ?_, fun hne => absurd rfl hne, fun hw => ?_⟩
        · simp [List.dropWhile, hx]
        · rw [hx] at hw
          exact Bool.noConfusion hw
    · by_cases hc : isWs c = true
      · cases f
        · by_cases hl : (t.dropWhile isWs).head? = some x
          · -- whitespace before `x`: skipped
            rw [squeeze_ws_before x c t hcx hc hl]
            obtain ⟨ih1, _, ih3⟩ := ih false hst
            refine ⟨ih1, fun h => Bool.noConfusion h, ?_⟩
            intro _ h rest hr
            obtain ⟨k1, k2, k3⟩ := ih3 rfl h rest hr
            have hd : (c :: t).dropWhile isWs = t.dropWhile isWs := by
              simp [List.dropWhile, hc]
            have hhx : h = x := by
              by_contra hne
              have ht := k2 hne
              by_cases hw : isWs h = true
              · exact k3 hw hl
              · obtain ⟨r, hr2⟩ := head_mem_cons t h ht
                rw [hr2] at hl
                have hw2 : isWs h = false := by simpa using hw
                simp only [List.dropWhile, hw2, List.head?_cons, Option.some.injEq] at hl
                exact hne hl
            refine ⟨fun _ => by rw [hd]; exact hl, fun hne => absurd hhx hne, fun hw => ?_⟩
            rw [hhx, hx] at hw
            exact Bool.noConfusion hw
          · -- whitespace that is not before `x`: kept
            rw [squeeze_ws_kept x c t hcx hc hl]
            obtain ⟨ih1, _, ih3⟩ := ih false hst
            have hd : (c :: t).dropWhile isWs = t.dropWhile isWs := by
              simp [List.dropWhile, hc]
            refine ⟨?_, fun h => Bool.noConfusion h, ?_⟩
            · rw [List.chain'_cons']
              refine ⟨?_, ih1⟩
              intro y hy
              obtain ⟨rest, hr⟩ := head_mem_cons _ y hy
              obtain ⟨k1, k2, _⟩ := ih3 rfl y rest hr
              have hyx : y ≠ x := fun h => hl (k1 h)
              rintro (hb | ⟨_, h2⟩ | ⟨h1, _⟩)
              · exact hct y (k2 hyx) hb
              · exact hyx h2
              · exact hcx h1
            · intro _ h rest hr
              simp only [List.cons.injEq] at hr
              have hh : h = c := hr.1.symm
              subst hh
              refine ⟨fun h1 => absurd h1 hcx, fun _ => rfl, fun _ => ?_⟩
              rw [hd]
              exact hl
        · -- whitespace after `x`: skipped
          rw [squeeze_ws_after x c t hcx hc]
          obtain ⟨ih1, ih2, _⟩ := ih true hst
          exact ⟨ih1, ih2, fun h => Bool.noConfusion h⟩
      · -- any other character: kept
        have hc2 : isWs c = false := by simpa using hc
        rw [squeeze_other x c f t hcx hc2]
        obtain ⟨ih1, _, ih3⟩ := ih false hst
        refine ⟨?_, ?_, ?_⟩
        · rw [List.chain'_cons']
          refine ⟨?_, ih1⟩
          intro y hy
          obtain ⟨rest, hr⟩ := head_mem_cons _ y hy
          obtain ⟨_, k2, _⟩ := ih3 rfl y rest hr
          rintro (hb | ⟨h1, _⟩ | ⟨h1, _⟩)
          · by_cases hyx : y = x
            · have := hbad c y hb
              rw [hc2, hyx, hx] at this
              rcases this with h | h <;> exact Bool.noConfusion h
            · exact hct y (k2 hyx) hb
          · rw [hc2] at h1
            exact Bool.noConfusion h1
          · exact hcx h1
        · intro _ h rest hr
          simp only [List.cons.injEq] at hr
          rw [← hr.1]
          exact hc2
        · intro _ h rest hr
          simp only [List.cons.injEq] at hr
          have hh : h = c := hr.1.symm
          subst hh
          refine ⟨fun h1 => absurd h1 hcx, fun _ => rfl, fun hw => ?_⟩
          rw [hc2] at hw
          exact Bool.noConfusion hw


theorem dropSemicolons_at (t : Str) :
    dropSemicolons (';' :: '}' :: t) = '}' :: dropSemicolons t := by
  simp [dropSemicolons]

theorem dropSemicolons_other (c : Char) (t : Str) (h : ¬ (c = ';' ∧ t.head? = some '}')) :
    dropSemicolons (c :: t) = c :: dropSemicolons t := by
  rw [dropSemicolons]
  split_ifs with h2
  · exfalso
    apply h
    simpa using h2
  · rfl

/-- After `.replace(/;}/g, '}')` the excluded pairs are still excluded, when
all of them involve a whitespace character and whitespace before `;` is one of
them.  The second part describes the first character of the output. -/
theorem dropSemicolons_chain (bad : Char → Char → Prop)
    (hbad : ∀ a b, bad a b → isWs a = true ∨ isWs b = true)
    (hsemi : ∀ a, isWs a = true → bad a ';') (s : Str)
    (hs : List.Chain' (fun a b => ¬ bad a b) s) :
    List.Chain' (fun a b => ¬ bad a b) (dropSemicolons s) ∧
    (∀ h rest, dropSemicolons s = h :: rest →
      s.head? = some h ∨ (h = '}' ∧ ∃ t, s = ';' :: '}' :: t)) := by
  induction s with
  | nil => simp [dropSemicolons]
  | cons c t ih =>
    have hst : List.Chain' (fun a b => ¬ bad a b) t := hs.tail
    obtain ⟨ih1, ih2⟩ := ih hst
    by_cases h : c = ';' ∧ t.head? = some '}'
    · obtain ⟨hc, ht⟩ := h
      obtain ⟨t2, ht2⟩ := head_mem_cons t '}' ht
      subst hc
      subst ht2
      rw [dropSemicolons_at]
      have h3 : dropSemicolons ('}' :: t2) = '}' :: dropSemicolons t2 :=
        dropSemicolons_other '}' t2 (by simp)
      rw [h3] at ih1
      refine ⟨ih1, ?_⟩
      intro h rest hr
      simp only [List.cons.injEq] at hr
      exact Or.inr ⟨hr.1.symm, t2, rfl⟩
    · rw [dropSemicolons_other c t h]
      refine ⟨?_, ?_⟩
      · rw [List.chain'_cons']
        refine ⟨?_, ih1⟩
        intro y hy
        obtain ⟨rest, hr⟩ := head_mem_cons _ y hy
        rcases ih2 y rest hr with hy2 | ⟨hy2, t2, ht2⟩
        · exact (List.chain'_cons'.1 hs).1 y hy2
        · subst hy2
          subst ht2
          have hcs : ¬ bad c ';' := (List.chain'_cons'.1 hs).1 ';' (by simp)
          have hcw : isWs c = false := by
            cases hw : isWs c
            · rfl
            · exact absurd (hsemi c hw) hcs
          intro hb
          have := hbad c '}' hb
          rw [hcw] at this
          rcases this with h1 | h1
          · exact Bool.noConfusion h1
          · revert h1
            decide
      · intro h rest hr
        simp only [List.cons.injEq] at hr
        exact Or.inl (by simp [hr.1])

/-- The trimmed text starts and ends with a character that is not whitespace. -/
theorem trim_ends (s : Str) :
    (∀ c, (trim s).head? = some c → isWs c = false) ∧
    (∀ c, (trim s).getLast? = some c → isWs c = false) := by
  unfold trim
  constructor
  · intro c hc
    have hp : ((s.dropWhile isWs).reverse.dropWhile isWs).reverse <+: s.dropWhile isWs := by
      have h := List.reverse_prefix.2
        (List.dropWhile_suffix isWs (l := (s.dropWhile isWs).reverse))
      rw [List.reverse_reverse] at h
      exact h
    obtain ⟨rest, hr⟩ := head_mem_cons _ c hc
    rw [hr] at hp
    obtain ⟨u, hu⟩ := hp
    have hne : s.dropWhile isWs ≠ [] := by
      rw [← hu]
      simp
    have := List.head_dropWhile_not isWs s hne
    have e : (s.dropWhile isWs).head hne = c := by
      simp only [← hu]
      rfl
    rw [e] at this
    simpa using this
  · intro c hc
    rw [List.getLast?_reverse] at hc
    obtain ⟨rest, hr⟩ := head_mem_cons _ c hc
    have hne : (s.dropWhile isWs).reverse.dropWhile isWs ≠ [] := by
      rw [hr]
      simp
    have := List.head_dropWhile_not isWs (s.dropWhile isWs).reverse hne
    have e : ((s.dropWhile isWs).reverse.dropWhile isWs).head hne = c := by
      simp only [hr]
      rfl
    rw [e] at this
    simpa using this


/-- The pairs of adjacent characters that the output of `minifyCSS` never
holds: two whitespace characters, or a whitespace character next to one of
`{`, `}`, `;`, `:`, `,`. -/
theorem minifyCSS_chain (css : Str) :
    List.Chain'
      (fun a b => ¬ WsNear (WsNear (WsNear (WsNear (WsNear WsPair '{') '}') ';') ':') ',' a b)
      (minifyCSS css) := by
  have h0 : ∀ a b, WsPair a b → isWs a = true ∨ isWs b = true := fun a b h => Or.inl h.1
  have h1 := WsNear_ws WsPair '{' h0
  have h2 := WsNear_ws _ '}' h1
  have h3 := WsNear_ws _ ';' h2
  have h4 := WsNear_ws _ ':' h3
  have h5 := WsNear_ws _ ',' h4
  have c0 := (collapseWs_chain (removeComments 0 css) false).1
  have c1 := (squeeze_chain '{' (by decide) _ h0 _ false c0).1
  have c2 := (squeeze_chain '}' (by decide) _ h1 _ false c1).1
  have c3 := (squeeze_chain ';' (by decide) _ h2 _ false c2).1
  have c4 := (squeeze_chain ':' (by decide) _ h3 _ false c3).1
  have c5 := (squeeze_chain ',' (by decide) _ h4 _ false c4).1
  have c6 := (dropSemicolons_chain _ h5
    (fun a ha => Or.inl (Or.inl (Or.inr (Or.inl ⟨ha, rfl⟩)))) _ c5).1
  unfold minifyCSS
  exact List.Chain'.infix c6 (trim_within _)

/-- C15: for every input text the output of `minifyCSS` starts and ends with a
character that is not whitespace (when it is not empty), holds no two
whitespace characters side by side, and holds no whitespace character right
before or right after one of the characters `{`, `}`, `;`, `:`, `,`. -/
theorem minifyCSS_whitespace (css : Str) :
    (∀ c, (minifyCSS css).head? = some c → isWs c = false) ∧
    (∀ c, (minifyCSS css).getLast? = some c → isWs c = false) ∧
    (∀ a b, [a, b] <:+: minifyCSS css →
      ¬ (isWs a = true ∧ isWs b = true) ∧
      ¬ (isWs a = true ∧ b ∈ ['{', '}', ';', ':', ',']) ∧
      ¬ (a ∈ ['{', '}', ';', ':', ','] ∧ isWs b = true)) := by
  refine ⟨?_, ?_, ?_⟩
  · unfold minifyCSS
    exact (trim_ends _).1
  · unfold minifyCSS
    exact (trim_ends _).2
  · intro a b hab
    have hch := List.Chain'.infix (minifyCSS_chain css) hab
    have hn : ¬ WsNear (WsNear (WsNear (WsNear (WsNear WsPair '{') '}') ';') ':') ',' a b := by
      simpa using hch
    unfold WsNear WsPair at hn
    simp only [not_or, not_and] at hn
    obtain ⟨⟨⟨⟨⟨n0, n1, n2⟩, n3, n4⟩, n5, n6⟩, n7, n8⟩, n9, n10⟩ := hn
    refine ⟨fun h => ?_, fun h => ?_, fun h => ?_⟩
    · exact absurd h.2 (by simpa using n0 h.1)
    · obtain ⟨hw, hm⟩ := h
      simp only [List.mem_cons, List.mem_singleton, List.not_mem_nil, or_false] at hm
      rcases hm with h | h | h | h | h
      · exact n1 hw h
      · exact n3 hw h
      · exact n5 hw h
      · exact n7 hw h
      · exact n9 hw h
    · obtain ⟨hm, hw⟩ := h
      simp only [List.mem_cons, List.mem_singleton, List.not_mem_nil, or_false] at hm
      rcases hm with h | h | h | h | h
      · exact absurd hw (by simpa using n2 h)
      · exact absurd hw (by simpa using n4 h)
      · exact absurd hw (by simpa using n6 h)
      · exact absurd hw (by simpa using n8 h)
      · exact absurd hw (by simpa using n10 h)


/-! ## Block comments in the output of `minifyCSS` -/

/-- Right after a kept comment character nothing is taken out: the next comment
character of the thinned text is the next character of the text. -/
theorem Thinned.head_comment (l l2 : Str) (q : Char) (h : Thinned false l (q :: l2))
    (hq : isCommentChar q = true) : ∃ l3, l = q :: l3 ∧ Thinned false l3 l2 := by
  cases h with
  | keep _ c l3 _ h1 =>
    refine ⟨l3, rfl, ?_⟩
    rw [hq] at h1
    exact h1
  | swap _ c d l3 _ _ hd _ =>
    rw [hq] at hd
    exact Bool.noConfusion hd
  | dropBefore _ c l3 _ _ _ hh =>
    have := hh q rfl
    rw [hq] at this
    exact Bool.noConfusion this

/-- Two comment characters side by side in the thinned text are side by side
in the text. -/
theorem Thinned.pair (b : Bool) (l l2 : Str) (h : Thinned b l l2) (p q : Char)
    (hp : isCommentChar p = true) (hq : isCommentChar q = true)
    (hin : [p, q] <:+: l2) : [p, q] <:+: l := by
  induction h with
  | nil b => simp at hin
  | keep b c l l2 h1 ih =>
    rcases List.infix_cons_iff.1 hin with hpre | hi
    · obtain ⟨r, hr⟩ := hpre
      simp only [List.cons_append, List.nil_append, List.cons.injEq] at hr
      obtain ⟨hpc, hl2⟩ := hr
      subst hpc
      subst hl2
      rw [hp] at h1
      obtain ⟨l3, hl3, _⟩ := Thinned.head_comment l r q h1 hq
      rw [hl3]
      exact ⟨[], l3, by simp⟩
    · exact (ih hi).trans (List.suffix_cons c l).isInfix
  | swap b c d l l2 hc hd h1 ih =>
    rcases List.infix_cons_iff.1 hin with hpre | hi
    · obtain ⟨r, hr⟩ := hpre
      simp only [List.cons_append, List.nil_append, List.cons.injEq] at hr
      rw [← hr.1, hp] at hd
      exact Bool.noConfusion hd
    · exact (ih hi).trans (List.suffix_cons c l).isInfix
  | dropAfter c l l2 hc h1 ih =>
    exact (ih hin).trans (List.suffix_cons c l).isInfix
  | dropBefore b c l l2 hc h1 hh ih =>
    exact (ih hin).trans (List.suffix_cons c l).isInfix

theorem HasComment.cons (c : Char) (l : Str) (h : HasComment l) : HasComment (c :: l) := by
  obtain ⟨u, v, w, hl⟩ := h
  exact ⟨c :: u, v, w, by rw [hl]; rfl⟩

/-- A complete comment in the thinned text comes from a complete comment in
the text. -/
theorem Thinned.comment (b : Bool) (l l2 : Str) (h : Thinned b l l2)
    (hc : HasComment l2) : HasComment l := by
  induction h with
  | nil b =>
    obtain ⟨u, v, w, hl⟩ := hc
    simp at hl
  | keep b c l l2 h1 ih =>
    obtain ⟨u, v, w, hl⟩ := hc
    cases u with
    | nil =>
      simp only [List.nil_append, List.cons.injEq] at hl
      obtain ⟨hc1, hl2⟩ := hl
      subst hc1
      subst hl2
      have h2 : Thinned false l ('*' :: (v ++ '*' :: '/' :: w)) := h1
      obtain ⟨l3, hl3, h3⟩ := Thinned.head_comment l _ '*' h2 (by decide)
      have hin : ['*', '/'] <:+: l3 :=
        Thinned.pair false l3 _ h3 '*' '/' (by decide) (by decide) ⟨v, w, by simp⟩
      obtain ⟨v2, w2, hv⟩ := hin
      refine ⟨[], v2, w2, ?_⟩
      rw [hl3, ← hv]
      simp
    | cons u0 u' =>
      simp only [List.cons_append, List.cons.injEq] at hl
      exact HasComment.cons c l (ih ⟨u', v, w, hl.2⟩)
  | swap b c d l l2 hcc hd h1 ih =>
    obtain ⟨u, v, w, hl⟩ := hc
    cases u with
    | nil =>
      simp only [List.nil_append, List.cons.injEq] at hl
      rw [hl.1] at hd
      exact absurd hd (by decide)
    | cons u0 u' =>
      simp only [List.cons_append, List.cons.injEq] at hl
      exact HasComment.cons c l (ih ⟨u', v, w, hl.2⟩)
  | dropAfter c l l2 hcc h1 ih => exact HasComment.cons c l (ih hc)
  | dropBefore b c l l2 hcc h1 hh ih => exact HasComment.cons c l (ih hc)


theorem ws_not_comment (c : Char) (h : isWs c = true) : isCommentChar c = false := by
  unfold isCommentChar
  simp only [Bool.or_eq_false_iff, beq_eq_false_iff_ne, ne_eq]
  constructor <;> · intro hc; subst hc; revert h; decide

theorem Thinned.refl (b : Bool) (l : Str) : Thinned b l l := by
  induction l generalizing b with
  | nil => exact Thinned.nil b
  | cons c t ih => exact Thinned.keep b c t t (ih _)

/-- The pass `.replace(/\s+/g, ' ')` thins the text. -/
theorem collapseWs_thinned (l : Str) (inRun b : Bool) (hb : inRun = true → b = true) :
    Thinned b l (collapseWs inRun l) := by
  induction l generalizing inRun b with
  | nil => exact Thinned.nil b
  | cons c t ih =>
    by_cases hc : isWs c = true
    · cases inRun
      · have e : collapseWs false (c :: t) = ' ' :: collapseWs true t := by
          simp [collapseWs, hc]
        rw [e]
        exact Thinned.swap b c ' ' t _ (ws_not_comment c hc) (by decide) (ih true true (fun _ => rfl))
      · have e : collapseWs true (c :: t) = collapseWs true t := by
          simp [collapseWs, hc]
        rw [e, hb rfl]
        exact Thinned.dropAfter c t _ (ws_not_comment c hc) (ih true true (fun _ => rfl))
    · have hc2 : isWs c = false := by simpa using hc
      have e : collapseWs inRun (c :: t) = c :: collapseWs false t := by
        simp [collapseWs, hc2]
      rw [e]
      exact Thinned.keep b c t _ (ih false _ (fun h => Bool.noConfusion h))

/-- Whitespace that the pass for `x` skips before `x` is followed, in the
output, by `x`. -/
theorem squeeze_starts_with_x (x : Char) (hx : isWs x = false) (t : Str)
    (hl : (t.dropWhile isWs).head? = some x) : ∃ rest, squeeze x false t = x :: rest := by
  induction t with
  | nil => simp at hl
  | cons c t ih =>
    by_cases hcx : c = x
    · subst hcx
      exact ⟨_, squeeze_at_x c false t⟩
    · by_cases hc : isWs c = true
      · have hl2 : (t.dropWhile isWs).head? = some x := by
          simpa [List.dropWhile, hc] using hl
        rw [squeeze_ws_before x c t hcx hc hl2]
        exact ih hl2
      · have hc2 : isWs c = false := by simpa using hc
        simp only [List.dropWhile, hc2, List.head?_cons, Option.some.injEq] at hl
        exact absurd hl hcx

/-- The pass `.replace(/\s*X\s*/g, 'X')` thins the text, for a character `x`
that is neither whitespace nor a comment character. -/
theorem squeeze_thinned (x : Char) (hx : isWs x = false) (hxc : isCommentChar x = false)
    (l : Str) (f b : Bool) (hb : f = true → b = true) :
    Thinned b l (squeeze x f l) := by
  induction l generalizing f b with
  | nil => exact Thinned.nil b
  | cons c t ih =>
    by_cases hcx : c = x
    · subst hcx
      rw [squeeze_at_x]
      refine Thinned.keep b c t _ ?_
      rw [hxc]
      exact ih true true (fun _ => rfl)
    · by_cases hc : isWs c = true
      · cases f
        · by_cases hl : (t.dropWhile isWs).head? = some x
          · rw [squeeze_ws_before x c t hcx hc hl]
            refine Thinned.dropBefore b c t _ (ws_not_comment c hc)
              (ih false b (fun h => Bool.noConfusion h)) ?_
            intro h hh
            obtain ⟨rest, hr⟩ := squeeze_starts_with_x x hx t hl
            rw [hr] at hh
            simp only [List.head?_cons, Option.some.injEq] at hh
            rw [← hh]
            exact hxc
          · rw [squeeze_ws_kept x c t hcx hc hl]
            exact Thinned.keep b c t _ (ih false _ (fun h => Bool.noConfusion h))
        · rw [squeeze_ws_after x c t hcx hc, hb rfl]
          exact Thinned.dropAfter c t _ (ws_not_comment c hc) (ih true true (fun _ => rfl))
      · have hc2 : isWs c = false := by simpa using hc
        rw [squeeze_other x c f t hcx hc2]
        exact Thinned.keep b c t _ (ih false _ (fun h => Bool.noConfusion h))

/-- The pass `.replace(/;}/g, '}')` thins the text. -/
theorem dropSemicolons_thinned (l : Str) (b : Bool) : Thinned b l (dropSemicolons l) := by
  induction l generalizing b with
  | nil => exact Thinned.nil b
  | cons c t ih =>
    by_cases h : c = ';' ∧ t.head? = some '}'
    · obtain ⟨hc, ht⟩ := h
      obtain ⟨t2, ht2⟩ := head_mem_cons t '}' ht
      subst hc
      have e : dropSemicolons (';' :: t) = dropSemicolons t := by
        rw [ht2, dropSemicolons_at, dropSemicolons_other '}' t2 (by simp)]
      rw [e]
      refine Thinned.dropBefore b ';' t _ (by decide) (ih b) ?_
      intro h hh
      rw [ht2, dropSemicolons_other '}' t2 (by simp)] at hh
      simp only [List.head?_cons, Option.some.injEq] at hh
      rw [← hh]
      decide
    · rw [dropSemicolons_other c t h]
      exact Thinned.keep b c t _ (ih _)

theorem dropWhile_ws_thinned (l : Str) : Thinned true l (l.dropWhile isWs) := by
  induction l with
  | nil => exact Thinned.nil true
  | cons c t ih =>
    by_cases hc : isWs c = true
    · have e : (c :: t).dropWhile isWs = t.dropWhile isWs := by simp [List.dropWhile, hc]
      rw [e]
      exact Thinned.dropAfter c t _ (ws_not_comment c hc) ih
    · have hc2 : isWs c = false := by simpa using hc
      have e : (c :: t).dropWhile isWs = c :: t := by simp [List.dropWhile, hc2]
      rw [e]
      exact Thinned.refl true _

theorem Thinned.drop_tail (b : Bool) (k w : Str) (hw : ∀ c ∈ w, isWs c = true) :
    Thinned b (k ++ w) k := by
  induction k generalizing b with
  | nil =>
    induction w with
    | nil => exact Thinned.nil b
    | cons c t ih =>
      refine Thinned.dropBefore b c t [] (ws_not_comment c (hw c (List.mem_cons_self _ _)))
        (ih (fun x hx => hw x (List.mem_cons_of_mem _ hx))) ?_
      intro h hh
      simp at hh
  | cons c t ih => exact Thinned.keep b c (t ++ w) t (ih _)

theorem rtrim_thinned (b : Bool) (l : Str) :
    Thinned b l ((l.reverse.dropWhile isWs).reverse) := by
  have e : l = (l.reverse.dropWhile isWs).reverse ++ (l.reverse.takeWhile isWs).reverse := by
    rw [← List.reverse_append, List.takeWhile_append_dropWhile, List.reverse_reverse]
  have h := Thinned.drop_tail b ((l.reverse.dropWhile isWs).reverse)
    ((l.reverse.takeWhile isWs).reverse) (by
      intro c hc
      rw [List.mem_reverse] at hc
      exact List.mem_takeWhile_imp hc)
  rw [← e] at h
  exact h

/-- A complete comment in the output of the passes that follow the removal of
comments was there before them. -/
theorem later_passes_comment (t : Str)
    (h : HasComment (trim (dropSemicolons (squeeze ',' false (squeeze ':' false
      (squeeze ';' false (squeeze '}' false (squeeze '{' false (collapseWs false t))))))))) :
    HasComment t := by
  unfold trim at h
  have h1 := Thinned.comment _ _ _ (rtrim_thinned true _) h
  have h2 := Thinned.comment _ _ _ (dropWhile_ws_thinned _) h1
  have h3 := Thinned.comment _ _ _ (dropSemicolons_thinned _ true) h2
  have h4 := Thinned.comment _ _ _
    (squeeze_thinned ',' (by decide) (by decide) _ false true (fun _ => rfl)) h3
  have h5 := Thinned.comment _ _ _
    (squeeze_thinned ':' (by decide) (by decide) _ false true (fun _ => rfl)) h4
  have h6 := Thinned.comment _ _ _
    (squeeze_thinned ';' (by decide) (by decide) _ false true (fun _ => rfl)) h5
  have h7 := Thinned.comment _ _ _
    (squeeze_thinned '}' (by decide) (by decide) _ false true (fun _ => rfl)) h6
  have h8 := Thinned.comment _ _ _
    (squeeze_thinned '{' (by decide) (by decide) _ false true (fun _ => rfl)) h7
  exact Thinned.comment _ _ _ (collapseWs_thinned _ false true (fun _ => rfl)) h8


/-- Skipping `k` characters of a comment and scanning on is scanning the text
without its first `k` characters. -/
theorem removeComments_skip (k : Nat) (s : Str) :
    removeComments k s = removeComments 0 (s.drop k) := by
  induction s generalizing k with
  | nil => cases k <;> simp [removeComments]
  | cons c t ih =>
    cases k with
    | zero => rfl
    | succ k => rw [removeComments, ih k, List.drop_succ_cons]

/-- The search for the end of a comment fails only where no `*/` follows. -/
theorem commentEnd_none (s : Str) (h : commentEnd s = none) : ¬ ['*', '/'] <:+: s := by
  induction s with
  | nil => simp
  | cons c t ih =>
    rw [commentEnd] at h
    split_ifs at h with hc
    have ht : commentEnd t = none := by
      cases hce : commentEnd t with
      | none => rfl
      | some n => rw [hce] at h; simp at h
    intro hin
    rcases List.infix_cons_iff.1 hin with hp | hi
    · obtain ⟨r, hr⟩ := hp
      simp only [List.cons_append, List.nil_append, List.cons.injEq] at hr
      apply hc
      rw [← hr.1, ← hr.2]
      simp
    · exact ih ht hi

/-- The search for the end of a comment finds it within the text. -/
theorem commentEnd_le (s : Str) (n : Nat) (h : commentEnd s = some n) : n ≤ s.length := by
  induction s generalizing n with
  | nil => simp [commentEnd] at h
  | cons c t ih =>
    rw [commentEnd] at h
    split_ifs at h with hc
    · simp only [Option.some.injEq] at h
      subst h
      cases t with
      | nil => simp at hc
      | cons d t2 => simp
    · cases hce : commentEnd t with
      | none => rw [hce] at h; simp at h
      | some m =>
        rw [hce] at h
        simp only [Option.map_some', Option.some.injEq] at h
        subst h
        have := ih m hce
        simp only [List.length_cons]
        omega

/-- The two ways the scan goes on at a character: a comment that is closed is
skipped whole, anything else is copied. -/
theorem removeComments_cons (c : Char) (t : Str) :
    (∃ rest n, c = '/' ∧ t = '*' :: rest ∧ commentEnd rest = some n ∧
      removeComments 0 (c :: t) = removeComments 0 (rest.drop n)) ∨
    (removeComments 0 (c :: t) = c :: removeComments 0 t ∧
      ∀ rest, c = '/' → t = '*' :: rest → commentEnd rest = none) := by
  by_cases h : c = '/' ∧ t.head? = some '*'
  · obtain ⟨hc, ht⟩ := h
    obtain ⟨rest, hr⟩ := head_mem_cons t '*' ht
    cases hce : commentEnd rest with
    | none =>
      right
      refine ⟨?_, ?_⟩
      · rw [removeComments]
        simp [hc, hr, hce]
      · intro rest2 _ hr2
        rw [hr] at hr2
        simp only [List.cons.injEq, true_and] at hr2
        rw [← hr2]
        exact hce
    | some n =>
      left
      refine ⟨rest, n, hc, hr, hce, ?_⟩
      rw [removeComments]
      simp only [hc, hr, List.head?_cons, beq_self_eq_true, Bool.and_self, if_true,
        List.drop_succ_cons, List.drop_zero, hce]
      rw [removeComments_skip, List.drop_succ_cons]
  · right
    refine ⟨?_, ?_⟩
    · rw [removeComments]
      split_ifs with h2
      · exfalso
        apply h
        simpa using h2
      · rfl
    · intro rest hc hr
      exfalso
      apply h
      simp [hc, hr]

/-- Where no `*/` follows, the search for the end of a comment fails. -/
theorem commentEnd_of_no_close (u : Str) (hu : ¬ ['*', '/'] <:+: u) : commentEnd u = none := by
  induction u with
  | nil => rfl
  | cons a r ihu =>
    have hr2 : ¬ ['*', '/'] <:+: r :=
      fun hi => hu (hi.trans (List.suffix_cons a r).isInfix)
    rw [commentEnd, ihu hr2]
    split_ifs with hc
    · exfalso
      apply hu
      simp only [Bool.and_eq_true, beq_iff_eq] at hc
      obtain ⟨r2, hr3⟩ := head_mem_cons r '/' hc.2
      rw [hc.1, hr3]
      exact ⟨[], r2, by simp⟩
    · rfl

/-- Where no `*/` occurs nothing is removed. -/
theorem removeComments_id (s : Str) (h : ¬ ['*', '/'] <:+: s) : removeComments 0 s = s := by
  induction s with
  | nil => rfl
  | cons c t ih =>
    have ht : ¬ ['*', '/'] <:+: t := fun hi => h (hi.trans (List.suffix_cons c t).isInfix)
    rcases removeComments_cons c t with ⟨rest, n, _, hr, hce, _⟩ | ⟨he, _⟩
    · exfalso
      have hrest : ¬ ['*', '/'] <:+: rest := by
        intro hi
        apply ht
        rw [hr]
        exact hi.trans (List.suffix_cons '*' rest).isInfix
      rw [commentEnd_of_no_close rest hrest] at hce
      exact Option.noConfusion hce
    · rw [he, ih ht]

/-- The removal of comments leaves a complete comment only where a `/` stood
right before a comment that was removed: in a text without `//*` it leaves
none. -/
theorem removeComments_no_comment (n : Nat) (s : Str) (hlen : s.length ≤ n)
    (h : ¬ ['/', '/', '*'] <:+: s) : ¬ HasComment (removeComments 0 s) := by
  induction n generalizing s with
  | zero =>
    have : s = [] := List.length_eq_zero.1 (Nat.le_zero.1 hlen)
    subst this
    rintro ⟨u, v, w, hl⟩
    simp [removeComments] at hl
  | succ n ih =>
    cases s with
    | nil =>
      rintro ⟨u, v, w, hl⟩
      simp [removeComments] at hl
    | cons c t =>
      have hlt : t.length ≤ n := by
        simp only [List.length_cons] at hlen
        omega
      have ht : ¬ ['/', '/', '*'] <:+: t :=
        fun hi => h (hi.trans (List.suffix_cons c t).isInfix)
      rcases removeComments_cons c t with ⟨rest, m, _, hr, _, he⟩ | ⟨he, hopen⟩
      · -- a closed comment is skipped: the scan goes on in a shorter text
        rw [he]
        have hsuf : rest.drop m <:+ t := by
          rw [hr]
          exact (List.drop_suffix m rest).trans (List.suffix_cons '*' rest)
        refine ih _ ?_ (fun hi => ht (hi.trans hsuf.isInfix))
        exact le_trans hsuf.length_le hlt
      · rw [he]
        rintro ⟨u, v, w, hl⟩
        cases u with
        | cons u0 u2 =>
          simp only [List.cons_append, List.cons.injEq] at hl
          exact ih t hlt ht ⟨u2, v, w, hl.2⟩
        | nil =>
          simp only [List.nil_append, List.cons.injEq] at hl
          obtain ⟨hc, hl2⟩ := hl
          cases t with
          | nil => simp [removeComments] at hl2
          | cons d t2 =>
            rcases removeComments_cons d t2 with ⟨rest, m, hd, hr, _, _⟩ | ⟨he2, _⟩
            · -- `/` right before a comment that is removed
              apply h
              rw [hc, hd, hr]
              exact ⟨[], rest, by simp⟩
            · rw [he2] at hl2
              simp only [List.cons.injEq] at hl2
              obtain ⟨hd, hl3⟩ := hl2
              have hnone := hopen t2 hc (by rw [hd])
              have hno := commentEnd_none t2 hnone
              rw [removeComments_id t2 hno] at hl3
              apply hno
              rw [hl3]
              exact ⟨v, w, by simp⟩

/-- C17, as stated, fails: in `//* x */* y */` the only comment is `/* x */`.
Its removal joins the `/` before it and the `*` after it, and the output is the
complete comment `/* y */`. -/
theorem minifyCSS_joins_comment :
    minifyCSS "//* x */* y */".toList = "/* y */".toList ∧
    HasComment (minifyCSS "//* x */* y */".toList) := by
  have h : minifyCSS "//* x */* y */".toList = "/* y */".toList := by decide
  refine ⟨h, ?_⟩
  rw [h]
  exact ⟨[], " y ".toList, [], rfl⟩

/-- C17 (amended): for every input text that does not contain `//*` (a `/`
right before the opener of a comment) the output of `minifyCSS` contains no
complete block comment: no `/*` that is followed later by `*/`. -/
theorem minifyCSS_no_comment (css : Str) (h : ¬ "//*".toList <:+: css) :
    ¬ HasComment (minifyCSS css) := by
  intro hc
  unfold minifyCSS at hc
  exact removeComments_no_comment css.length css (le_refl _) h (later_passes_comment _ hc)

/-- C17 (amended), at the text `a /* x */ b { c: d; /* y */ }`. -/
theorem minifyCSS_no_comment_witness :
    ¬ HasComment (minifyCSS "a /* x */ b \x7b c: d; /* y */ \x7d".toList) :=
  minifyCSS_no_comment "a /* x */ b \x7b c: d; /* y */ \x7d".toList (by decide)

end BuildOptimizer

/-!
# Error handler: the bounded log
-/

namespace ErrorHandler

open BuildOptimizer (Str)

/-- One step of the log on the window of a history: pushing onto the last
`maxErrors` entries of `history` gives the last `maxErrors` entries of the
history extended by the new entry. -/
theorem pushBounded_window (history : List ErrorRecord) (error : ErrorRecord) :
    pushBounded (history.drop (history.length - maxErrors)) error
      = (history ++ [error]).drop ((history ++ [error]).length - maxErrors) := by
  unfold pushBounded maxErrors
  simp only [List.length_append, List.length_singleton, List.length_drop]
  by_cases h : history.length < 50
  · have h0 : history.length - 50 = 0 := by omega
    have h1 : history.length + 1 - 50 = 0 := by omega
    rw [h0, h1]
    simp only [List.drop_zero, Nat.sub_zero]
    rw [if_neg (by omega)]
  · have hlen : history.length - (history.length - 50) + 1 > 50 := by omega
    rw [if_pos hlen]
    have hd : history.length + 1 - 50 = (history.length - 50) + 1 := by omega
    rw [hd]
    have hne : 1 ≤ (List.drop (history.length - 50) history).length := by
      rw [List.length_drop]
      omega
    rw [List.drop_append_of_le_length hne,
      List.drop_append_of_le_length (show history.length - 50 + 1 ≤ history.length by omega),
      List.drop_drop]

theorem logError_production (hostname : Str) (overridden : Bool) (depth : Nat)
    (errors : List ErrorRecord) (error : ErrorRecord)
    (hhost : isDevelopmentHost hostname = false) :
    logError hostname overridden (depth + 1) errors error
      = some (pushBounded errors error) := by
  simp [logError, hhost]

theorem logErrors_production (hostname : Str) (overridden : Bool) (depth : Nat)
    (hhost : isDevelopmentHost hostname = false)
    (calls history : List ErrorRecord) :
    logErrors hostname overridden (depth + 1)
        (history.drop (history.length - maxErrors)) calls
      = some ((history ++ calls).drop ((history ++ calls).length - maxErrors)) := by
  induction calls generalizing history with
  | nil => simp [logErrors]
  | cons e rest ih =>
    have h := ih (history ++ [e])
    unfold logErrors at h ⊢
    rw [List.foldlM_cons, logError_production _ _ _ _ _ hhost, pushBounded_window]
    simpa using h

/-- Claim C21.  On a host other than `localhost` and `127.0.0.1`, every call
of a sequence of calls of `logError` that starts from an empty log returns;
after the calls `errors` holds the most recent `min n maxErrors` of the `n`
errors logged, in the order they were logged, so never more than `maxErrors`
(50) of them.  The statement holds for every sequence, hence after every
call of a sequence. -/
theorem logErrors_keeps_most_recent (hostname : Str) (overridden : Bool) (depth : Nat)
    (calls : List ErrorRecord) (hhost : isDevelopmentHost hostname = false) :
    logErrors hostname overridden (depth + 1) [] calls
        = some (calls.drop (calls.length - maxErrors))
      ∧ (calls.drop (calls.length - maxErrors)).length = min calls.length maxErrors
      ∧ (calls.drop (calls.length - maxErrors)).length ≤ maxErrors
      ∧ maxErrors = 50 := by
  refine ⟨?_, ?_, ?_, rfl⟩
  · simpa using logErrors_production hostname overridden depth hhost calls []
  · rw [List.length_drop]; omega
  · rw [List.length_drop]; omega

theorem logErrors_keeps_most_recent_witness :
    logErrors "example.com".toList true 1 []
        ((List.range 52).map fun i => ⟨"Image Load Error".toList, (toString i).toList, none, none⟩)
      = some (((List.range 52).map fun i =>
          (⟨"Image Load Error".toList, (toString i).toList, none, none⟩ : ErrorRecord)).drop
            (52 - maxErrors)) := by
  have h := (logErrors_keeps_most_recent "example.com".toList true 0
    ((List.range 52).map fun i => ⟨"Image Load Error".toList, (toString i).toList, none, none⟩)
    (by decide)).1
  simpa using h

theorem logError_development_overridden (hostname : Str)
    (hhost : isDevelopmentHost hostname = true) (depth : Nat) :
    ∀ (errors : List ErrorRecord) (error : ErrorRecord),
      logError hostname true depth errors error = none := by
  induction depth with
  | zero => intro errors error; rfl
  | succ d ih =>
    intro errors error
    simp [logError, hhost, consoleError, ih]

/-- Claim C26, evaluated on the code.  On the host `localhost`, once
`setupConsoleOverrides` has replaced `console.error`, the call of `logError`
with an image load error does not return, whatever depth of nested calls is
allowed: `logError` calls `console.error`, which calls `logError`, which calls
`console.error`, and so on.  On `example.com` the same call returns with the
one entry appended. -/
theorem logError_does_not_return_on_localhost :
    (∀ depth, logError "localhost".toList true depth []
        ⟨"Image Load Error".toList, "Failed to load image".toList, none, none⟩ = none)
      ∧ (∀ depth, logError "127.0.0.1".toList true depth []
        ⟨"Image Load Error".toList, "Failed to load image".toList, none, none⟩ = none)
      ∧ logError "example.com".toList true 1 []
          ⟨"Image Load Error".toList, "Failed to load image".toList, none, none⟩
        = some [⟨"Image Load Error".toList, "Failed to load image".toList, none, none⟩] := by
  refine ⟨fun depth => ?_, fun depth => ?_, by decide⟩
  · exact logError_development_overridden _ (by decide) depth _ _
  · exact logError_development_overridden _ (by decide) depth _ _

end ErrorHandler

/-!
# Validation suite: the counters
-/

namespace ValidationSuite

open BuildOptimizer (Str)

/-- Claim C27, evaluated on the code.  A call of `log` with the status
`'warning'` leaves the counter `warnings` as it was, whatever the results so
far: it pushes the entry and sets a property `warning` to `NaN`.  After one
such call on the initial results, `tests` has one entry and the three
counters `passed`, `failed` and `warnings` sum to zero. -/
theorem log_warning_not_counted :
    (∀ (r : Results) (test message : Str),
        (log r test Status.warning message).warnings = r.warnings
          ∧ (log r test Status.warning message).tests.length = r.tests.length + 1)
      ∧ (log Results.initial "CSS Grid".toList Status.warning
            "CSS Grid not detected".toList).warnings = 0
      ∧ (log Results.initial "CSS Grid".toList Status.warning
            "CSS Grid not detected".toList).tests.length = 1
      ∧ (log Results.initial "CSS Grid".toList Status.warning
            "CSS Grid not detected".toList).warningIsNaN = true
      ∧ (log Results.initial "CSS Grid".toList Status.warning "CSS Grid not detected".toList).passed
          + (log Results.initial "CSS Grid".toList Status.warning
              "CSS Grid not detected".toList).failed
          + (log Results.initial "CSS Grid".toList Status.warning
              "CSS Grid not detected".toList).warnings
          ≠ (log Results.initial "CSS Grid".toList Status.warning
              "CSS Grid not detected".toList).tests.length := by
  refine ⟨fun r test message => ⟨rfl, ?_⟩, rfl, rfl, rfl, by decide⟩
  simp [log]

end ValidationSuite

/-!
# Navigation: active link and keyboard
-/

namespace NavigationManager

open BuildOptimizer (Str)

/-- Claim C28, evaluated on the code.  On the page `/`, `setupActiveStates`
marks the link to `/palbook/index.html` active, and on the page `/blog/` it
marks the link to `/docs/index.html` active, although these links lead to
other directories; a link to `/about.html` has its marks removed. -/
theorem setupActiveStates_marks_other_directory :
    isCurrentPage "/".toList "/palbook/index.html".toList = true
      ∧ isCurrentPage "/blog/".toList "/docs/index.html".toList = true
      ∧ isCurrentPage "/docs/index.html".toList "/".toList = true
      ∧ setupActiveStates "/".toList
          [⟨"/palbook/index.html".toList, false, none⟩,
           ⟨"/about.html".toList, true, some "page".toList⟩]
        = [⟨"/palbook/index.html".toList, true, some "page".toList⟩,
           ⟨"/about.html".toList, false, none⟩] := by
  decide

theorem tmod_window (n i : Nat) (hi : i < n) :
    Int.tmod ((i : Int) + 1) (n : Int) = if i + 1 = n then 0 else (i : Int) + 1 := by
  have h0 : (0 : Int) ≤ (i : Int) + 1 := by omega
  rw [Int.tmod_eq_emod h0 (by omega)]
  split
  · next h =>
    have : ((i : Int) + 1) = (n : Int) := by exact_mod_cast h
    rw [this, Int.emod_self]
  · next h =>
    exact Int.emod_eq_of_lt h0 (by omega)

theorem nextIndex_eq (n i : Nat) (hi : i < n) :
    nextIndex n i = if i + 1 = n then 0 else (i : Int) + 1 :=
  tmod_window n i hi

theorem prevIndex_eq (n i : Nat) (hi : i < n) :
    prevIndex n i = if i = 0 then (n : Int) - 1 else (i : Int) - 1 := by
  unfold prevIndex
  have h0 : (0 : Int) ≤ (i : Int) - 1 + (n : Int) := by omega
  rw [Int.tmod_eq_emod h0 (by omega)]
  split
  · next h =>
    subst h
    simp only [Nat.cast_zero, zero_sub]
    rw [show (-1 : Int) + (n : Int) = (n : Int) - 1 by ring]
    exact Int.emod_eq_of_lt (by omega) (by omega)
  · next h =>
    rw [Int.add_emod_self]
    exact Int.emod_eq_of_lt (by omega) (by omega)

/-- Claim C29.  For `n ≥ 1` links and a link index `i` below `n`: the arrow
keys move the focus to `nextIndex n i` (right, down) and `prevIndex n i`
(left, up), both lie in `[0, n)`, going to the next link and then to the
previous one (or the other way round) comes back to `i`, `Home` gives the
index `0` and `End` the index `n - 1`. -/
theorem keyboard_navigation_wraps (n i : Nat) (hn : 1 ≤ n) (hi : i < n) :
    keydownTarget n i "ArrowRight".toList = some (nextIndex n i)
      ∧ keydownTarget n i "ArrowDown".toList = some (nextIndex n i)
      ∧ keydownTarget n i "ArrowLeft".toList = some (prevIndex n i)
      ∧ keydownTarget n i "ArrowUp".toList = some (prevIndex n i)
      ∧ keydownTarget n i "Home".toList = some 0
      ∧ keydownTarget n i "End".toList = some ((n : Int) - 1)
      ∧ nextIndex n i = (((i + 1) % n : Nat) : Int)
      ∧ prevIndex n i = (((i + n - 1) % n : Nat) : Int)
      ∧ (0 ≤ nextIndex n i ∧ nextIndex n i < n)
      ∧ (0 ≤ prevIndex n i ∧ prevIndex n i < n)
      ∧ prevIndex n (nextIndex n i).toNat = i
      ∧ nextIndex n (prevIndex n i).toNat = i := by
  have hne := nextIndex_eq n i hi
  have hpe := prevIndex_eq n i hi
  refine ⟨rfl, rfl, rfl, rfl, rfl, rfl, ?_, ?_, ?_, ?_, ?_, ?_⟩
  · rw [hne]
    split
    · next h => rw [h, Nat.mod_self]; rfl
    · next h => rw [Nat.mod_eq_of_lt (by omega)]; push_cast; rfl
  · rw [hpe]
    split
    · next h =>
      subst h
      rw [Nat.zero_add, Nat.mod_eq_of_lt (by omega)]
      omega
    · next h =>
      rw [show i + n - 1 = (i - 1) + n by omega, Nat.add_mod_right,
        Nat.mod_eq_of_lt (by omega)]
      omega
  · rw [hne]; split <;> omega
  · rw [hpe]; split <;> omega
  · rw [hne]
    split
    · next h =>
      rw [show (0 : Int).toNat = 0 from rfl, prevIndex_eq n 0 (by omega), if_pos rfl]
      omega
    · next h =>
      have ht : ((i : Int) + 1).toNat = i + 1 := by omega
      rw [ht, prevIndex_eq n (i + 1) (by omega), if_neg (by omega)]
      push_cast
      omega
  · rw [hpe]
    split
    · next h =>
      have ht : ((n : Int) - 1).toNat = n - 1 := by omega
      rw [ht, nextIndex_eq n (n - 1) (by omega), if_pos (by omega)]
      omega
    · next h =>
      have ht : ((i : Int) - 1).toNat = i - 1 := by omega
      rw [ht, nextIndex_eq n (i - 1) (by omega), if_neg (by omega)]
      omega

theorem keyboard_navigation_wraps_witness :
    prevIndex 3 (nextIndex 3 2).toNat = 2 ∧ nextIndex 3 (prevIndex 3 0).toNat = 0 :=
  let h := keyboard_navigation_wraps 3 2 (by decide) (by decide)
  let g := keyboard_navigation_wraps 3 0 (by decide) (by decide)
  ⟨h.2.2.2.2.2.2.2.2.2.2.1, g.2.2.2.2.2.2.2.2.2.2.2⟩

end NavigationManager

namespace BuildOptimizer

/-! ## The scanners keep lines of the input, in order -/

theorem scanStep_kept_cases (keep pass : Str → Bool) (st : Scan) (line : Str) :
    (scanStep keep pass st line).kept = st.kept
      ∨ (scanStep keep pass st line).kept = st.kept ++ [line] := by
  unfold scanStep
  simp only []
  split_ifs <;> simp

theorem scanFrom_kept_lines (keep pass : Str → Bool) (lines : List Str) (st : Scan) :
    ∃ sub, sub.Sublist lines ∧ (scanFrom keep pass st lines).kept = st.kept ++ sub := by
  induction lines generalizing st with
  | nil => exact ⟨[], List.Sublist.slnil, by simp [scanFrom]⟩
  | cons l ls ih =>
    obtain ⟨sub, hsub, hk⟩ := ih (scanStep keep pass st l)
    rw [scanFrom_cons, hk]
    rcases scanStep_kept_cases keep pass st l with h | h
    · exact ⟨sub, hsub.cons l, by rw [h]⟩
    · exact ⟨l :: sub, hsub.cons₂ l, by rw [h]; simp⟩

theorem scanFrom_start_sublist (keep pass : Str → Bool) (lines : List Str) :
    (scanFrom keep pass Scan.start lines).kept.Sublist lines := by
  obtain ⟨sub, hsub, hk⟩ := scanFrom_kept_lines keep pass lines Scan.start
  rw [hk]
  simpa [Scan.start] using hsub

/-! ## Splitting into lines and joining them again -/

theorem splitBy_ne_nil (p : Char → Bool) (s : Str) : splitBy p s ≠ [] := by
  cases s with
  | nil => simp [splitBy]
  | cons c t =>
    unfold splitBy
    split_ifs
    · simp
    · split <;> simp

theorem joinLines_cons_cons (a b : Str) (r : List Str) :
    joinLines (a :: b :: r) = a ++ '\n' :: joinLines (b :: r) := by
  simp [joinLines, List.intercalate, List.intersperse]

theorem joinLines_push_head (c : Char) (h : Str) (r : List Str) :
    joinLines ((c :: h) :: r) = c :: joinLines (h :: r) := by
  cases r with
  | nil => simp [joinLines, List.intercalate, List.intersperse]
  | cons b r => rw [joinLines_cons_cons, joinLines_cons_cons]; rfl

/-- Joining the lines of a text with `\n` gives the text back. -/
theorem joinLines_splitLines (s : Str) : joinLines (splitLines s) = s := by
  induction s with
  | nil => rfl
  | cons c t ih =>
    unfold splitLines at ih ⊢
    unfold splitBy
    by_cases hc : (c == '\n') = true
    · rw [if_pos hc]
      have hcn : c = '\n' := by simpa using hc
      cases hs : splitBy (fun c => c == '\n') t with
      | nil => exact absurd hs (splitBy_ne_nil _ _)
      | cons h r =>
        rw [hs] at ih
        rw [joinLines_cons_cons, ih, hcn]
        rfl
    · rw [if_neg hc]
      cases hs : splitBy (fun c => c == '\n') t with
      | nil => exact absurd hs (splitBy_ne_nil _ _)
      | cons h r =>
        rw [hs] at ih
        simp only []
        rw [joinLines_push_head, ih]

theorem splitBy_piece_no_sep (p : Char → Bool) (s : Str) :
    ∀ x ∈ splitBy p s, ∀ c ∈ x, p c = false := by
  induction s with
  | nil => simp [splitBy]
  | cons c t ih =>
    intro x hx
    unfold splitBy at hx
    by_cases hc : p c = true
    · rw [if_pos hc] at hx
      rcases List.mem_cons.1 hx with rfl | hx
      · simp
      · exact ih x hx
    · rw [if_neg hc] at hx
      cases hs : splitBy p t with
      | nil => exact absurd hs (splitBy_ne_nil _ _)
      | cons h r =>
        rw [hs] at hx ih
        simp only [] at hx
        rcases List.mem_cons.1 hx with rfl | hx
        · intro d hd
          rcases List.mem_cons.1 hd with rfl | hd
          · simpa using hc
          · exact ih h (List.mem_cons_self _ _) d hd
        · exact ih x (List.mem_cons_of_mem _ hx)

theorem splitBy_line_then (p : Char → Bool) (l : Str) (sep : Char) (rest : Str)
    (hl : ∀ c ∈ l, p c = false) (hsep : p sep = true) :
    splitBy p (l ++ sep :: rest) = l :: splitBy p rest := by
  induction l with
  | nil => simp [splitBy, hsep]
  | cons c t ih =>
    have hc : p c = false := hl c (List.mem_cons_self _ _)
    have ht : ∀ x ∈ t, p x = false := fun x hx => hl x (List.mem_cons_of_mem _ hx)
    rw [List.cons_append, splitBy, if_neg (by simp [hc]), ih ht]

/-- Splitting at `\n` the join of lines that hold no `\n` gives the lines back,
when there is at least one line. -/
theorem splitLines_joinLines (ls : List Str) (hne : ls ≠ [])
    (hl : ∀ l ∈ ls, ∀ c ∈ l, (c == '\n') = false) :
    splitLines (joinLines ls) = ls := by
  induction ls with
  | nil => exact absurd rfl hne
  | cons a r ih =>
    cases r with
    | nil =>
      have : joinLines [a] = a := by simp [joinLines, List.intercalate, List.intersperse]
      rw [this]
      exact splitBy_of_no_sep _ _ (hl a (List.mem_cons_self _ _))
    | cons b r =>
      rw [joinLines_cons_cons]
      unfold splitLines at ih ⊢
      rw [splitBy_line_then _ a '\n' _ (hl a (List.mem_cons_self _ _)) (by decide),
        ih (by simp) (fun l h => hl l (List.mem_cons_of_mem _ h))]

theorem splitLines_output (kept : List Str) (css : Str)
    (hsub : kept.Sublist (splitLines css)) (hne : kept ≠ []) :
    splitLines (joinLines kept) = kept := by
  refine splitLines_joinLines kept hne ?_
  intro l hl c hc
  exact splitBy_piece_no_sep _ css l (hsub.subset hl) c hc

/-- Claim C23.  The lines `removeUnusedCSS` and `generateCriticalCSS` push for
a stylesheet are each a subsequence of the lines of the stylesheet
(`cssContent.split('\n')`), for all used sets: lines of the input, unaltered,
in their order, none twice.  The output text is these lines joined with `\n`:
when some line is pushed, splitting the output at `\n` gives back exactly the
pushed lines, and when no line is pushed the output is the empty text. -/
theorem scanner_outputs_are_subsequences (usedClasses usedIds : List Str) (css : Str) :
    (removeUnusedLines usedClasses usedIds (splitLines css)).Sublist (splitLines css)
      ∧ (generateCriticalLines (splitLines css)).Sublist (splitLines css)
      ∧ ((splitLines (removeUnusedCSS usedClasses usedIds css)).Sublist (splitLines css)
          ∨ removeUnusedCSS usedClasses usedIds css = [])
      ∧ ((splitLines (generateCriticalCSS css)).Sublist (splitLines css)
          ∨ generateCriticalCSS css = []) := by
  have h1 : (removeUnusedLines usedClasses usedIds (splitLines css)).Sublist (splitLines css) :=
    scanFrom_start_sublist _ _ _
  have h2 : (generateCriticalLines (splitLines css)).Sublist (splitLines css) :=
    scanFrom_start_sublist _ _ _
  refine ⟨h1, h2, ?_, ?_⟩
  · by_cases hne : removeUnusedLines usedClasses usedIds (splitLines css) = []
    · right
      unfold removeUnusedCSS
      rw [hne]
      rfl
    · left
      unfold removeUnusedCSS
      rw [splitLines_output _ css h1 hne]
      exact h1
  · by_cases hne : generateCriticalLines (splitLines css) = []
    · right
      unfold generateCriticalCSS
      rw [hne]
      rfl
    · left
      unfold generateCriticalCSS
      rw [splitLines_output _ css h2 hne]
      exact h2


/-! ## A class selector followed by a pseudo-class -/

/-- The filter's reading of the selector `.X` when `X` has no separator
character: one class part, looked up under the name `X` without its colons,
brackets and parentheses. -/
theorem shouldKeepRule_class_stripped (usedClasses usedIds : List Str) (X : Str)
    (hsep : ∀ c ∈ X, isSelectorSep c = false) :
    shouldKeepRule usedClasses usedIds ('.' :: X)
      = (essentialSelectors.any (fun essential => includes ('.' :: X) essential)
          || usedClasses.contains (X.filter (fun c => !isStripped c))) := by
  have hsep2 : ∀ c ∈ '.' :: X, isSelectorSep c = false := by
    intro c hc
    rcases List.mem_cons.1 hc with rfl | hc
    · decide
    · exact hsep c hc
  have hws : ∀ c ∈ '.' :: X, isWs c = false := fun c hc => isWs_of_not_sep c (hsep2 c hc)
  have hclean : cleanPart ('.' :: X) = '.' :: X.filter (fun c => !isStripped c) := by
    unfold cleanPart
    rw [trim_of_no_ws _ hws]
    have hd : isStripped '.' = false := by decide
    simp only [List.filter_cons, hd, Bool.not_false, if_true]
  have hpm : partMatches usedClasses usedIds ('.' :: X)
      = usedClasses.contains (X.filter (fun c => !isStripped c)) := by
    unfold partMatches
    simp only [hclean]
    simp [startsWith, List.isPrefixOf]
  unfold shouldKeepRule
  rw [splitBy_of_no_sep _ _ hsep2]
  simp only [List.any_cons, List.any_nil, Bool.or_false, hpm]
  cases essentialSelectors.any (fun essential => includes ('.' :: X) essential) <;> simp

theorem name_char_plain (c : Char) (h : isAsciiAlnum c = true ∨ c = '-') :
    isSelectorSep c = false ∧ isStripped c = false := by
  rcases h with h | rfl
  · refine ⟨?_, alnum_not_stripped c h⟩
    have hw := alnum_not_ws c h
    have hcode := alnum_code c h
    unfold isSelectorSep
    simp only [hw, Bool.or_false, Bool.or_eq_false_iff, beq_eq_false_iff_ne, ne_eq]
    refine ⟨⟨⟨?_, ?_⟩, ?_⟩, ?_⟩ <;> (rintro rfl; revert hcode; decide)
  · decide

/-- Claim C25.  For a class name `C` and a pseudo-class name `P` made of
letters, digits and hyphens, `shouldKeepRule('.C:P')` looks up the
concatenation `CP`: it is true exactly when the selector contains a substring
of the allow-list or `CP` is in `usedClasses`.  Whether `C` itself is used
plays no part. -/
theorem pseudo_class_selector_lookup (usedClasses usedIds : List Str) (C P : Str)
    (hC : ∀ c ∈ C, isAsciiAlnum c = true ∨ c = '-')
    (hP : ∀ c ∈ P, isAsciiAlnum c = true ∨ c = '-') :
    shouldKeepRule usedClasses usedIds ('.' :: (C ++ ':' :: P))
      = (essentialSelectors.any (fun essential => includes ('.' :: (C ++ ':' :: P)) essential)
          || usedClasses.contains (C ++ P)) := by
  have hsep : ∀ c ∈ C ++ ':' :: P, isSelectorSep c = false := by
    intro c hc
    rcases List.mem_append.1 hc with h | h
    · exact (name_char_plain c (hC c h)).1
    · rcases List.mem_cons.1 h with rfl | h
      · decide
      · exact (name_char_plain c (hP c h)).1
  rw [shouldKeepRule_class_stripped usedClasses usedIds _ hsep]
  have hf : (C ++ ':' :: P).filter (fun c => !isStripped c) = C ++ P := by
    have hcolon : isStripped ':' = true := by decide
    rw [List.filter_append, List.filter_cons]
    simp only [hcolon, Bool.not_true, Bool.false_eq_true, if_false]
    rw [List.filter_eq_self.2, List.filter_eq_self.2]
    · intro c hc
      simp [(name_char_plain c (hP c hc)).2]
    · intro c hc
      simp [(name_char_plain c (hC c hc)).2]
  rw [hf]

theorem pseudo_class_selector_lookup_witness :
    "btn".toList ∈ ["btn".toList]
      ∧ shouldKeepRule ["btn".toList] [] ".btn:hover".toList = false
      ∧ shouldKeepRule ["btn".toList, "btnhover".toList] [] ".btn:hover".toList = true :=
  ⟨by decide,
   (pseudo_class_selector_lookup ["btn".toList] [] "btn".toList "hover".toList
      (by decide) (by decide)).trans (by decide),
   (pseudo_class_selector_lookup ["btn".toList, "btnhover".toList] [] "btn".toList
      "hover".toList (by decide) (by decide)).trans (by decide)⟩


/-! ## Flat stylesheets -/

theorem scanStep_blank (keep : Str → Bool) (o : List Str) (line : Str)
    (h : trim line = []) :
    scanStep keep passThrough
        { inRule := false, currentRule := [], keepRule := false, kept := o } line
      = { inRule := false, currentRule := [], keepRule := false, kept := o ++ [line] } := by
  have h1 : includes ([] : Str) ['{'] = false := by decide
  have h2 : passThrough [] = true := by decide
  unfold scanStep
  simp [h, h1, h2]

/-- The scanner of `removeUnusedCSS` on the lines of flat constructs, read from
outside a rule: it pushes the blank lines and the whole blocks whose selector
the retention test accepts, and ends outside a rule. -/
theorem scanFrom_flat (usedClasses usedIds : List Str) (items : List CssItem)
    (hflat : ∀ it ∈ items, it.flat = true) (o : List Str) :
    scanFrom (shouldKeepRule usedClasses usedIds) passThrough
        { inRule := false, currentRule := [], keepRule := false, kept := o }
        (items.flatMap CssItem.lines)
      = { inRule := false, currentRule := [], keepRule := false,
          kept := o ++ (items.filter (CssItem.retained usedClasses usedIds)).flatMap
            CssItem.lines } := by
  induction items generalizing o with
  | nil => simp [scanFrom]
  | cons it rest ih =>
    have hit : it.flat = true := hflat it (List.mem_cons_self _ _)
    have hrest : ∀ x ∈ rest, x.flat = true := fun x hx => hflat x (List.mem_cons_of_mem _ hx)
    rw [List.flatMap_cons, scanFrom_append]
    cases it with
    | blank line =>
      have hb : trim line = [] := by simpa [CssItem.flat] using hit
      have hstep : scanFrom (shouldKeepRule usedClasses usedIds) passThrough
          { inRule := false, currentRule := [], keepRule := false, kept := o }
          (CssItem.blank line).lines
          = { inRule := false, currentRule := [], keepRule := false, kept := o ++ [line] } := by
        simp only [CssItem.lines, scanFrom, List.foldl_cons, List.foldl_nil]
        exact scanStep_blank _ o line hb
      rw [hstep, ih hrest]
      simp [List.filter_cons, CssItem.retained, CssItem.lines]
    | block openLine body closeLine =>
      simp only [CssItem.flat, Bool.and_eq_true, List.all_eq_true, bne_iff_ne, ne_eq,
        beq_iff_eq] at hit
      obtain ⟨⟨hopen, hbody⟩, hclose⟩ := hit
      have hstep := scanFrom_block (shouldKeepRule usedClasses usedIds) passThrough
        { inRule := false, currentRule := [], keepRule := false, kept := o }
        openLine body closeLine rfl hopen hbody hclose
      simp only [CssItem.lines]
      rw [hstep]
      by_cases hk : shouldKeepRule usedClasses usedIds (selectorOf (trim openLine)) = true
      · rw [if_pos hk, ih hrest]
        simp [List.filter_cons, CssItem.retained, CssItem.lines, hk]
      · rw [if_neg hk, ih hrest]
        simp [List.filter_cons, CssItem.retained, hk]

theorem openingSelectors_body (body rest : List Str) (hbody : ∀ b ∈ body, trim b ≠ ['}']) :
    openingSelectors true (body ++ rest) = openingSelectors true rest := by
  induction body with
  | nil => rfl
  | cons b bs ih =>
    have hb : trim b ≠ ['}'] := hbody b (List.mem_cons_self _ _)
    rw [List.cons_append, openingSelectors]
    simp only [Bool.not_true, Bool.and_false, Bool.false_eq_true, if_false, Bool.and_true,
      beq_iff_eq, hb]
    exact ih (fun x hx => hbody x (List.mem_cons_of_mem _ hx))

/-- In the lines of flat constructs the scanner opens as many blocks as there
are lines that trim to `}`. -/
theorem flat_braces_balanced (items : List CssItem) (hflat : ∀ it ∈ items, it.flat = true) :
    (openingSelectors false (items.flatMap CssItem.lines)).length
      = ((items.flatMap CssItem.lines).filter (fun l => trim l == ['}'])).length := by
  induction items with
  | nil => rfl
  | cons it rest ih =>
    have hit : it.flat = true := hflat it (List.mem_cons_self _ _)
    have hrest : ∀ x ∈ rest, x.flat = true := fun x hx => hflat x (List.mem_cons_of_mem _ hx)
    rw [List.flatMap_cons]
    cases it with
    | blank line =>
      have hb : trim line = [] := by simpa [CssItem.flat] using hit
      have h1 : includes ([] : Str) ['{'] = false := by decide
      simp only [CssItem.lines, List.singleton_append, openingSelectors, hb, h1,
        List.filter_cons]
      simpa using ih hrest
    | block openLine body closeLine =>
      simp only [CssItem.flat, Bool.and_eq_true, List.all_eq_true, bne_iff_ne, ne_eq,
        beq_iff_eq] at hit
      obtain ⟨⟨hopen, hbody⟩, hclose⟩ := hit
      have hno : includes ['}'] ['{'] = false := by decide
      have hopen2 : trim openLine ≠ ['}'] := by
        intro h
        rw [h, hno] at hopen
        exact Bool.false_ne_true hopen
      have hfb : body.filter (fun l => trim l == ['}']) = [] := by
        rw [List.filter_eq_nil_iff]
        intro b hb
        simpa using hbody b hb
      simp only [CssItem.lines, List.cons_append, List.append_assoc, List.singleton_append]
      rw [openingSelectors]
      simp only [hopen, Bool.not_false, Bool.and_self, if_true, List.length_cons]
      rw [openingSelectors_body body _ hbody, openingSelectors]
      simp only [hclose, hno, Bool.false_and, Bool.false_eq_true, if_false, beq_self_eq_true,
        Bool.and_self, if_true]
      rw [List.nil_append, ih hrest]
      simp [List.filter_cons, List.filter_append, hopen2, hfb, hclose]

/-- Claim C22.  For a stylesheet whose lines are the lines of a sequence of
flat constructs (blank lines, and blocks made of an opening line whose trimmed
text contains `{`, body lines none of which trims to `}`, and a closing line
that trims to `}`), `removeUnusedCSS` pushes exactly the blank lines and the
lines of the blocks whose selector satisfies `shouldKeepRule`, in their
original order, and returns them joined with `\n`; in what it pushes the
scanner opens as many blocks as there are lines that trim to `}`. -/
theorem removeUnusedCSS_flat (usedClasses usedIds : List Str) (css : Str)
    (items : List CssItem)
    (hlines : splitLines css = items.flatMap CssItem.lines)
    (hflat : ∀ it ∈ items, it.flat = true) :
    removeUnusedLines usedClasses usedIds (splitLines css)
        = (items.filter (CssItem.retained usedClasses usedIds)).flatMap CssItem.lines
      ∧ removeUnusedCSS usedClasses usedIds css
        = joinLines ((items.filter (CssItem.retained usedClasses usedIds)).flatMap
            CssItem.lines)
      ∧ (openingSelectors false
            (removeUnusedLines usedClasses usedIds (splitLines css))).length
        = ((removeUnusedLines usedClasses usedIds (splitLines css)).filter
            (fun l => trim l == ['}'])).length := by
  have h : removeUnusedLines usedClasses usedIds (splitLines css)
      = (items.filter (CssItem.retained usedClasses usedIds)).flatMap CssItem.lines := by
    unfold removeUnusedLines
    rw [hlines]
    have := scanFrom_flat usedClasses usedIds items hflat []
    unfold Scan.start
    rw [this]
    simp
  refine ⟨h, ?_, ?_⟩
  · unfold removeUnusedCSS
    rw [h]
  · rw [h]
    exact flat_braces_balanced _ (fun it hit => hflat it (List.mem_filter.1 hit).1)

theorem removeUnusedCSS_flat_witness :
    removeUnusedCSS ["btn".toList] []
        ".btn \x7b\n  color: red;\n\x7d\n\n.card \x7b\n  color: blue;\n\x7d\n".toList
      = ".btn \x7b\n  color: red;\n\x7d\n\n".toList :=
  (removeUnusedCSS_flat ["btn".toList] []
    ".btn \x7b\n  color: red;\n\x7d\n\n.card \x7b\n  color: blue;\n\x7d\n".toList
    [CssItem.block ".btn \x7b".toList ["  color: red;".toList] "\x7d".toList,
     CssItem.blank [],
     CssItem.block ".card \x7b".toList ["  color: blue;".toList] "\x7d".toList,
     CssItem.blank []]
    (by decide) (by decide)).2.1.trans (by decide)


/-! ## Sizes -/

theorem jsLength_nil : jsLength [] = 0 := rfl

theorem jsLength_cons (c : Char) (t : Str) : jsLength (c :: t) = codeUnits c + jsLength t := by
  simp [jsLength]

theorem jsLength_append (a b : Str) : jsLength (a ++ b) = jsLength a + jsLength b := by
  simp [jsLength]

theorem codeUnits_space_le (c : Char) : codeUnits ' ' ≤ codeUnits c := by
  have h : codeUnits ' ' = 1 := by decide
  rw [h]
  unfold codeUnits
  split <;> omega

theorem jsLength_sublist (a b : Str) (h : a.Sublist b) : jsLength a ≤ jsLength b := by
  induction h with
  | slnil => exact Nat.le_refl _
  | cons c _ ih => rw [jsLength_cons]; omega
  | cons₂ c _ ih => rw [jsLength_cons, jsLength_cons]; omega

theorem jsLength_trim (s : Str) : jsLength (trim s) ≤ jsLength s :=
  jsLength_sublist _ _ (trim_within s).sublist

theorem jsLength_removeComments (s : Str) (k : Nat) :
    jsLength (removeComments k s) ≤ jsLength s := by
  induction s generalizing k with
  | nil => cases k <;> simp [removeComments]
  | cons c t ih =>
    cases k with
    | succ k =>
      rw [removeComments, jsLength_cons]
      have := ih k
      omega
    | zero =>
      rw [removeComments]
      split
      · split
        · next n _ =>
          rw [jsLength_cons]
          have := ih (n + 1)
          omega
        · rw [jsLength_cons, jsLength_cons]
          have := ih 0
          omega
      · rw [jsLength_cons, jsLength_cons]
        have := ih 0
        omega

theorem jsLength_collapseWs (s : Str) (inRun : Bool) :
    jsLength (collapseWs inRun s) ≤ jsLength s := by
  induction s generalizing inRun with
  | nil => simp [collapseWs]
  | cons c t ih =>
    rw [collapseWs]
    split
    · split
      · rw [jsLength_cons]
        have := ih true
        omega
      · rw [jsLength_cons, jsLength_cons]
        have := ih true
        have := codeUnits_space_le c
        omega
    · rw [jsLength_cons, jsLength_cons]
      have := ih false
      omega

theorem jsLength_squeeze (x : Char) (s : Str) (afterX : Bool) :
    jsLength (squeeze x afterX s) ≤ jsLength s := by
  induction s generalizing afterX with
  | nil => simp [squeeze]
  | cons c t ih =>
    rw [squeeze]
    split
    · next h =>
      have hc : c = x := by simpa using h
      rw [jsLength_cons, jsLength_cons, hc]
      have := ih true
      omega
    · split
      · split
        · rw [jsLength_cons]
          have := ih true
          omega
        · split
          · rw [jsLength_cons]
            have := ih false
            omega
          · rw [jsLength_cons, jsLength_cons]
            have := ih false
            omega
      · rw [jsLength_cons, jsLength_cons]
        have := ih false
        omega

theorem jsLength_dropSemicolons (s : Str) : jsLength (dropSemicolons s) ≤ jsLength s := by
  induction s with
  | nil => simp [dropSemicolons]
  | cons c t ih =>
    rw [dropSemicolons]
    split
    · rw [jsLength_cons]
      omega
    · rw [jsLength_cons, jsLength_cons]
      omega

/-- The size of `minifyCSS(css)` is at most the size of `css`. -/
theorem jsLength_minifyCSS (css : Str) : jsLength (minifyCSS css) ≤ jsLength css := by
  unfold minifyCSS
  refine (jsLength_trim _).trans ?_
  refine (jsLength_dropSemicolons _).trans ?_
  refine (jsLength_squeeze _ _ _).trans ?_
  refine (jsLength_squeeze _ _ _).trans ?_
  refine (jsLength_squeeze _ _ _).trans ?_
  refine (jsLength_squeeze _ _ _).trans ?_
  refine (jsLength_squeeze _ _ _).trans ?_
  refine (jsLength_collapseWs _ _).trans ?_
  exact jsLength_removeComments _ _

/-- The size of joined lines, counted with one more unit: each line brings its
size and one unit for the `\n` after it. -/
theorem jsLength_joinLines (ls : List Str) (hne : ls ≠ []) :
    jsLength (joinLines ls) + 1 = (ls.map (fun l => jsLength l + 1)).sum := by
  induction ls with
  | nil => exact absurd rfl hne
  | cons a r ih =>
    cases r with
    | nil => simp [joinLines, List.intercalate, List.intersperse]
    | cons b r =>
      have h := ih (by simp)
      have hn : codeUnits '\n' = 1 := by decide
      rw [joinLines_cons_cons, jsLength_append, jsLength_cons, hn, List.map_cons,
        List.sum_cons]
      omega

theorem sum_sizes_sublist (a b : List Str) (h : a.Sublist b) :
    (a.map (fun l => jsLength l + 1)).sum ≤ (b.map (fun l => jsLength l + 1)).sum := by
  induction h with
  | slnil => exact Nat.le_refl _
  | cons c _ ih => rw [List.map_cons, List.sum_cons]; omega
  | cons₂ c _ ih => rw [List.map_cons, List.sum_cons, List.map_cons, List.sum_cons]; omega

theorem jsLength_joinLines_sublist (a b : List Str) (h : a.Sublist b) :
    jsLength (joinLines a) ≤ jsLength (joinLines b) := by
  by_cases ha : a = []
  · rw [ha]
    exact Nat.zero_le _
  · have hb : b ≠ [] := by
      rintro rfl
      exact ha (List.sublist_nil.1 h)
    have h1 := jsLength_joinLines a ha
    have h2 := jsLength_joinLines b hb
    have h3 := sum_sizes_sublist a b h
    omega

/-- The size of `removeUnusedCSS()` is at most the size of `cssContent`. -/
theorem jsLength_removeUnusedCSS (usedClasses usedIds : List Str) (css : Str) :
    jsLength (removeUnusedCSS usedClasses usedIds css) ≤ jsLength css := by
  have h := jsLength_joinLines_sublist _ _
    (scanFrom_start_sublist (shouldKeepRule usedClasses usedIds) passThrough (splitLines css))
  rw [joinLines_splitLines] at h
  exact h

/-- Claim C24.  For every text `S`, `minifyCSS(S).length ≤ S.length`; for every
stylesheet and used sets, `minifyCSS(removeUnusedCSS()).length ≤
cssContent.length`; and the savings `optimize` reports for a non-empty
stylesheet, whatever the scanned documents, is not negative.  Lengths are
counted in UTF-16 code units. -/
theorem optimized_never_larger (S : Str) (usedClasses usedIds : List Str) (css : Str)
    (htmlContents : List Str) :
    jsLength (minifyCSS S) ≤ jsLength S
      ∧ jsLength (minifyCSS (removeUnusedCSS usedClasses usedIds css)) ≤ jsLength css
      ∧ jsLength (optimize htmlContents css).optimizedBundle ≤ jsLength css
      ∧ (css ≠ [] → 0 ≤ savings css (optimize htmlContents css).optimizedBundle) := by
  have hopt : jsLength (optimize htmlContents css).optimizedBundle ≤ jsLength css :=
    (jsLength_minifyCSS _).trans (jsLength_removeUnusedCSS _ _ css)
  refine ⟨jsLength_minifyCSS S,
    (jsLength_minifyCSS _).trans (jsLength_removeUnusedCSS _ _ css), hopt, ?_⟩
  intro _
  unfold savings
  have h : (jsLength (optimize htmlContents css).optimizedBundle : ℚ) ≤ (jsLength css : ℚ) := by
    exact_mod_cast hopt
  have h2 : (0 : ℚ) ≤ (jsLength css : ℚ) := by positivity
  have h3 : (0 : ℚ) ≤ (jsLength css : ℚ) - (jsLength (optimize htmlContents css).optimizedBundle : ℚ) := by
    linarith
  positivity

theorem optimized_never_larger_witness :
    ".btn \x7b\n  color: red;\n\x7d\n".toList ≠ []
      ∧ 0 ≤ savings ".btn \x7b\n  color: red;\n\x7d\n".toList
          (optimize ["<a class=\"btn\">".toList]
            ".btn \x7b\n  color: red;\n\x7d\n".toList).optimizedBundle :=
  ⟨by decide,
   (optimized_never_larger [] [] [] ".btn \x7b\n  color: red;\n\x7d\n".toList
      ["<a class=\"btn\">".toList]).2.2.2 (by decide)⟩

end BuildOptimizer
